import Mathlib

/-!
Verification of the minesweeper solver (`solver.py`, with the cell model from
`minesweeper_engine.py`).  The board is a list of rows of cells, coordinates
are integer pairs `(row, col)`, sets of coordinates are `Finset (Int × Int)`,
and the source's unbounded `while` loops are embedded with an explicit fuel
that provably dominates their run length.  Functions that read the board
thread it through the state (`… × Board`) so that the absence of mutation is
a theorem rather than a modelling assumption.
-/

set_option maxHeartbeats 1000000

abbrev Coord := Int × Int

/-- Cell model from `minesweeper_engine.py` (`@dataclass class Cell`). -/
structure Cell where
  is_mine : Bool := false
  is_revealed : Bool := false
  is_flagged : Bool := false
  adjacent_mines : Nat := 0
deriving DecidableEq

abbrev Board := List (List Cell)

/-- The eight neighbor offsets (`DIRECTIONS` in `minesweeper_engine.py`). -/
def DIRECTIONS : List (Int × Int) :=
  [(-1, -1), (-1, 0), (-1, 1), (0, -1), (0, 1), (1, -1), (1, 0), (1, 1)]

def defaultCell : Cell := {}

/-- `board[row][col]`; only meaningful for in-bounds indices. -/
def getCell (b : Board) (r c : Int) : Cell :=
  (b.getD r.toNat []).getD c.toNat defaultCell

/-- `rows = len(board)`. -/
def numRows (b : Board) : Nat := b.length

/-- `cols = len(board[0]) if rows > 0 else 0`. -/
def numCols (b : Board) : Nat := (b.headD []).length

/-- The bounds check `0 <= n_row < rows and 0 <= n_col < cols`. -/
def inB (rows cols : Nat) (p : Coord) : Bool :=
  decide (0 ≤ p.1 ∧ p.1 < (rows : Int) ∧ 0 ≤ p.2 ∧ p.2 < (cols : Int))

/-- In-bounds neighbors of `(r, c)`, in `DIRECTIONS` order. -/
def nbrs (rows cols : Nat) (r c : Int) : List Coord :=
  DIRECTIONS.filterMap (fun d =>
    if inB rows cols (r + d.1, c + d.2) then some (r + d.1, c + d.2) else none)

/-- Row-major enumeration of the grid (`for row in range(rows): for col in range(cols)`). -/
def rowMajor (rows cols : Nat) : List Coord :=
  (List.range rows).flatMap (fun r =>
    (List.range cols).map (fun (c : Nat) => ((r : Int), (c : Int))))

/-- One cell's worth of `_apply_basic_rules`'s scan. -/
def basicStep (rows cols : Nat) (ks km : Finset Coord) (b : Board)
    (acc : Finset Coord × Finset Coord) (p : Coord) : Finset Coord × Finset Coord :=
  let cell := getCell b p.1 p.2
  if ¬cell.is_revealed ∨ cell.is_mine then acc
  else
    let ns := nbrs rows cols p.1 p.2
    let flaggedCnt := (ns.filter (fun q =>
      !(getCell b q.1 q.2).is_revealed &&
        ((getCell b q.1 q.2).is_flagged || decide (q ∈ km)))).length
    let unrevealed := ns.filter (fun q =>
      !(getCell b q.1 q.2).is_revealed &&
        !((getCell b q.1 q.2).is_flagged || decide (q ∈ km)) &&
        (decide (q ∉ ks) && decide (q ∉ km)))
    if unrevealed ≠ [] ∧ cell.adjacent_mines = flaggedCnt + unrevealed.length then
      (acc.1, acc.2 ∪ (unrevealed.filter (fun q => decide (q ∉ km))).toFinset)
    else if unrevealed ≠ [] ∧ cell.adjacent_mines = flaggedCnt then
      (acc.1 ∪ (unrevealed.filter (fun q => decide (q ∉ ks))).toFinset, acc.2)
    else acc

/-- Threads the (never written) board through a fold, mirroring statement-by-statement
    execution of a loop body that only reads the board. -/
def threadS {α β : Type} (g : Board → α → β → α) (s : α × Board) (x : β) : α × Board :=
  (g s.2 s.1 x, s.2)

/-- `_apply_basic_rules`, with the board threaded through. -/
def applyBasicRulesS (b : Board) (rows cols : Nat) (ks km : Finset Coord) :
    (Finset Coord × Finset Coord) × Board :=
  (rowMajor rows cols).foldl (threadS (basicStep rows cols ks km)) ((∅, ∅), b)

/-- `_apply_basic_rules` (result part). -/
def applyBasicRules (b : Board) (rows cols : Nat) (ks km : Finset Coord) :
    Finset Coord × Finset Coord :=
  (applyBasicRulesS b rows cols ks km).1

/-- A CSP constraint: (set of unknown cells, required mine count). -/
abbrev Constr := Finset Coord × Int

/-- One cell's worth of `_generate_constraints`'s scan. -/
def genStep (rows cols : Nat) (ks km : Finset Coord) (b : Board)
    (acc : List Constr) (p : Coord) : List Constr :=
  let cell := getCell b p.1 p.2
  if ¬cell.is_revealed ∨ cell.is_mine ∨ cell.adjacent_mines = 0 then acc
  else
    let ns := nbrs rows cols p.1 p.2
    let knownMineCount := (ns.filter (fun q =>
      decide (q ∈ km) || (getCell b q.1 q.2).is_flagged)).length
    let unknown := (ns.filter (fun q =>
      !(decide (q ∈ km) || (getCell b q.1 q.2).is_flagged) &&
        (!(getCell b q.1 q.2).is_revealed && decide (q ∉ ks)))).toFinset
    if unknown ≠ ∅ then
      acc ++ [(unknown, (cell.adjacent_mines : Int) - (knownMineCount : Int))]
    else acc

/-- `_generate_constraints`, with the board threaded through. -/
def generateConstraintsS (b : Board) (rows cols : Nat) (ks km : Finset Coord) :
    List Constr × Board :=
  (rowMajor rows cols).foldl (threadS (genStep rows cols ks km)) ([], b)

/-- `_generate_constraints` (result part). -/
def generateConstraints (b : Board) (rows cols : Nat) (ks km : Finset Coord) : List Constr :=
  (generateConstraintsS b rows cols ks km).1

/-- State of one pass of the subset-elimination loop in `_apply_csp_solver`:
    `new_constraints`, `processed`, the accumulated `safe_cells`/`mine_cells`,
    and the pass's `flag`. -/
structure PSt where
  newCs : List Constr
  processed : Finset Nat
  safe : Finset Coord
  mine : Finset Coord
  flag : Bool

/-- Body of the inner `for j, (limits2, count2) in enumerate(constraints)` loop. -/
def cspInner (cs : List Constr) (i : Nat) (l1 : Finset Coord) (c1 : Int)
    (s : PSt × Bool) (j : Nat) : PSt × Bool :=
  let st := s.1
  let added := s.2
  if i = j ∨ j ∈ st.processed then s
  else
    let l2 := (cs.getD j (∅, 0)).1
    let c2 := (cs.getD j (∅, 0)).2
    if l1 ⊆ l2 ∧ l1 ≠ l2 then
      let nl := l2 \ l1
      let nc := c2 - c1
      if nc = 0 then
        ({ st with safe := st.safe ∪ nl, flag := true, processed := insert j st.processed },
          added)
      else if nc = (nl.card : Int) then
        ({ st with mine := st.mine ∪ nl, flag := true, processed := insert j st.processed },
          added)
      else if nl ≠ ∅ then
        ({ st with newCs := st.newCs ++ [(nl, nc)], processed := insert j st.processed },
          true)
      else
        ({ st with processed := insert j st.processed }, added)
    else if l2 ⊆ l1 ∧ l1 ≠ l2 then
      let nl := l1 \ l2
      let nc := c1 - c2
      if nc = 0 then
        ({ st with safe := st.safe ∪ nl, flag := true, processed := insert j st.processed },
          added)
      else if nc = (nl.card : Int) then
        ({ st with mine := st.mine ∪ nl, flag := true, processed := insert j st.processed },
          added)
      else if nl ≠ ∅ then
        ({ st with newCs := st.newCs ++ [(nl, nc)], processed := insert j st.processed },
          true)
      else
        ({ st with processed := insert j st.processed }, added)
    else s

/-- Body of the outer `for i, (limits1, count1) in enumerate(constraints)` loop. -/
def cspOuter (cs : List Constr) (st : PSt) (i : Nat) : PSt :=
  if i ∈ st.processed then st
  else
    let l1 := (cs.getD i (∅, 0)).1
    let c1 := (cs.getD i (∅, 0)).2
    let r := (List.range cs.length).foldl (cspInner cs i l1 c1) (st, false)
    let st' := r.1
    let added := r.2
    if ¬added ∧ i ∉ st'.processed then
      if c1 = 0 then { st' with safe := st'.safe ∪ l1, flag := true }
      else if c1 = (l1.card : Int) then { st' with mine := st'.mine ∪ l1, flag := true }
      else { st' with newCs := st'.newCs ++ [(l1, c1)] }
    else st'

/-- One full pass of the subset-elimination loop (`flag = False; …` to the end of
    the pair scan). -/
def cspPass (cs : List Constr) (s m : Finset Coord) : PSt :=
  (List.range cs.length).foldl (cspOuter cs) ⟨[], ∅, s, m, false⟩

/-- The `while flag:` loop of `_apply_csp_solver`, with fuel and threaded board. -/
def cspLoopS (rows cols : Nat) (ks km : Finset Coord) :
    Nat → List Constr → Finset Coord → Finset Coord → Board →
    (Finset Coord × Finset Coord) × Board
  | 0, _, s, m, b => ((s, m), b)
  | fuel + 1, cs, s, m, b =>
    let st := cspPass cs s m
    if st.flag then
      if st.safe ≠ ∅ ∨ st.mine ≠ ∅ then
        let g := generateConstraintsS b rows cols (ks ∪ st.safe) (km ∪ st.mine)
        cspLoopS rows cols ks km fuel g.1 st.safe st.mine g.2
      else
        cspLoopS rows cols ks km fuel st.newCs st.safe st.mine b
    else ((st.safe, st.mine), b)

/-- `_apply_csp_solver`, with the board threaded through.  The fuel
    `rows * cols + 1` dominates the loop's run length (theorem `cspLoop_stable`). -/
def applyCspSolverS (b : Board) (rows cols : Nat) (ks km : Finset Coord) :
    (Finset Coord × Finset Coord) × Board :=
  let g := generateConstraintsS b rows cols ks km
  if g.1 = [] then ((∅, ∅), g.2)
  else cspLoopS rows cols ks km (rows * cols + 1) g.1 ∅ ∅ g.2

/-- `_apply_csp_solver` (result part). -/
def applyCspSolver (b : Board) (rows cols : Nat) (ks km : Finset Coord) :
    Finset Coord × Finset Coord :=
  (applyCspSolverS b rows cols ks km).1

/-- The `while flag:` loop of `solve_step` around `_apply_basic_rules`. -/
def basicLoopS (rows cols : Nat) :
    Nat → Finset Coord × Finset Coord → Board → (Finset Coord × Finset Coord) × Board
  | 0, sm, b => (sm, b)
  | fuel + 1, sm, b =>
    let r := applyBasicRulesS b rows cols sm.1 sm.2
    if r.1.1 ≠ ∅ ∨ r.1.2 ≠ ∅ then
      basicLoopS rows cols fuel (sm.1 ∪ r.1.1, sm.2 ∪ r.1.2) r.2
    else (sm, r.2)

/-- `solve_step`, with the board threaded through. -/
def solveStepS (b : Board) : (Finset Coord × Finset Coord) × Board :=
  let rows := numRows b
  let cols := numCols b
  let r1 := basicLoopS rows cols (rows * cols + 1) (∅, ∅) b
  let r2 := applyCspSolverS r1.2 rows cols r1.1.1 r1.1.2
  ((r1.1.1 ∪ r2.1.1, r1.1.2 ∪ r2.1.2), r2.2)

/-- `solve_step` (result part): (safe cells, mine cells). -/
def solveStep (b : Board) : Finset Coord × Finset Coord :=
  (solveStepS b).1

/-! ### Sorted enumeration of coordinate sets

Models Python's `sorted(list(s))` (tuples compare lexicographically); plain
`list(s)`/set iteration is also modelled by this canonical enumeration, which
is observationally adequate wherever iteration order is irrelevant or
unspecified. -/

def coordLe : Coord → Coord → Prop := fun p q => p.1 < q.1 ∨ (p.1 = q.1 ∧ p.2 ≤ q.2)

instance : DecidableRel coordLe := fun p q => by
  unfold coordLe; infer_instance

instance : IsTrans Coord coordLe :=
  ⟨by intro a b c hab hbc; unfold coordLe at *; omega⟩

instance : IsAntisymm Coord coordLe := by
  refine ⟨?_⟩
  intro a b hab hba
  unfold coordLe at *
  have h1 : a.1 = b.1 := by omega
  have h2 : a.2 = b.2 := by omega
  exact Prod.ext h1 h2

instance : IsTotal Coord coordLe :=
  ⟨by intro a b; unfold coordLe; omega⟩

def listOf (s : Finset Coord) : List Coord :=
  Quot.liftOn s.val (fun l => l.insertionSort coordLe) fun _ _ h =>
    List.eq_of_perm_of_sorted
      ((List.perm_insertionSort coordLe _).trans
        (h.trans (List.perm_insertionSort coordLe _).symm))
      (List.sorted_insertionSort coordLe _) (List.sorted_insertionSort coordLe _)

theorem listOf_coe (s : Finset Coord) : (listOf s : Multiset Coord) = s.val := by
  rcases s with ⟨m, hm⟩
  refine Quot.inductionOn m (fun l _ => ?_) hm
  exact Quot.sound (List.perm_insertionSort coordLe l)

theorem mem_listOf (s : Finset Coord) (a : Coord) : a ∈ listOf s ↔ a ∈ s := by
  rw [← Multiset.mem_coe, listOf_coe]
  rfl

theorem listOf_nodup (s : Finset Coord) : (listOf s).Nodup := by
  have h : (listOf s : Multiset Coord).Nodup := by rw [listOf_coe]; exact s.nodup
  exact h

theorem listOf_toFinset (s : Finset Coord) : (listOf s).toFinset = s := by
  ext a
  rw [List.mem_toFinset, mem_listOf]

theorem listOf_length (s : Finset Coord) : (listOf s).length = s.card := by
  have h := congrArg Multiset.card (listOf_coe s)
  simpa using h

/-! ### `UnionFind` (`class UnionFind` in `solver.py`)

`parent` and `rank` are total functions; keys absent from the Python dicts are
mapped to themselves (resp. `0`), which coincides with what `add` would
install.  `domain` tracks the key set.  The recursive, path-compressing `find`
gets an explicit fuel. -/

structure UF where
  parent : Coord → Coord
  rank : Coord → Nat
  domain : Finset Coord

def UF.empty : UF := ⟨id, fun _ => 0, ∅⟩

/-- `UnionFind.add`. -/
def ufAdd (uf : UF) (x : Coord) : UF :=
  if x ∈ uf.domain then uf
  else
    { parent := Function.update uf.parent x x,
      rank := Function.update uf.rank x 0,
      domain := insert x uf.domain }

/-- `UnionFind.find` with path compression, fuelled. -/
def ufFind : Nat → UF → Coord → Coord × UF
  | 0, uf, x => (x, uf)
  | fuel + 1, uf, x =>
    let uf1 := ufAdd uf x
    if uf1.parent x = x then (x, uf1)
    else
      let r := ufFind fuel uf1 (uf1.parent x)
      (r.1, { r.2 with parent := Function.update r.2.parent x r.1 })

/-- `UnionFind.union` (union by rank). -/
def ufUnion (fuel : Nat) (uf : UF) (x y : Coord) : UF :=
  let r1 := ufFind fuel uf x
  let r2 := ufFind fuel r1.2 y
  let root1 := r1.1
  let root2 := r2.1
  let uf2 := r2.2
  if root1 = root2 then uf2
  else if uf2.rank root1 < uf2.rank root2 then
    { uf2 with parent := Function.update uf2.parent root1 root2 }
  else if uf2.rank root2 < uf2.rank root1 then
    { uf2 with parent := Function.update uf2.parent root2 root1 }
  else
    { uf2 with parent := Function.update uf2.parent root2 root1,
               rank := Function.update uf2.rank root1 (uf2.rank root1 + 1) }

/-- Dictionary insertion for `get_groups`' `root -> set of elements` map. -/
def dictAddSet (d : List (Coord × Finset Coord)) (k x : Coord) :
    List (Coord × Finset Coord) :=
  if d.any (fun e => e.1 = k) then
    d.map (fun e => if e.1 = k then (e.1, insert x e.2) else e)
  else d ++ [(k, {x})]

/-- `UnionFind.get_groups` (its return value is discarded by the solver; its
    path-compression side effects on the structure are kept). -/
def ufGroups (fuel : Nat) (uf : UF) : List (Coord × Finset Coord) × UF :=
  (listOf uf.domain).foldl (fun acc x =>
    let r := ufFind fuel acc.2 x
    (dictAddSet acc.1 r.1 x, r.2)) ([], uf)

/-- Union of all constraints' cell sets. -/
def cellsOf (cs : List Constr) : Finset Coord := cs.foldl (fun a c => a ∪ c.1) ∅

/-- Dictionary insertion for `region_to_constraints` (append under existing key,
    new keys at the end, as Python dicts preserve insertion order). -/
def dictAddCon (d : List (Coord × List Constr)) (k : Coord) (c : Constr) :
    List (Coord × List Constr) :=
  if d.any (fun e => e.1 = k) then
    d.map (fun e => if e.1 = k then (e.1, e.2 ++ [c]) else e)
  else d ++ [(k, [c])]

/-- Phase 1 of `_find_independent_regions`: `add` every constraint cell. -/
def ufAddAll (cs : List Constr) : UF :=
  cs.foldl (fun uf c => (listOf c.1).foldl ufAdd uf) UF.empty

/-- One constraint's unions: `union` every adjacent pair of its cell list. -/
def ufUnionCon (fuel : Nat) (u : UF) (c : Constr) : UF :=
  let cl := listOf c.1
  (List.range (cl.length - 1)).foldl
    (fun u j => ufUnion fuel u (cl.getD j (0, 0)) (cl.getD (j + 1) (0, 0))) u

/-- Phase 2 of `_find_independent_regions`: chain each constraint's cells. -/
def ufUnionAll (fuel : Nat) (cs : List Constr) (uf : UF) : UF :=
  cs.foldl (ufUnionCon fuel) uf

/-- One step of the `region_to_constraints` loop: bucket `c` under the root of
    its first cell (`none` models the `StopIteration` on an empty cell set). -/
def regionStep (fuel : Nat) (acc : Option (List (Coord × List Constr) × UF))
    (c : Constr) : Option (List (Coord × List Constr) × UF) :=
  match acc with
  | none => none
  | some du =>
    match listOf c.1 with
    | [] => none
    | x :: _ =>
      let f := ufFind fuel du.2 x
      some (dictAddCon du.1 f.1 c, f.2)

/-- `_find_independent_regions`.  Returns `none` when some constraint has an
    empty cell set, where the source's `next(iter(cells))` raises
    `StopIteration`.  The fuel dominates every union-find chain length. -/
def findIndependentRegions (cs : List Constr) : Option (List (List Constr)) :=
  if cs = [] then some []
  else
    let fuel := (cellsOf cs).card + 2
    let uf1 := ufUnionAll fuel cs (ufAddAll cs)
    let g := ufGroups fuel uf1
    match cs.foldl (regionStep fuel) (some ([], g.2)) with
    | none => none
    | some du => some (du.1.map (fun e => e.2))

/-! ### Exact probability calculation (`_calculate_probabilities` and friends) -/

/-- The dictionary `{cells_list[i]: assignment[i]}` with `.get(cell, 0)`;
    later bindings win, as in a Python dict comprehension. -/
def cellToValue (cells : List Coord) (asg : List Int) (p : Coord) : Int :=
  (((cells.zip asg).reverse).lookup p).getD 0

/-- `_check_constraints`. -/
def checkConstraints (asg : List Int) (cells : List Coord) (cs : List Constr) : Bool :=
  cs.all (fun c => decide ((c.1.sum fun p => cellToValue cells asg p) = c.2))

/-- `_is_promising`. -/
def isPromising (pasg : List Int) (cells : List Coord) (cs : List Constr) : Bool :=
  cs.all (fun c =>
    let dom := cells.take pasg.length
    let mineCount := (c.1.filter (fun p => p ∈ dom ∧ cellToValue cells pasg p = 1)).card
    let unassigned := (c.1.filter (fun p => p ∉ dom)).card
    decide (¬((mineCount : Int) > c.2)) &&
      decide (¬((mineCount : Int) + (unassigned : Int) < c.2)))

/-- The `backtrack` closure, returning the list of satisfying complete
    assignments it visits (solution counter and per-cell tallies are derived
    from this list).  The fuel is `n - len(assignment)`. -/
def backtrackSols (cells : List Coord) (cs : List Constr) : Nat → List Int → List (List Int)
  | 0, asg => if checkConstraints asg cells cs then [asg] else []
  | fuel + 1, asg =>
    ([0, 1] : List Int).flatMap (fun v =>
      if isPromising (asg ++ [v]) cells cs then backtrackSols cells cs fuel (asg ++ [v])
      else [])

/-- `_calculate_probabilities` (probabilities as exact rationals). -/
def calculateProbabilities (cs : List Constr) (cells : Finset Coord) :
    List (Coord × ℚ) :=
  let cellsList := listOf cells
  let n := cellsList.length
  if n = 0 then []
  else
    let sols := backtrackSols cellsList cs n []
    let total := sols.length
    if total = 0 then cellsList.map (fun c => (c, (1 : ℚ) / 2))
    else cellsList.map (fun c =>
      (c, ((sols.filter (fun a => cellToValue cellsList a c = 1)).length : ℚ) / (total : ℚ)))

/-! ### `make_probabilistic_move` -/

/-- `cell_probabilities.update(...)`: existing keys are overwritten in place,
    new keys appended (Python dict update semantics). -/
def dictUpdate (d upd : List (Coord × ℚ)) : List (Coord × ℚ) :=
  upd.foldl (fun acc e =>
    if acc.any (fun e' => e'.1 = e.1) then
      acc.map (fun e' => if e'.1 = e.1 then e else e')
    else acc ++ [e]) d

/-- `dict.get(p, dflt)`. -/
def lookupD (d : List (Coord × ℚ)) (p : Coord) (dflt : ℚ) : ℚ :=
  (d.lookup p).getD dflt

/-- `min(cell_probabilities.keys(), key=...)`: first key attaining the minimal
    value, in dictionary order. -/
def selectMin (d : List (Coord × ℚ)) : Option Coord :=
  match d with
  | [] => none
  | e :: rest => some ((rest.foldl (fun best e' => if e'.2 < best.2 then e' else best) e).1)

/-- The `unrevealed_cells` set collected by `make_probabilistic_move`. -/
def unrevealedSet (b : Board) : Finset Coord :=
  ((rowMajor (numRows b) (numCols b)).filter (fun p =>
    !(getCell b p.1 p.2).is_revealed && !(getCell b p.1 p.2).is_flagged)).toFinset

/-- `border_cells`: union of the cell sets of the freshly generated constraints. -/
def borderSet (b : Board) : Finset Coord :=
  cellsOf (generateConstraints b (numRows b) (numCols b) ∅ ∅)

/-- `interior_cells = unrevealed_cells - border_cells`. -/
def interiorSet (b : Board) : Finset Coord := unrevealedSet b \ borderSet b

/-- `flagged_mines`: number of flagged cells on the board. -/
def flaggedCount (b : Board) : Nat :=
  ((rowMajor (numRows b) (numCols b)).filter (fun p => (getCell b p.1 p.2).is_flagged)).length

/-- The per-region probability accumulation loop of `make_probabilistic_move`. -/
def regionProbs (regions : List (List Constr)) : List (Coord × ℚ) :=
  regions.foldl (fun d rc =>
    let regionCells := cellsOf rc
    if regionCells = ∅ then d
    else dictUpdate d (calculateProbabilities rc regionCells)) []

/-- The independent regions of the freshly generated constraints. -/
def regionsOf (b : Board) : Option (List (List Constr)) :=
  findIndependentRegions (generateConstraints b (numRows b) (numCols b) ∅ ∅)

/-- The `cell_probabilities` dictionary of `make_probabilistic_move` after the
    interior-cell assignment; `none` models the unreachable `StopIteration`
    path in `_find_independent_regions`. -/
def cellProbsOf (tm : Int) (b : Board) : Option (List (Coord × ℚ)) :=
  match regionsOf b with
  | none => none
  | some regions =>
    let cellProbs := regionProbs regions
    some (if interiorSet b ≠ ∅ then
      let borderMineCount := (borderSet b).sum (fun p => lookupD cellProbs p ((1 : ℚ) / 2))
      let remaining : ℚ := (tm : ℚ) - (flaggedCount b : ℚ) - borderMineCount
      let interiorProb : ℚ :=
        if interiorSet b ≠ ∅ then max 0 (remaining / ((interiorSet b).card : ℚ)) else 1
      dictUpdate cellProbs ((listOf (interiorSet b)).map (fun c => (c, interiorProb)))
    else cellProbs)

/-- `make_probabilistic_move`.  `tm` is `self.total_mines`; `pick` models
    `random.choice` (an arbitrary selector from a non-empty candidate list);
    probabilities are exact rationals. -/
def makeProbMove (tm : Int) (b : Board) (pick : List Coord → Coord) : Option Coord :=
  if unrevealedSet b = ∅ then some (0, 0)
  else
    let cs := generateConstraints b (numRows b) (numCols b) ∅ ∅
    if cs = [] then some (pick (listOf (unrevealedSet b)))
    else
      match cellProbsOf tm b with
      | none => none
      | some cellProbs2 =>
        if cellProbs2 ≠ [] then selectMin cellProbs2
        else some (pick (listOf (unrevealedSet b)))

/-! ### Specification-side notions -/

/-- All in-bounds coordinates as a set. -/
def coordsFin (rows cols : Nat) : Finset Coord := (rowMajor rows cols).toFinset

/-- Number of in-bounds neighbors of `p` carrying a mine under arrangement `M`. -/
def adjCnt (rows cols : Nat) (M : Coord → Bool) (p : Coord) : Nat :=
  ((nbrs rows cols p.1 p.2).filter M).length

/-- The claim's literal notion of a consistent full-board mine arrangement:
    revealed non-mine cells carry no mine and their stored adjacent counts are
    realized. -/
def ConsistentCounts (b : Board) (M : Coord → Bool) : Prop :=
  ∀ p ∈ coordsFin (numRows b) (numCols b),
    (getCell b p.1 p.2).is_revealed = true ∧ (getCell b p.1 p.2).is_mine = false →
      M p = false ∧ adjCnt (numRows b) (numCols b) M p = (getCell b p.1 p.2).adjacent_mines

/-- Consistency as the amended claim needs it: additionally, no revealed cell
    carries a mine and every flagged cell carries one. -/
def Consistent (b : Board) (M : Coord → Bool) : Prop :=
  ∀ p ∈ coordsFin (numRows b) (numCols b),
    ((getCell b p.1 p.2).is_revealed = true → M p = false) ∧
    ((getCell b p.1 p.2).is_flagged = true → M p = true) ∧
    ((getCell b p.1 p.2).is_revealed = true ∧ (getCell b p.1 p.2).is_mine = false →
      adjCnt (numRows b) (numCols b) M p = (getCell b p.1 p.2).adjacent_mines)

instance (b : Board) (M : Coord → Bool) : Decidable (ConsistentCounts b M) := by
  unfold ConsistentCounts; infer_instance

instance (b : Board) (M : Coord → Bool) : Decidable (Consistent b M) := by
  unfold Consistent; infer_instance

/-- Number of mines `M` places inside a finite set. -/
def indSum (M : Coord → Bool) (S : Finset Coord) : Int :=
  S.sum (fun p => if M p then 1 else 0)

/-- The already-proven safe/mine sets are respected by the arrangement. -/
def SoundSets (M : Coord → Bool) (ks km : Finset Coord) : Prop :=
  (∀ p ∈ ks, M p = false) ∧ (∀ p ∈ km, M p = true)

instance (M : Coord → Bool) (ks km : Finset Coord) : Decidable (SoundSets M ks km) := by
  unfold SoundSets; infer_instance

/-- Every constraint in the list is exact for the arrangement. -/
def SoundCs (M : Coord → Bool) (cs : List Constr) : Prop :=
  ∀ c ∈ cs, indSum M c.1 = c.2

instance (M : Coord → Bool) (cs : List Constr) : Decidable (SoundCs M cs) := by
  unfold SoundCs; infer_instance

/-- Number of complete mine placements over `cells` satisfying every
    constraint exactly. -/
def satCount (cs : List Constr) (cells : Finset Coord) : Nat :=
  (cells.powerset.filter (fun S => ∀ c ∈ cs, ((c.1 ∩ S).card : Int) = c.2)).card

/-- Among those, the number placing a mine on `p`. -/
def satMineCount (cs : List Constr) (cells : Finset Coord) (p : Coord) : Nat :=
  (cells.powerset.filter (fun S =>
    (∀ c ∈ cs, ((c.1 ∩ S).card : Int) = c.2) ∧ p ∈ S)).card

/-- Naive enumeration of all `2^n` assignments, in the backtracking's
    depth-first order. -/
def binVecs : Nat → List (List Int)
  | 0 => [[]]
  | n + 1 => ([0, 1] : List Int).flatMap (fun v => (binVecs n).map (fun a => v :: a))

/-- Spec-side description of a generated constraint's cell set: the hidden,
    unflagged neighbors not already known safe or known mine. -/
def unknownNbrsSpec (b : Board) (rows cols : Nat) (ks km : Finset Coord) (p : Coord) :
    Finset Coord :=
  ((nbrs rows cols p.1 p.2).filter (fun q =>
    !(getCell b q.1 q.2).is_revealed && !(getCell b q.1 q.2).is_flagged &&
      (decide (q ∉ ks) && decide (q ∉ km)))).toFinset

/-- Spec-side description of a generated constraint's subtracted term: the
    number of neighbors flagged or known to be mines. -/
def flaggedOrKnownCnt (b : Board) (rows cols : Nat) (km : Finset Coord) (p : Coord) : Nat :=
  ((nbrs rows cols p.1 p.2).filter (fun q =>
    (getCell b q.1 q.2).is_flagged || decide (q ∈ km))).length

/-! ### Generic fold lemmas -/

theorem foldl_threadS {α β : Type} (g : Board → α → β → α) (l : List β) (a : α) (b : Board) :
    l.foldl (threadS g) (a, b) = (l.foldl (g b) a, b) := by
  induction l generalizing a with
  | nil => rfl
  | cons x xs ih => simpa [threadS] using ih (g b a x)

theorem foldl_inv {α β : Type} {P : α → Prop} (f : α → β → α) (l : List β)
    (h : ∀ a x, x ∈ l → P a → P (f a x)) (a : α) (ha : P a) : P (l.foldl f a) := by
  induction l generalizing a with
  | nil => exact ha
  | cons x xs ih =>
    exact ih (fun a y hy => h a y (List.mem_cons_of_mem _ hy))
      (f a x) (h a x (List.mem_cons_self _ _) ha)

theorem foldl_emits {β γ : Type} (f : List γ → β → List γ) (g : β → List γ)
    (l : List β) (h : ∀ acc x, x ∈ l → f acc x = acc ++ g x) (init : List γ) :
    l.foldl f init = init ++ l.flatMap g := by
  induction l generalizing init with
  | nil => simp
  | cons x xs ih =>
    rw [List.foldl_cons, h init x (List.mem_cons_self _ _),
      ih (fun acc y hy => h acc y (List.mem_cons_of_mem _ hy))]
    simp

theorem flatMap_if_single {β γ : Type} (l : List β) (q : β → Bool) (f : β → γ) :
    (l.flatMap (fun x => if q x then [f x] else [])) = (l.filter q).map f := by
  induction l with
  | nil => rfl
  | cons x xs ih => by_cases h : q x <;> simp [h, ih]

/-! ### The board is never mutated -/

theorem applyBasicRulesS_snd (b : Board) (rows cols : Nat) (ks km : Finset Coord) :
    (applyBasicRulesS b rows cols ks km).2 = b := by
  unfold applyBasicRulesS; rw [foldl_threadS]

theorem applyBasicRules_eq_foldl (b : Board) (rows cols : Nat) (ks km : Finset Coord) :
    applyBasicRules b rows cols ks km =
      (rowMajor rows cols).foldl (basicStep rows cols ks km b) (∅, ∅) := by
  unfold applyBasicRules applyBasicRulesS; rw [foldl_threadS]

theorem generateConstraintsS_snd (b : Board) (rows cols : Nat) (ks km : Finset Coord) :
    (generateConstraintsS b rows cols ks km).2 = b := by
  unfold generateConstraintsS; rw [foldl_threadS]

theorem generateConstraints_eq_foldl (b : Board) (rows cols : Nat) (ks km : Finset Coord) :
    generateConstraints b rows cols ks km =
      (rowMajor rows cols).foldl (genStep rows cols ks km b) [] := by
  unfold generateConstraints generateConstraintsS; rw [foldl_threadS]

theorem basicLoopS_snd (rows cols : Nat) :
    ∀ (fuel : Nat) (sm : Finset Coord × Finset Coord) (b : Board),
      (basicLoopS rows cols fuel sm b).2 = b := by
  intro fuel
  induction fuel with
  | zero => intro sm b; rfl
  | succ n ih =>
    intro sm b
    show (basicLoopS rows cols (n + 1) sm b).2 = b
    simp only [basicLoopS]
    split
    · rw [applyBasicRulesS_snd, ih]
    · simp [applyBasicRulesS_snd]

theorem cspLoopS_snd (rows cols : Nat) (ks km : Finset Coord) :
    ∀ (fuel : Nat) (cs : List Constr) (s m : Finset Coord) (b : Board),
      (cspLoopS rows cols ks km fuel cs s m b).2 = b := by
  intro fuel
  induction fuel with
  | zero => intro cs s m b; rfl
  | succ n ih =>
    intro cs s m b
    show (cspLoopS rows cols ks km (n + 1) cs s m b).2 = b
    simp only [cspLoopS]
    split
    · split
      · rw [generateConstraintsS_snd, ih]
      · rw [ih]
    · rfl

theorem applyCspSolverS_snd (b : Board) (rows cols : Nat) (ks km : Finset Coord) :
    (applyCspSolverS b rows cols ks km).2 = b := by
  simp only [applyCspSolverS]
  split
  · exact generateConstraintsS_snd ..
  · rw [generateConstraintsS_snd, cspLoopS_snd]

theorem solveStepS_snd (b : Board) : (solveStepS b).2 = b := by
  unfold solveStepS
  simp only [basicLoopS_snd, applyCspSolverS_snd]

/-- Claim C4: calling `solve_step` twice in succession on the same board
    without applying its results leaves every cell of the board unchanged (the
    solver never writes to the board it threads through) and returns equal
    (safe set, mine set) pairs both times. -/
theorem c4_solve_step_pure_idempotent (b : Board) :
    (solveStepS b).2 = b ∧
      (solveStepS ((solveStepS b).2)).1 = (solveStepS b).1 := by
  refine ⟨solveStepS_snd b, ?_⟩
  rw [solveStepS_snd]

/-! ### Claim C8: characterization of `_generate_constraints` -/

theorem genStep_eq (rows cols : Nat) (ks km : Finset Coord) (b : Board)
    (acc : List Constr) (p : Coord) :
    genStep rows cols ks km b acc p = acc ++
      (if ((getCell b p.1 p.2).is_revealed && !(getCell b p.1 p.2).is_mine &&
            decide (0 < (getCell b p.1 p.2).adjacent_mines) &&
            decide (unknownNbrsSpec b rows cols ks km p ≠ ∅)) then
          [(unknownNbrsSpec b rows cols ks km p,
            ((getCell b p.1 p.2).adjacent_mines : Int) -
              (flaggedOrKnownCnt b rows cols km p : Int))]
        else []) := by
  have hu : ((nbrs rows cols p.1 p.2).filter (fun q =>
      !(decide (q ∈ km) || (getCell b q.1 q.2).is_flagged) &&
        (!(getCell b q.1 q.2).is_revealed && decide (q ∉ ks)))).toFinset =
      unknownNbrsSpec b rows cols ks km p := by
    unfold unknownNbrsSpec
    congr 1
    apply List.filter_congr
    intro q _
    by_cases h1 : q ∈ km <;> by_cases h2 : q ∈ ks <;>
      cases hf : (getCell b q.1 q.2).is_flagged <;>
      cases hr : (getCell b q.1 q.2).is_revealed <;>
      simp [h1, h2]
  have hc : ((nbrs rows cols p.1 p.2).filter (fun q =>
      decide (q ∈ km) || (getCell b q.1 q.2).is_flagged)).length =
      flaggedOrKnownCnt b rows cols km p := by
    unfold flaggedOrKnownCnt
    congr 1
    apply List.filter_congr
    intro q _
    by_cases h1 : q ∈ km <;> cases hf : (getCell b q.1 q.2).is_flagged <;> simp [h1]
  simp only [genStep, hu, hc]
  cases hr : (getCell b p.1 p.2).is_revealed <;>
    cases hm : (getCell b p.1 p.2).is_mine <;>
    rcases Nat.eq_zero_or_pos (getCell b p.1 p.2).adjacent_mines with ha | ha <;>
    by_cases hnn : unknownNbrsSpec b rows cols ks km p = ∅ <;>
    simp [hr, hm, ha, hnn, Nat.pos_iff_ne_zero.mp, Nat.not_eq_zero_of_lt]

/-- Claim C8: `_generate_constraints` produces exactly one constraint per
    revealed, non-mine cell with positive adjacent count having at least one
    unknown neighbor (in row-major order); its cell set is precisely the
    hidden, unflagged neighbors outside the known-safe/known-mine sets, its
    count is the adjacent count minus the number of flagged-or-known-mine
    neighbors, and no constraint with an empty cell set is produced. -/
theorem c8_generate_constraints (b : Board) (rows cols : Nat) (ks km : Finset Coord) :
    generateConstraints b rows cols ks km =
      ((rowMajor rows cols).filter (fun p =>
        (getCell b p.1 p.2).is_revealed && !(getCell b p.1 p.2).is_mine &&
          decide (0 < (getCell b p.1 p.2).adjacent_mines) &&
          decide (unknownNbrsSpec b rows cols ks km p ≠ ∅))).map
        (fun p => (unknownNbrsSpec b rows cols ks km p,
          ((getCell b p.1 p.2).adjacent_mines : Int) -
            (flaggedOrKnownCnt b rows cols km p : Int))) ∧
      ∀ c ∈ generateConstraints b rows cols ks km, c.1 ≠ ∅ := by
  have h1 : generateConstraints b rows cols ks km =
      ((rowMajor rows cols).filter (fun p =>
        (getCell b p.1 p.2).is_revealed && !(getCell b p.1 p.2).is_mine &&
          decide (0 < (getCell b p.1 p.2).adjacent_mines) &&
          decide (unknownNbrsSpec b rows cols ks km p ≠ ∅))).map
        (fun p => (unknownNbrsSpec b rows cols ks km p,
          ((getCell b p.1 p.2).adjacent_mines : Int) -
            (flaggedOrKnownCnt b rows cols km p : Int))) := by
    rw [generateConstraints_eq_foldl,
      foldl_emits _ _ _ (fun acc x _ => genStep_eq rows cols ks km b acc x),
      flatMap_if_single]
    rfl
  refine ⟨h1, ?_⟩
  intro c hc
  rw [h1] at hc
  obtain ⟨p, hp, hpc⟩ := List.mem_map.mp hc
  have h2 := List.of_mem_filter hp
  simp only [Bool.and_eq_true, decide_eq_true_eq] at h2
  rw [← hpc]
  exact h2.2


/-! ### Lookup and zip facts for the assignment dictionaries -/

theorem lookup_append {α β : Type} [BEq α] (l₁ l₂ : List (α × β)) (a : α) :
    (l₁ ++ l₂).lookup a = (l₁.lookup a).or (l₂.lookup a) := by
  induction l₁ with
  | nil => simp [List.lookup]
  | cons e es ih =>
    obtain ⟨k, v⟩ := e
    cases he : a == k <;> simp [List.lookup, he, ih]

theorem lookup_eq_none_keys {α β : Type} [BEq α] [LawfulBEq α]
    (l : List (α × β)) (a : α) :
    l.lookup a = none ↔ a ∉ l.map Prod.fst := by
  induction l with
  | nil => simp [List.lookup]
  | cons e es ih =>
    obtain ⟨k, v⟩ := e
    cases he : a == k
    · have : ¬a = k := by simpa using he
      simp [List.lookup, he, ih, this]
    · have : a = k := by simpa using he
      simp [List.lookup, he, this]

theorem lookup_reverse_nodup {α β : Type} [BEq α] [LawfulBEq α]
    (l : List (α × β)) (h : (l.map Prod.fst).Nodup) (a : α) :
    l.reverse.lookup a = l.lookup a := by
  induction l with
  | nil => rfl
  | cons e es ih =>
    obtain ⟨k, v⟩ := e
    have hk : k ∉ es.map Prod.fst := by simpa using (List.nodup_cons.mp h).1
    have hnd : (es.map Prod.fst).Nodup := (List.nodup_cons.mp h).2
    show ((k, v) :: es).reverse.lookup a = _
    rw [List.reverse_cons, lookup_append]
    cases he : a == k
    · have : ¬a = k := by simpa using he
      simp [List.lookup, he, ih hnd]
    · have ha : a = k := by simpa using he
      have : es.lookup a = none := by
        rw [lookup_eq_none_keys]; rw [ha]; exact hk
      have hrev : es.reverse.lookup a = none := by
        rw [lookup_eq_none_keys]
        rw [ha]; simpa using hk
      simp [List.lookup, he, hrev, this]

theorem lookup_some_mem {α β : Type} [BEq α] [LawfulBEq α]
    {l : List (α × β)} {a : α} {w : β} (h : l.lookup a = some w) : (a, w) ∈ l := by
  induction l with
  | nil => simp [List.lookup] at h
  | cons e es ih =>
    obtain ⟨k, v⟩ := e
    cases he : a == k
    · simp [List.lookup, he] at h
      exact List.mem_cons_of_mem _ (ih h)
    · have ha : a = k := by simpa using he
      simp [List.lookup, he] at h
      subst ha; subst h
      exact List.mem_cons_self _ _

theorem lookup_graph {α β : Type} [BEq α] [LawfulBEq α] (f : α → β) (l : List α) (p : α) :
    (l.map (fun c => (c, f c))).lookup p = if p ∈ l then some (f p) else none := by
  induction l with
  | nil => simp [List.lookup]
  | cons c cs ih =>
    cases he : p == c
    · have : ¬p = c := by simpa using he
      simp [List.lookup, he, ih, this]
    · have : p = c := by simpa using he
      subst this
      simp [List.lookup, he]

theorem map_fst_zip_take {α β : Type} :
    ∀ (l : List α) (l' : List β), (l.zip l').map Prod.fst = l.take l'.length := by
  intro l
  induction l with
  | nil => intro l'; simp
  | cons x xs ih =>
    intro l'
    cases l' with
    | nil => simp
    | cons y ys => simp [ih]

theorem zip_take_eq {α β : Type} :
    ∀ (l : List α) (l' : List β) (m : Nat), l.zip (l'.take m) = (l.zip l').take m := by
  intro l
  induction l with
  | nil => intro l' m; simp
  | cons x xs ih =>
    intro l' m
    cases l' with
    | nil => simp
    | cons y ys =>
      cases m with
      | zero => simp
      | succ k => simp [ih]

theorem lookup_take_of_mem {α β : Type} [BEq α] [LawfulBEq α] :
    ∀ (l : List (α × β)) (m : Nat) (a : α), a ∈ (l.take m).map Prod.fst →
      (l.take m).lookup a = l.lookup a := by
  intro l
  induction l with
  | nil => intro m a h; simp at h
  | cons e es ih =>
    intro m a h
    obtain ⟨k, v⟩ := e
    cases m with
    | zero => simp at h
    | succ n =>
      cases he : a == k
      · have : ¬a = k := by simpa using he
        simp only [List.take_succ_cons] at h ⊢
        simp only [List.map_cons, List.mem_cons] at h
        rcases h with h | h
        · exact absurd h this
        · simp [List.lookup, he, ih n a h]
      · simp [List.take_succ_cons, List.lookup, he]

/-! ### Values of the assignment dictionary -/

theorem cellToValue_eq_first (cells : List Coord) (asg : List Int) (hnd : cells.Nodup)
    (p : Coord) : cellToValue cells asg p = ((cells.zip asg).lookup p).getD 0 := by
  unfold cellToValue
  rw [lookup_reverse_nodup]
  rw [map_fst_zip_take]
  exact hnd.sublist (List.take_sublist _ _)

theorem cellToValue_not_mem (cells : List Coord) (asg : List Int) (p : Coord)
    (h : p ∉ cells.take asg.length) : cellToValue cells asg p = 0 := by
  unfold cellToValue
  have hnone : ((cells.zip asg).reverse).lookup p = none := by
    rw [lookup_eq_none_keys]
    rw [List.map_reverse, List.mem_reverse, map_fst_zip_take]
    exact h
  simp [hnone]

theorem cellToValue_prefix (cells : List Coord) (asg : List Int) (hnd : cells.Nodup)
    (m : Nat) (hm : m ≤ asg.length) (p : Coord) (hp : p ∈ cells.take m) :
    cellToValue cells (asg.take m) p = cellToValue cells asg p := by
  rw [cellToValue_eq_first _ _ hnd, cellToValue_eq_first _ _ hnd, zip_take_eq]
  have hkey : p ∈ ((cells.zip asg).take m).map Prod.fst := by
    rw [← zip_take_eq, map_fst_zip_take, List.length_take, Nat.min_eq_left hm]
    exact hp
  rw [lookup_take_of_mem _ _ _ hkey]

theorem cellToValue_zero_or_mem (cells : List Coord) (asg : List Int) (p : Coord) :
    cellToValue cells asg p = 0 ∨ cellToValue cells asg p ∈ asg := by
  unfold cellToValue
  cases hl : ((cells.zip asg).reverse).lookup p with
  | none => left; simp [hl]
  | some w =>
    right
    have hmem : (p, w) ∈ cells.zip asg := by
      simpa using lookup_some_mem hl
    simpa [hl] using (List.of_mem_zip hmem).2

theorem lookup_zip_get {β : Type} :
    ∀ (l : List Coord) (l' : List β), l.Nodup →
      ∀ (i : Nat) (hi : i < l.length) (hi' : i < l'.length),
        (l.zip l').lookup (l.get ⟨i, hi⟩) = some (l'.get ⟨i, hi'⟩) := by
  intro l
  induction l with
  | nil => intro l' _ i hi; simp at hi
  | cons c cs ih =>
    intro l' hnd i hi hi'
    cases l' with
    | nil => simp at hi'
    | cons v vs =>
      cases i with
      | zero => simp [List.lookup]
      | succ k =>
        have hk : k < cs.length := by simpa using hi
        have hk' : k < vs.length := by simpa using hi'
        have hmem : cs.get ⟨k, hk⟩ ∈ cs := List.get_mem cs k hk
        have hne : ¬(cs.get ⟨k, hk⟩ = c) := by
          intro heq
          exact (List.nodup_cons.mp hnd).1 (heq ▸ hmem)
        have hne' : ((cs.get ⟨k, hk⟩) == c) = false := by simpa using hne
        have hih := ih vs (List.nodup_cons.mp hnd).2 k hk hk'
        simp only [List.get_eq_getElem] at hne' hih ⊢
        simp only [List.zip_cons_cons, List.getElem_cons_succ, List.lookup, hne']
        exact hih

theorem cellToValue_get (cells : List Coord) (asg : List Int) (hnd : cells.Nodup)
    (i : Nat) (hi : i < cells.length) (hia : i < asg.length) :
    cellToValue cells asg (cells.get ⟨i, hi⟩) = asg.get ⟨i, hia⟩ := by
  rw [cellToValue_eq_first _ _ hnd, lookup_zip_get cells asg hnd i hi hia]
  rfl

/-! ### Indicator sums -/

theorem sum_indicator_card (S : Finset Coord) (f : Coord → Int)
    (h : ∀ p ∈ S, f p = 0 ∨ f p = 1) :
    S.sum f = ((S.filter (fun p => f p = 1)).card : Int) := by
  rw [← Finset.sum_filter_add_sum_filter_not S (fun p => f p = 1)]
  have h1 : (S.filter (fun p => f p = 1)).sum f =
      ((S.filter (fun p => f p = 1)).card : Int) := by
    rw [Finset.sum_congr rfl (fun p hp => (Finset.mem_filter.mp hp).2)]
    simp
  have h2 : (S.filter (fun p => ¬f p = 1)).sum f = 0 :=
    Finset.sum_eq_zero (fun p hp => by
      rcases h p (Finset.mem_filter.mp hp).1 with h0 | h1'
      · exact h0
      · exact absurd h1' (Finset.mem_filter.mp hp).2)
  rw [h1, h2, add_zero]

theorem sum_indicator_nonneg (S : Finset Coord) (f : Coord → Int)
    (h : ∀ p ∈ S, f p = 0 ∨ f p = 1) : 0 ≤ S.sum f :=
  Finset.sum_nonneg (fun p hp => by rcases h p hp with h0 | h1 <;> omega)

theorem sum_indicator_le_card (S : Finset Coord) (f : Coord → Int)
    (h : ∀ p ∈ S, f p = 0 ∨ f p = 1) : S.sum f ≤ (S.card : Int) := by
  calc S.sum f ≤ S.sum (fun _ => (1 : Int)) :=
        Finset.sum_le_sum (fun p hp => by rcases h p hp with h0 | h1 <;> omega)
    _ = (S.card : Int) := by simp

/-! ### The naive enumeration -/

theorem binVecs_mem_iff (n : Nat) (a : List Int) :
    a ∈ binVecs n ↔ a.length = n ∧ ∀ v ∈ a, v = 0 ∨ v = 1 := by
  induction n generalizing a with
  | zero =>
    simp only [binVecs, List.mem_singleton]
    constructor
    · rintro rfl; simp
    · rintro ⟨h, _⟩; exact List.length_eq_zero.mp h
  | succ n ih =>
    simp only [binVecs, List.mem_flatMap, List.mem_map]
    constructor
    · rintro ⟨v, hv, b, hb, rfl⟩
      obtain ⟨hlen, hvals⟩ := ih b |>.mp hb
      refine ⟨by simp [hlen], ?_⟩
      intro w hw
      rcases List.mem_cons.mp hw with rfl | hw
      · simpa using hv
      · exact hvals w hw
    · rintro ⟨hlen, hvals⟩
      cases a with
      | nil => simp at hlen
      | cons v b =>
        refine ⟨v, by simpa using hvals v (List.mem_cons_self _ _), b, ?_, rfl⟩
        exact (ih b).mpr ⟨by simpa using hlen, fun w hw => hvals w (List.mem_cons_of_mem _ hw)⟩

theorem binVecs_nodup (n : Nat) : (binVecs n).Nodup := by
  induction n with
  | zero => simp [binVecs]
  | succ n ih =>
    show (([0, 1] : List Int).flatMap (fun v => (binVecs n).map (fun a => v :: a))).Nodup
    have hinj : ∀ v : Int, ((binVecs n).map (fun a => v :: a)).Nodup := fun v =>
      ih.map (fun a b hab => by simpa using hab)
    simp only [List.flatMap_cons, List.flatMap_nil, List.append_nil]
    refine (hinj 0).append (hinj 1) ?_
    intro a h0 h1
    obtain ⟨b, _, rfl⟩ := List.mem_map.mp h0
    obtain ⟨c, _, hc⟩ := List.mem_map.mp h1
    exact absurd (List.head_eq_of_cons_eq hc.symm) (by norm_num)

/-! ### Characterizations of the check and the pruning test -/

theorem checkConstraints_iff (asg : List Int) (cells : List Coord) (cs : List Constr) :
    checkConstraints asg cells cs = true ↔
      ∀ c ∈ cs, (c.1.sum fun p => cellToValue cells asg p) = c.2 := by
  unfold checkConstraints
  simp

theorem isPromising_iff (pasg : List Int) (cells : List Coord) (cs : List Constr) :
    isPromising pasg cells cs = true ↔
      ∀ c ∈ cs,
        ((c.1.filter (fun p =>
            p ∈ cells.take pasg.length ∧ cellToValue cells pasg p = 1)).card : Int) ≤ c.2 ∧
        c.2 ≤ ((c.1.filter (fun p =>
            p ∈ cells.take pasg.length ∧ cellToValue cells pasg p = 1)).card : Int) +
          ((c.1.filter (fun p => p ∉ cells.take pasg.length)).card : Int) := by
  unfold isPromising
  simp only [List.all_eq_true, Bool.and_eq_true, decide_eq_true_eq, not_lt]

/-- Pruning completeness: a prefix of a complete assignment that passes the
    final exact check always passes `_is_promising`. -/
theorem promising_of_check (cells : List Coord) (cs : List Constr) (hnd : cells.Nodup)
    (q e : List Int)
    (hv : ∀ v ∈ q ++ e, v = 0 ∨ v = 1)
    (hchk : checkConstraints (q ++ e) cells cs = true) :
    isPromising q cells cs = true := by
  rw [isPromising_iff]
  rw [checkConstraints_iff] at hchk
  intro c hc
  have hsum := hchk c hc
  have hval : ∀ p, cellToValue cells (q ++ e) p = 0 ∨ cellToValue cells (q ++ e) p = 1 := by
    intro p
    rcases cellToValue_zero_or_mem cells (q ++ e) p with h | h
    · exact Or.inl h
    · exact hv _ h
  have hq_take : (q ++ e).take q.length = q := List.take_left q e
  have hvq : ∀ p ∈ cells.take q.length,
      cellToValue cells q p = cellToValue cells (q ++ e) p := by
    intro p hp
    conv_lhs => rw [← hq_take]
    exact cellToValue_prefix cells (q ++ e) hnd q.length (by simp) p hp
  have hsplit := Finset.sum_filter_add_sum_filter_not c.1
    (fun p => p ∈ cells.take q.length) (fun p => cellToValue cells (q ++ e) p)
  have hA : (c.1.filter (fun p => p ∈ cells.take q.length)).sum
        (fun p => cellToValue cells (q ++ e) p) =
      ((c.1.filter (fun p =>
        p ∈ cells.take q.length ∧ cellToValue cells q p = 1)).card : Int) := by
    rw [sum_indicator_card _ _ (fun p _ => hval p), Finset.filter_filter]
    congr 2
    apply Finset.filter_congr
    intro p _
    constructor
    · rintro ⟨h1, h2⟩; exact ⟨h1, by rw [hvq p h1]; exact h2⟩
    · rintro ⟨h1, h2⟩; exact ⟨h1, by rw [← hvq p h1]; exact h2⟩
  have hU0 := sum_indicator_nonneg (c.1.filter (fun p => p ∉ cells.take q.length))
    (fun p => cellToValue cells (q ++ e) p) (fun p _ => hval p)
  have hU1 := sum_indicator_le_card (c.1.filter (fun p => p ∉ cells.take q.length))
    (fun p => cellToValue cells (q ++ e) p) (fun p _ => hval p)
  have htot : ((c.1.filter (fun p =>
      p ∈ cells.take q.length ∧ cellToValue cells q p = 1)).card : Int) +
      (c.1.filter (fun p => p ∉ cells.take q.length)).sum
        (fun p => cellToValue cells (q ++ e) p) = c.2 := by
    rw [← hsum, ← hsplit, hA]
  constructor
  · omega
  · omega

/-! ### The backtracking search explores exactly the checked assignments -/

theorem backtrack_eq_naive (cells : List Coord) (cs : List Constr) (hnd : cells.Nodup) :
    ∀ (f : Nat) (q : List Int),
      (∀ v ∈ q, v = 0 ∨ v = 1) →
      backtrackSols cells cs f q =
        ((binVecs f).map (fun e => q ++ e)).filter
          (fun a => checkConstraints a cells cs) := by
  intro f
  induction f with
  | zero =>
    intro q hq
    simp only [backtrackSols, binVecs, List.map_cons, List.map_nil, List.append_nil]
    by_cases h : checkConstraints q cells cs = true
    · simp [h]
    · simp [List.filter_cons, h]
  | succ n ih =>
    intro q hq
    have key : ∀ v : Int, v = 0 ∨ v = 1 →
        (if isPromising (q ++ [v]) cells cs then backtrackSols cells cs n (q ++ [v])
          else []) =
        ((binVecs n).map (fun e => (q ++ [v]) ++ e)).filter
          (fun a => checkConstraints a cells cs) := by
      intro v hv01
      have hq' : ∀ w ∈ q ++ [v], w = 0 ∨ w = 1 := by
        intro w hw
        rcases List.mem_append.mp hw with hw | hw
        · exact hq w hw
        · rcases List.mem_singleton.mp hw with rfl; exact hv01
      by_cases hp : isPromising (q ++ [v]) cells cs = true
      · rw [if_pos hp, ih (q ++ [v]) hq']
      · rw [if_neg hp]
        symm
        rw [List.filter_eq_nil_iff]
        intro a ha
        obtain ⟨e, he, rfl⟩ := List.mem_map.mp ha
        intro hchk
        have hev := (binVecs_mem_iff n e).mp he
        have : ∀ w ∈ (q ++ [v]) ++ e, w = 0 ∨ w = 1 := by
          intro w hw
          rcases List.mem_append.mp hw with hw | hw
          · exact hq' w hw
          · exact hev.2 w hw
        exact hp (promising_of_check cells cs hnd (q ++ [v]) e this hchk)
    show ([0, 1] : List Int).flatMap (fun v =>
        if isPromising (q ++ [v]) cells cs then backtrackSols cells cs n (q ++ [v])
        else []) = _
    simp only [List.flatMap_cons, List.flatMap_nil, List.append_nil]
    rw [key 0 (Or.inl rfl), key 1 (Or.inr rfl)]
    show _ = (((binVecs (n + 1)).map (fun e => q ++ e)).filter
      (fun a => checkConstraints a cells cs))
    simp only [binVecs, List.flatMap_cons, List.flatMap_nil, List.append_nil,
      List.map_append, List.filter_append, List.map_map]
    congr 2 <;> · apply List.map_congr_left; intro e _; simp

/-- Claim C3: the pruned depth-first backtracking search visits and counts
    exactly the complete satisfying assignments that a naive enumeration of
    all `2^n` assignments filtered by the final exact check yields; the
    pruning never eliminates a prefix of a complete satisfying assignment. -/
theorem c3_backtracking_equals_naive (cells : List Coord) (cs : List Constr)
    (hnd : cells.Nodup) :
    backtrackSols cells cs cells.length [] =
      (binVecs cells.length).filter (fun a => checkConstraints a cells cs) := by
  have h := backtrack_eq_naive cells cs hnd cells.length [] (by simp)
  simpa using h

/-- Witness for C3 at a concrete region. -/
theorem c3_backtracking_equals_naive_witness :
    ([((0 : Int), (0 : Int)), (0, 1)] : List Coord).Nodup ∧
      backtrackSols [((0 : Int), (0 : Int)), (0, 1)] [({((0 : Int), (0 : Int)), (0, 1)}, 1)]
          ([((0 : Int), (0 : Int)), (0, 1)] : List Coord).length [] =
        (binVecs ([((0 : Int), (0 : Int)), (0, 1)] : List Coord).length).filter
          (fun a => checkConstraints a [((0 : Int), (0 : Int)), (0, 1)]
            [({((0 : Int), (0 : Int)), (0, 1)}, 1)]) :=
  ⟨by decide, c3_backtracking_equals_naive _ _ (by decide)⟩

/-! ### Claim C2: probabilities are exact satisfying-assignment frequencies -/

/-- The mine set determined by an assignment vector over an enumeration of the
    region's cells. -/
def toMineSet (cells : List Coord) (a : List Int) : Finset Coord :=
  cells.toFinset.filter (fun p => cellToValue cells a p = 1)

theorem toMineSet_subset (cells : List Coord) (a : List Int) :
    toMineSet cells a ⊆ cells.toFinset := Finset.filter_subset _ _

theorem mem_toMineSet (cells : List Coord) (a : List Int) (p : Coord)
    (hp : p ∈ cells.toFinset) :
    p ∈ toMineSet cells a ↔ cellToValue cells a p = 1 := by
  unfold toMineSet
  simp [Finset.mem_filter, hp]

theorem sum_val_eq_inter_card (cells : List Coord) (a : List Int)
    (hvals : ∀ v ∈ a, v = 0 ∨ v = 1) (S : Finset Coord) (hS : S ⊆ cells.toFinset) :
    S.sum (fun p => cellToValue cells a p) = ((S ∩ toMineSet cells a).card : Int) := by
  have hv : ∀ p ∈ S, cellToValue cells a p = 0 ∨ cellToValue cells a p = 1 := by
    intro p _
    rcases cellToValue_zero_or_mem cells a p with h | h
    · exact Or.inl h
    · exact hvals _ h
  rw [sum_indicator_card S _ hv]
  congr 2
  ext p
  unfold toMineSet
  simp only [Finset.mem_inter, Finset.mem_filter]
  constructor
  · rintro ⟨h1, h2⟩; exact ⟨h1, hS h1, h2⟩
  · rintro ⟨h1, _, h2⟩; exact ⟨h1, h2⟩

theorem cellToValue_map (cells : List Coord) (hnd : cells.Nodup) (g : Coord → Int)
    (p : Coord) (hp : p ∈ cells) : cellToValue cells (cells.map g) p = g p := by
  obtain ⟨⟨i, hi⟩, rfl⟩ := List.mem_iff_get.mp hp
  rw [cellToValue_get cells _ hnd i hi (by simpa using hi)]
  simp

theorem get_eq_indicator (cells : List Coord) (hnd : cells.Nodup) (a : List Int)
    (ha : a ∈ binVecs cells.length) (i : Nat) (hi : i < cells.length)
    (hia : i < a.length) :
    a.get ⟨i, hia⟩ = if cells.get ⟨i, hi⟩ ∈ toMineSet cells a then 1 else 0 := by
  obtain ⟨hlen, hvals⟩ := (binVecs_mem_iff _ _).mp ha
  have hmem : cells.get ⟨i, hi⟩ ∈ cells.toFinset := by
    simp [List.mem_toFinset]
  have hval := cellToValue_get cells a hnd i hi hia
  by_cases h : cells.get ⟨i, hi⟩ ∈ toMineSet cells a
  · rw [if_pos h]
    have h2 := (mem_toMineSet cells a _ hmem).mp h
    rw [hval] at h2
    exact h2
  · rw [if_neg h]
    have h2 : ¬cellToValue cells a (cells.get ⟨i, hi⟩) = 1 :=
      fun hc => h ((mem_toMineSet cells a _ hmem).mpr hc)
    rw [hval] at h2
    rcases hvals _ (List.get_mem a i hia) with h0 | h1
    · exact h0
    · exact absurd h1 h2

theorem count_filter_binVecs (cells : List Coord) (hnd : cells.Nodup)
    (P : Finset Coord → Prop) [DecidablePred P] :
    ((binVecs cells.length).filter (fun a => decide (P (toMineSet cells a)))).length =
      (cells.toFinset.powerset.filter P).card := by
  have hfn : ((binVecs cells.length).filter
      (fun a => decide (P (toMineSet cells a)))).Nodup := (binVecs_nodup _).filter _
  rw [← List.toFinset_card_of_nodup hfn, List.toFinset_filter]
  apply Finset.card_bij (fun a _ => toMineSet cells a)
  · intro a ha
    rw [Finset.mem_filter] at ha
    rw [Finset.mem_filter, Finset.mem_powerset]
    exact ⟨toMineSet_subset cells a, by simpa using ha.2⟩
  · intro a₁ ha₁ a₂ ha₂ heq
    have hm₁ : a₁ ∈ binVecs cells.length := by
      have := (Finset.mem_filter.mp ha₁).1; simpa using this
    have hm₂ : a₂ ∈ binVecs cells.length := by
      have := (Finset.mem_filter.mp ha₂).1; simpa using this
    have hl₁ := ((binVecs_mem_iff _ _).mp hm₁).1
    have hl₂ := ((binVecs_mem_iff _ _).mp hm₂).1
    apply List.ext_get (by rw [hl₁, hl₂])
    intro i h₁ h₂
    have hi : i < cells.length := by omega
    rw [get_eq_indicator cells hnd a₁ hm₁ i hi h₁,
      get_eq_indicator cells hnd a₂ hm₂ i hi h₂, heq]
  · intro S hS
    rw [Finset.mem_filter, Finset.mem_powerset] at hS
    obtain ⟨hsub, hP⟩ := hS
    refine ⟨cells.map (fun p => if p ∈ S then (1 : Int) else 0), ?_, ?_⟩
    · have hmem : cells.map (fun p => if p ∈ S then (1 : Int) else 0) ∈
          binVecs cells.length := by
        rw [binVecs_mem_iff]
        constructor
        · simp
        · intro v hv
          obtain ⟨p, _, rfl⟩ := List.mem_map.mp hv
          by_cases h : p ∈ S <;> simp [h]
      have hts : toMineSet cells (cells.map (fun p => if p ∈ S then (1 : Int) else 0)) = S := by
        ext p
        by_cases hp : p ∈ cells.toFinset
        · rw [mem_toMineSet _ _ _ hp,
            cellToValue_map cells hnd _ p (List.mem_toFinset.mp hp)]
          by_cases h : p ∈ S <;> simp [h]
        · constructor
          · intro h; exact absurd (toMineSet_subset cells _ h) hp
          · intro h; exact absurd (hsub h) hp
      rw [Finset.mem_filter]
      exact ⟨by simpa using hmem, by simpa [hts] using hP⟩
    · ext p
      by_cases hp : p ∈ cells.toFinset
      · rw [mem_toMineSet _ _ _ hp,
          cellToValue_map cells hnd _ p (List.mem_toFinset.mp hp)]
        by_cases h : p ∈ S <;> simp [h]
      · constructor
        · intro h; exact absurd (toMineSet_subset cells _ h) hp
        · intro h; exact absurd (hsub h) hp

/-- General exactness of `_calculate_probabilities` over a region. -/
theorem calculateProbabilities_exact (cs : List Constr) (cells : Finset Coord)
    (hsub : ∀ c ∈ cs, c.1 ⊆ cells) :
    (0 < satCount cs cells →
      ∀ p ∈ cells, (calculateProbabilities cs cells).lookup p =
        some ((satMineCount cs cells p : ℚ) / (satCount cs cells : ℚ))) ∧
    (satCount cs cells = 0 →
      ∀ p ∈ cells, (calculateProbabilities cs cells).lookup p = some ((1 : ℚ) / 2)) := by
  have hnd : (listOf cells).Nodup := listOf_nodup _
  have htf : (listOf cells).toFinset = cells := listOf_toFinset _
  have hlen : (listOf cells).length = cells.card := listOf_length _
  have hpred : ∀ a ∈ binVecs (listOf cells).length,
      checkConstraints a (listOf cells) cs =
        decide (∀ c ∈ cs, ((c.1 ∩ toMineSet (listOf cells) a).card : Int) = c.2) := by
    intro a ha
    have hvals := ((binVecs_mem_iff _ _).mp ha).2
    have hiff : checkConstraints a (listOf cells) cs = true ↔
        (∀ c ∈ cs, ((c.1 ∩ toMineSet (listOf cells) a).card : Int) = c.2) := by
      rw [checkConstraints_iff]
      constructor
      · intro h c hc
        rw [← sum_val_eq_inter_card (listOf cells) a hvals c.1
          (by rw [htf]; exact hsub c hc)]
        exact h c hc
      · intro h c hc
        rw [sum_val_eq_inter_card (listOf cells) a hvals c.1
          (by rw [htf]; exact hsub c hc)]
        exact h c hc
    cases hb : checkConstraints a (listOf cells) cs
    · symm
      rw [decide_eq_false_iff_not, ← hiff]
      simp [hb]
    · symm
      rw [decide_eq_true_eq]
      exact hiff.mp hb
  have hsols : backtrackSols (listOf cells) cs (listOf cells).length [] =
      (binVecs (listOf cells).length).filter (fun a =>
        decide (∀ c ∈ cs, ((c.1 ∩ toMineSet (listOf cells) a).card : Int) = c.2)) := by
    have h1 := backtrack_eq_naive (listOf cells) cs hnd (listOf cells).length [] (by simp)
    calc backtrackSols (listOf cells) cs (listOf cells).length []
        = (binVecs (listOf cells).length).filter
            (fun a => checkConstraints a (listOf cells) cs) := by simpa using h1
      _ = _ := List.filter_congr hpred
  have htotal : (backtrackSols (listOf cells) cs (listOf cells).length []).length =
      satCount cs cells := by
    rw [hsols, count_filter_binVecs (listOf cells) hnd
      (fun S => ∀ c ∈ cs, ((c.1 ∩ S).card : Int) = c.2), htf]
    rfl
  have htally : ∀ p ∈ cells,
      ((backtrackSols (listOf cells) cs (listOf cells).length []).filter
        (fun a => cellToValue (listOf cells) a p = 1)).length =
      satMineCount cs cells p := by
    intro p hp
    have hpmem : p ∈ (listOf cells).toFinset := by rw [htf]; exact hp
    rw [hsols, List.filter_filter]
    have hcongr : ∀ a ∈ binVecs (listOf cells).length,
        (decide (cellToValue (listOf cells) a p = 1) &&
          decide (∀ c ∈ cs, ((c.1 ∩ toMineSet (listOf cells) a).card : Int) = c.2)) =
        decide ((∀ c ∈ cs, ((c.1 ∩ toMineSet (listOf cells) a).card : Int) = c.2) ∧
          p ∈ toMineSet (listOf cells) a) := by
      intro a _
      have hval : (cellToValue (listOf cells) a p = 1) ↔ p ∈ toMineSet (listOf cells) a :=
        (mem_toMineSet (listOf cells) a p hpmem).symm
      by_cases h1 : (∀ c ∈ cs, ((c.1 ∩ toMineSet (listOf cells) a).card : Int) = c.2) <;>
        by_cases h2 : p ∈ toMineSet (listOf cells) a <;>
        simp [h1, h2, hval]
    rw [List.filter_congr hcongr, count_filter_binVecs (listOf cells) hnd
      (fun S => (∀ c ∈ cs, ((c.1 ∩ S).card : Int) = c.2) ∧ p ∈ S), htf]
    rfl
  by_cases hzero : (listOf cells).length = 0
  · have hce : cells = ∅ := Finset.card_eq_zero.mp (by rw [← hlen]; exact hzero)
    constructor
    · intro _ p hp
      rw [hce] at hp
      exact absurd hp (Finset.not_mem_empty p)
    · intro _ p hp
      rw [hce] at hp
      exact absurd hp (Finset.not_mem_empty p)
  · have hresult : calculateProbabilities cs cells =
        (if (backtrackSols (listOf cells) cs (listOf cells).length []).length = 0
          then (listOf cells).map (fun c => (c, (1 : ℚ) / 2))
          else (listOf cells).map (fun c =>
            (c, (((backtrackSols (listOf cells) cs (listOf cells).length []).filter
              (fun a => cellToValue (listOf cells) a c = 1)).length : ℚ) /
              ((backtrackSols (listOf cells) cs (listOf cells).length []).length : ℚ)))) := by
      simp only [calculateProbabilities]
      rw [if_neg hzero]
    constructor
    · intro hpos p hp
      have hne : ¬((backtrackSols (listOf cells) cs (listOf cells).length []).length = 0) := by
        rw [htotal]; omega
      rw [hresult, if_neg hne, lookup_graph]
      have hpL : p ∈ listOf cells := (mem_listOf _ _).mpr hp
      rw [if_pos hpL, htally p hp, htotal]
    · intro hzero' p hp
      have heq0 : (backtrackSols (listOf cells) cs (listOf cells).length []).length = 0 := by
        rw [htotal, hzero']
      rw [hresult, if_pos heq0, lookup_graph]
      have hpL : p ∈ listOf cells := (mem_listOf _ _).mpr hp
      rw [if_pos hpL]

/-- Claim C2: for a region (constraints plus cell set), when at least one
    complete mine/not-mine assignment over the region's cells satisfies every
    constraint exactly, `_calculate_probabilities` returns for each cell
    exactly (satisfying assignments in which that cell is a mine) / (total
    satisfying assignments); when no satisfying assignment exists it returns
    1/2 for every cell.  In particular a region with a single constraint of 3
    cells and required count 1 yields 1/3 for each of the 3 cells. -/
theorem c2_calculate_probabilities (cs : List Constr) (cells : Finset Coord)
    (hsub : ∀ c ∈ cs, c.1 ⊆ cells) :
    ((0 < satCount cs cells →
        ∀ p ∈ cells, (calculateProbabilities cs cells).lookup p =
          some ((satMineCount cs cells p : ℚ) / (satCount cs cells : ℚ))) ∧
      (satCount cs cells = 0 →
        ∀ p ∈ cells, (calculateProbabilities cs cells).lookup p = some ((1 : ℚ) / 2))) ∧
    (∀ p ∈ ({((0 : Int), (0 : Int)), (0, 1), (0, 2)} : Finset Coord),
      (calculateProbabilities [({((0 : Int), (0 : Int)), (0, 1), (0, 2)}, 1)]
          {((0 : Int), (0 : Int)), (0, 1), (0, 2)}).lookup p = some ((1 : ℚ) / 3)) := by
  refine ⟨calculateProbabilities_exact cs cells hsub, ?_⟩
  intro p hp
  have hgen := (calculateProbabilities_exact [({((0 : Int), (0 : Int)), (0, 1), (0, 2)}, 1)]
    {((0 : Int), (0 : Int)), (0, 1), (0, 2)} (by decide)).1
  have hsc : satCount [({((0 : Int), (0 : Int)), (0, 1), (0, 2)}, 1)]
      {((0 : Int), (0 : Int)), (0, 1), (0, 2)} = 3 := by decide
  have hres := hgen (by rw [hsc]; omega) p hp
  have hsm : satMineCount [({((0 : Int), (0 : Int)), (0, 1), (0, 2)}, 1)]
      {((0 : Int), (0 : Int)), (0, 1), (0, 2)} p = 1 := by
    fin_cases hp <;> decide
  rw [hres, hsm, hsc]
  norm_num

/-- Witness for C2 at a concrete region: two cells, one mine required. -/
theorem c2_calculate_probabilities_witness :
    (∀ c ∈ ([({((0 : Int), (0 : Int)), (0, 1)}, 1)] : List Constr),
        c.1 ⊆ ({((0 : Int), (0 : Int)), (0, 1)} : Finset Coord)) ∧
    (((0 < satCount [({((0 : Int), (0 : Int)), (0, 1)}, 1)] {((0 : Int), (0 : Int)), (0, 1)} →
        ∀ p ∈ ({((0 : Int), (0 : Int)), (0, 1)} : Finset Coord),
          (calculateProbabilities [({((0 : Int), (0 : Int)), (0, 1)}, 1)]
              {((0 : Int), (0 : Int)), (0, 1)}).lookup p =
            some ((satMineCount [({((0 : Int), (0 : Int)), (0, 1)}, 1)]
                {((0 : Int), (0 : Int)), (0, 1)} p : ℚ) /
              (satCount [({((0 : Int), (0 : Int)), (0, 1)}, 1)]
                {((0 : Int), (0 : Int)), (0, 1)} : ℚ))) ∧
      (satCount [({((0 : Int), (0 : Int)), (0, 1)}, 1)] {((0 : Int), (0 : Int)), (0, 1)} = 0 →
        ∀ p ∈ ({((0 : Int), (0 : Int)), (0, 1)} : Finset Coord),
          (calculateProbabilities [({((0 : Int), (0 : Int)), (0, 1)}, 1)]
              {((0 : Int), (0 : Int)), (0, 1)}).lookup p = some ((1 : ℚ) / 2))) ∧
      (∀ p ∈ ({((0 : Int), (0 : Int)), (0, 1), (0, 2)} : Finset Coord),
        (calculateProbabilities [({((0 : Int), (0 : Int)), (0, 1), (0, 2)}, 1)]
            {((0 : Int), (0 : Int)), (0, 1), (0, 2)}).lookup p = some ((1 : ℚ) / 3))) :=
  ⟨by decide, c2_calculate_probabilities _ _ (by decide)⟩

/-! ### Cells mentioned by a constraint list -/

theorem foldl_union_acc :
    ∀ (cs : List Constr) (acc : Finset Coord),
      cs.foldl (fun a c => a ∪ c.1) acc =
        acc ∪ cs.foldl (fun a c => a ∪ c.1) ∅ := by
  intro cs
  induction cs with
  | nil => intro acc; simp
  | cons c cs' ih =>
    intro acc
    show cs'.foldl _ (acc ∪ c.1) = acc ∪ cs'.foldl _ (∅ ∪ c.1)
    rw [ih (acc ∪ c.1), ih (∅ ∪ c.1)]
    simp [Finset.union_assoc]

theorem mem_cellsOf (cs : List Constr) (p : Coord) :
    p ∈ cellsOf cs ↔ ∃ c ∈ cs, p ∈ c.1 := by
  induction cs with
  | nil => simp [cellsOf]
  | cons c cs' ih =>
    unfold cellsOf at *
    show p ∈ cs'.foldl _ (∅ ∪ c.1) ↔ _
    rw [foldl_union_acc]
    simp [ih]

theorem subset_cellsOf {cs : List Constr} {c : Constr} (hc : c ∈ cs) : c.1 ⊆ cellsOf cs :=
  fun p hp => (mem_cellsOf cs p).mpr ⟨c, hc, hp⟩

theorem cellsOf_subset {cs : List Constr} {G : Finset Coord}
    (h : ∀ c ∈ cs, c.1 ⊆ G) : cellsOf cs ⊆ G := by
  intro p hp
  obtain ⟨c, hc, hpc⟩ := (mem_cellsOf cs p).mp hp
  exact h c hc hpc

/-! ### Indicator sums over coordinate sets -/

theorem indSum_vals (M : Coord → Bool) (S : Finset Coord) :
    ∀ p ∈ S, (if M p then (1 : Int) else 0) = 0 ∨ (if M p then (1 : Int) else 0) = 1 := by
  intro p _
  by_cases h : M p <;> simp [h]

theorem indSum_nonneg (M : Coord → Bool) (S : Finset Coord) : 0 ≤ indSum M S :=
  sum_indicator_nonneg S _ (indSum_vals M S)

theorem indSum_le_card (M : Coord → Bool) (S : Finset Coord) :
    indSum M S ≤ (S.card : Int) :=
  sum_indicator_le_card S _ (indSum_vals M S)

theorem indSum_sdiff (M : Coord → Bool) {S T : Finset Coord} (h : S ⊆ T) :
    indSum M (T \ S) = indSum M T - indSum M S := by
  unfold indSum
  have h2 : ((T \ S).sum fun p => if M p then (1 : Int) else 0) +
      (S.sum fun p => if M p then (1 : Int) else 0) =
      T.sum fun p => if M p then (1 : Int) else 0 := Finset.sum_sdiff h
  omega

theorem indSum_zero_all_false (M : Coord → Bool) (S : Finset Coord)
    (h : indSum M S = 0) : ∀ p ∈ S, M p = false := by
  intro p hp
  have hz := (Finset.sum_eq_zero_iff_of_nonneg
    (fun q hq => by rcases indSum_vals M S q hq with h0 | h1 <;> omega)).mp h p hp
  by_cases hm : M p
  · simp [hm] at hz
  · simpa using hm

theorem indSum_card_all_true (M : Coord → Bool) (S : Finset Coord)
    (h : indSum M S = (S.card : Int)) : ∀ p ∈ S, M p = true := by
  intro p hp
  have hsum : S.sum (fun q => 1 - (if M q then (1 : Int) else 0)) = 0 := by
    rw [Finset.sum_sub_distrib]
    unfold indSum at h
    simp [h]
  have hz := (Finset.sum_eq_zero_iff_of_nonneg
    (fun q hq => by rcases indSum_vals M S q hq with h0 | h1 <;> omega)).mp hsum p hp
  by_cases hm : M p
  · simpa using hm
  · simp [hm] at hz

/-! ### One step of the subset-elimination pass, abstractly -/

/-- What a single action of the pass can do to the pass state, relative to the
    constraint list `cs` being scanned. -/
def StepOK (cs : List Constr) (st st' : PSt) : Prop :=
  st.safe ⊆ st'.safe ∧ st.mine ⊆ st'.mine ∧
  (st.flag = true → st'.flag = true) ∧
  st'.safe ⊆ st.safe ∪ cellsOf cs ∧
  st'.mine ⊆ st.mine ∪ cellsOf cs ∧
  (st'.flag = true → st.flag = true ∨
    ∃ x, x ∈ cellsOf cs ∧ (x ∈ st'.safe ∨ x ∈ st'.mine)) ∧
  (∀ c ∈ st'.newCs, c ∈ st.newCs ∨ (c.1 ⊆ cellsOf cs ∧ c.1.Nonempty)) ∧
  (∀ M, SoundCs M cs → SoundCs M st.newCs ∧ SoundSets M st.safe st.mine →
    SoundCs M st'.newCs ∧ SoundSets M st'.safe st'.mine)

theorem StepOK.rfl (cs : List Constr) (st : PSt) : StepOK cs st st := by
  refine ⟨Finset.Subset.refl _, Finset.Subset.refl _, fun h => h,
    Finset.subset_union_left, Finset.subset_union_left, fun h => Or.inl h,
    fun c hc => Or.inl hc, fun M _ h => h⟩

theorem StepOK.trans {cs : List Constr} {st st' st'' : PSt}
    (h1 : StepOK cs st st') (h2 : StepOK cs st' st'') : StepOK cs st st'' := by
  obtain ⟨a1, a2, a3, a4, a5, a6, a7, a8⟩ := h1
  obtain ⟨b1, b2, b3, b4, b5, b6, b7, b8⟩ := h2
  refine ⟨a1.trans b1, a2.trans b2, fun h => b3 (a3 h), ?_, ?_, ?_, ?_, ?_⟩
  · intro p hp
    rcases Finset.mem_union.mp (b4 hp) with hp' | hp'
    · exact a4 hp'
    · exact Finset.mem_union_right _ hp'
  · intro p hp
    rcases Finset.mem_union.mp (b5 hp) with hp' | hp'
    · exact a5 hp'
    · exact Finset.mem_union_right _ hp'
  · intro h
    rcases b6 h with h' | ⟨x, hx, hmem⟩
    · rcases a6 h' with h'' | ⟨x, hx, hmem⟩
      · exact Or.inl h''
      · refine Or.inr ⟨x, hx, ?_⟩
        rcases hmem with hm | hm
        · exact Or.inl (b1 hm)
        · exact Or.inr (b2 hm)
    · exact Or.inr ⟨x, hx, hmem⟩
  · intro c hc
    rcases b7 c hc with hc' | hc'
    · exact a7 c hc'
    · exact Or.inr hc'
  · intro M hcs h
    exact b8 M hcs (a8 M hcs h)

theorem StepOK.safeFire (cs : List Constr) (st : PSt) (nl : Finset Coord)
    (pr : Finset Nat) (hnl : nl ⊆ cellsOf cs) (hnonempty : nl.Nonempty)
    (hsound : ∀ M, SoundCs M cs → ∀ p ∈ nl, M p = false) :
    StepOK cs st ⟨st.newCs, pr, st.safe ∪ nl, st.mine, true⟩ := by
  obtain ⟨x, hx⟩ := hnonempty
  refine ⟨Finset.subset_union_left, Finset.Subset.refl _, fun _ => Eq.refl _,
    ?_, Finset.subset_union_left, ?_, fun c hc => Or.inl hc, ?_⟩
  · exact Finset.union_subset_union (Finset.Subset.refl _) hnl
  · intro _
    exact Or.inr ⟨x, hnl hx, Or.inl (Finset.mem_union_right _ hx)⟩
  · intro M hcs ⟨hnew, hs, hm⟩
    refine ⟨hnew, ?_, hm⟩
    intro p hp
    rcases Finset.mem_union.mp hp with hp' | hp'
    · exact hs p hp'
    · exact hsound M hcs p hp'

theorem StepOK.mineFire (cs : List Constr) (st : PSt) (nl : Finset Coord)
    (pr : Finset Nat) (hnl : nl ⊆ cellsOf cs) (hnonempty : nl.Nonempty)
    (hsound : ∀ M, SoundCs M cs → ∀ p ∈ nl, M p = true) :
    StepOK cs st ⟨st.newCs, pr, st.safe, st.mine ∪ nl, true⟩ := by
  obtain ⟨x, hx⟩ := hnonempty
  refine ⟨Finset.Subset.refl _, Finset.subset_union_left, fun _ => Eq.refl _,
    Finset.subset_union_left, ?_, ?_, fun c hc => Or.inl hc, ?_⟩
  · exact Finset.union_subset_union (Finset.Subset.refl _) hnl
  · intro _
    exact Or.inr ⟨x, hnl hx, Or.inr (Finset.mem_union_right _ hx)⟩
  · intro M hcs ⟨hnew, hs, hm⟩
    refine ⟨hnew, hs, ?_⟩
    intro p hp
    rcases Finset.mem_union.mp hp with hp' | hp'
    · exact hm p hp'
    · exact hsound M hcs p hp'

theorem StepOK.appendCon (cs : List Constr) (st : PSt) (nl : Finset Coord) (nc : Int)
    (pr : Finset Nat) (hnl : nl ⊆ cellsOf cs) (hnonempty : nl.Nonempty)
    (hsound : ∀ M, SoundCs M cs → indSum M nl = nc) :
    StepOK cs st ⟨st.newCs ++ [(nl, nc)], pr, st.safe, st.mine, st.flag⟩ := by
  refine ⟨Finset.Subset.refl _, Finset.Subset.refl _, fun h => h,
    Finset.subset_union_left, Finset.subset_union_left, fun h => Or.inl h, ?_, ?_⟩
  · intro c hc
    rcases List.mem_append.mp hc with hc' | hc'
    · exact Or.inl hc'
    · rcases List.mem_singleton.mp hc' with rfl
      exact Or.inr ⟨hnl, hnonempty⟩
  · intro M hcs ⟨hnew, hsm⟩
    refine ⟨?_, hsm⟩
    intro c hc
    rcases List.mem_append.mp hc with hc' | hc'
    · exact hnew c hc'
    · rcases List.mem_singleton.mp hc' with rfl
      exact hsound M hcs

theorem StepOK.procOnly (cs : List Constr) (st : PSt) (pr : Finset Nat) :
    StepOK cs st ⟨st.newCs, pr, st.safe, st.mine, st.flag⟩ :=
  ⟨Finset.Subset.refl _, Finset.Subset.refl _, fun h => h,
    Finset.subset_union_left, Finset.subset_union_left, fun h => Or.inl h,
    fun c hc => Or.inl hc, fun _ _ h => h⟩

theorem stepOK_cspInner (cs : List Constr) (i : Nat) (l1 : Finset Coord) (c1 : Int)
    (hl1 : (l1, c1) ∈ cs) (s : PSt × Bool) (j : Nat) (hj : j < cs.length) :
    StepOK cs s.1 (cspInner cs i l1 c1 s j).1 := by
  have hmem : cs.getD j (∅, 0) ∈ cs := by
    rw [List.getD_eq_getElem _ _ hj]
    exact List.getElem_mem hj
  simp only [cspInner]
  by_cases htop : i = j ∨ j ∈ s.1.processed
  · rw [if_pos htop]
    exact StepOK.rfl cs s.1
  rw [if_neg htop]
  by_cases hss : l1 ⊆ (cs.getD j (∅, 0)).1 ∧ l1 ≠ (cs.getD j (∅, 0)).1
  · rw [if_pos hss]
    have hnl : (cs.getD j (∅, 0)).1 \ l1 ⊆ cellsOf cs :=
      Finset.sdiff_subset.trans (subset_cellsOf hmem)
    have hne : ((cs.getD j (∅, 0)).1 \ l1).Nonempty := by
      rw [Finset.sdiff_nonempty]
      intro hle
      exact hss.2 (Finset.Subset.antisymm hss.1 hle)
    have hs2 : ∀ M, SoundCs M cs →
        indSum M ((cs.getD j (∅, 0)).1 \ l1) = (cs.getD j (∅, 0)).2 - c1 := by
      intro M hM
      rw [indSum_sdiff M hss.1, hM _ hmem]
      have := hM _ hl1
      simp at this
      omega
    by_cases h0 : (cs.getD j (∅, 0)).2 - c1 = 0
    · rw [if_pos h0]
      exact StepOK.safeFire cs s.1 _ _ hnl hne (fun M hM p hp =>
        indSum_zero_all_false M _ (by rw [hs2 M hM, h0]) p hp)
    rw [if_neg h0]
    by_cases hcard : (cs.getD j (∅, 0)).2 - c1 = ((((cs.getD j (∅, 0)).1 \ l1).card : Nat) : Int)
    · rw [if_pos hcard]
      exact StepOK.mineFire cs s.1 _ _ hnl hne (fun M hM p hp =>
        indSum_card_all_true M _ (by rw [hs2 M hM, hcard]) p hp)
    rw [if_neg hcard]
    by_cases hemp : (cs.getD j (∅, 0)).1 \ l1 ≠ ∅
    · rw [if_pos hemp]
      exact StepOK.appendCon cs s.1 _ _ _ hnl hne (fun M hM => hs2 M hM)
    · rw [if_neg hemp]
      exact StepOK.procOnly cs s.1 _
  rw [if_neg hss]
  by_cases hss' : (cs.getD j (∅, 0)).1 ⊆ l1 ∧ l1 ≠ (cs.getD j (∅, 0)).1
  · rw [if_pos hss']
    have hl1sub : l1 ⊆ cellsOf cs := by
      have : ((l1, c1) : Constr).1 ⊆ cellsOf cs := subset_cellsOf hl1
      simpa using this
    have hnl : l1 \ (cs.getD j (∅, 0)).1 ⊆ cellsOf cs :=
      Finset.sdiff_subset.trans hl1sub
    have hne : (l1 \ (cs.getD j (∅, 0)).1).Nonempty := by
      rw [Finset.sdiff_nonempty]
      intro hle
      exact hss'.2 (Finset.Subset.antisymm hle hss'.1)
    have hs2 : ∀ M, SoundCs M cs →
        indSum M (l1 \ (cs.getD j (∅, 0)).1) = c1 - (cs.getD j (∅, 0)).2 := by
      intro M hM
      rw [indSum_sdiff M hss'.1, hM _ hmem]
      have := hM _ hl1
      simp at this
      omega
    by_cases h0 : c1 - (cs.getD j (∅, 0)).2 = 0
    · rw [if_pos h0]
      exact StepOK.safeFire cs s.1 _ _ hnl hne (fun M hM p hp =>
        indSum_zero_all_false M _ (by rw [hs2 M hM, h0]) p hp)
    rw [if_neg h0]
    by_cases hcard : c1 - (cs.getD j (∅, 0)).2 = (((l1 \ (cs.getD j (∅, 0)).1).card : Nat) : Int)
    · rw [if_pos hcard]
      exact StepOK.mineFire cs s.1 _ _ hnl hne (fun M hM p hp =>
        indSum_card_all_true M _ (by rw [hs2 M hM, hcard]) p hp)
    rw [if_neg hcard]
    by_cases hemp : l1 \ (cs.getD j (∅, 0)).1 ≠ ∅
    · rw [if_pos hemp]
      exact StepOK.appendCon cs s.1 _ _ _ hnl hne (fun M hM => hs2 M hM)
    · rw [if_neg hemp]
      exact StepOK.procOnly cs s.1 _
  rw [if_neg hss']
  exact StepOK.rfl cs s.1

theorem stepOK_cspOuter (cs : List Constr) (hne : ∀ d ∈ cs, d.1.Nonempty)
    (st : PSt) (i : Nat) (hi : i < cs.length) :
    StepOK cs st (cspOuter cs st i) := by
  have hmem : cs.getD i (∅, 0) ∈ cs := by
    rw [List.getD_eq_getElem _ _ hi]
    exact List.getElem_mem hi
  simp only [cspOuter]
  by_cases htop : i ∈ st.processed
  · rw [if_pos htop]
    exact StepOK.rfl cs st
  rw [if_neg htop]
  have hfold : StepOK cs st
      ((List.range cs.length).foldl (cspInner cs i (cs.getD i (∅, 0)).1
        (cs.getD i (∅, 0)).2) (st, false)).1 := by
    apply foldl_inv (P := fun x : PSt × Bool => StepOK cs st x.1)
    · intro x j hjmem hx
      have hj : j < cs.length := List.mem_range.mp hjmem
      exact hx.trans (stepOK_cspInner cs i _ _ (by simpa using hmem) x j hj)
    · exact StepOK.rfl cs st
  set r := (List.range cs.length).foldl (cspInner cs i (cs.getD i (∅, 0)).1
    (cs.getD i (∅, 0)).2) (st, false) with hr
  by_cases hadd : ¬r.2 = true ∧ i ∉ r.1.processed
  · rw [if_pos hadd]
    have hl1sub : (cs.getD i (∅, 0)).1 ⊆ cellsOf cs := subset_cellsOf hmem
    have hl1ne : (cs.getD i (∅, 0)).1.Nonempty := hne _ hmem
    by_cases h0 : (cs.getD i (∅, 0)).2 = 0
    · rw [if_pos h0]
      refine hfold.trans (StepOK.safeFire cs r.1 _ _ hl1sub hl1ne ?_)
      intro M hM p hp
      refine indSum_zero_all_false M _ ?_ p hp
      rw [hM _ hmem, h0]
    rw [if_neg h0]
    by_cases hcard : (cs.getD i (∅, 0)).2 = (((cs.getD i (∅, 0)).1.card : Nat) : Int)
    · rw [if_pos hcard]
      refine hfold.trans (StepOK.mineFire cs r.1 _ _ hl1sub hl1ne ?_)
      intro M hM p hp
      refine indSum_card_all_true M _ ?_ p hp
      rw [hM _ hmem, hcard]
    rw [if_neg hcard]
    refine hfold.trans (StepOK.appendCon cs r.1 _ _ _ hl1sub hl1ne ?_)
    intro M hM
    exact hM _ hmem
  · rw [if_neg hadd]
    exact hfold

theorem stepOK_cspPass (cs : List Constr) (hne : ∀ d ∈ cs, d.1.Nonempty)
    (s m : Finset Coord) :
    StepOK cs ⟨[], ∅, s, m, false⟩ (cspPass cs s m) := by
  unfold cspPass
  apply foldl_inv (P := fun st : PSt => StepOK cs ⟨[], ∅, s, m, false⟩ st)
  · intro st i himem hst
    have hi : i < cs.length := List.mem_range.mp himem
    exact hst.trans (stepOK_cspOuter cs hne st i hi)
  · exact StepOK.rfl cs _

/-! ### List counting by partition -/

theorem filter_split_length {α : Type} (l : List α) (p q : α → Bool) :
    (l.filter p).length =
      ((l.filter q).filter p).length + ((l.filter (fun a => !q a)).filter p).length := by
  induction l with
  | nil => rfl
  | cons x xs ih =>
    by_cases hq : q x <;> by_cases hp : p x <;>
      simp [List.filter_cons, hq, hp, ih] <;> omega

theorem filter_all_length {α : Type} (l : List α) (p : α → Bool)
    (h : ∀ a ∈ l, p a = true) : (l.filter p).length = l.length := by
  rw [List.filter_eq_self.mpr h]

theorem filter_none_length {α : Type} (l : List α) (p : α → Bool)
    (h : ∀ a ∈ l, p a = false) : (l.filter p).length = 0 := by
  rw [List.filter_eq_nil_iff.mpr (fun a ha => by simp [h a ha])]
  rfl

theorem all_of_filter_length_eq {α : Type} :
    ∀ (l : List α) (p : α → Bool), (l.filter p).length = l.length →
      ∀ a ∈ l, p a = true := by
  intro l
  induction l with
  | nil => intro p _ a ha; simp at ha
  | cons x xs ih =>
    intro p h a ha
    by_cases hx : p x
    · rcases List.mem_cons.mp ha with rfl | ha'
      · exact hx
      · refine ih p ?_ a ha'
        simpa [List.filter_cons, hx] using h
    · exfalso
      have hle := List.length_filter_le p xs
      simp [List.filter_cons, hx] at h
      omega

theorem none_of_filter_length_eq_zero {α : Type} (l : List α) (p : α → Bool)
    (h : (l.filter p).length = 0) : ∀ a ∈ l, p a = false := by
  have hnil : l.filter p = [] := List.length_eq_zero.mp h
  intro a ha
  by_cases hx : p a
  · exfalso
    have : a ∈ l.filter p := List.mem_filter.mpr ⟨ha, hx⟩
    rw [hnil] at this
    simp at this
  · simpa using hx

/-- Partition of a mine count over a neighbor list: `A`-neighbors are all
    mines, neighbors that are neither `A` nor `U` carry no mine, so the mine
    count is the `A`-count plus the mines among the `U`-neighbors. -/
theorem count_partition (ns : List Coord) (M A U : Coord → Bool)
    (hUA : ∀ q ∈ ns, U q = true → A q = false)
    (hA : ∀ q ∈ ns, A q = true → M q = true)
    (hR : ∀ q ∈ ns, A q = false → U q = false → M q = false) :
    (ns.filter M).length = (ns.filter A).length + ((ns.filter U).filter M).length := by
  rw [filter_split_length ns M A]
  have h1 : ((ns.filter A).filter M).length = (ns.filter A).length := by
    apply filter_all_length
    intro a ha
    have := List.mem_filter.mp ha
    exact hA a this.1 this.2
  have h2 : ((ns.filter (fun a => !A a)).filter M).length =
      ((ns.filter U).filter M).length := by
    rw [filter_split_length (ns.filter (fun a => !A a)) M U]
    have h3 : (((ns.filter (fun a => !A a)).filter (fun a => !U a)).filter M).length = 0 := by
      apply filter_none_length
      intro a ha
      have hm1 := List.mem_filter.mp ha
      have hm2 := List.mem_filter.mp hm1.1
      refine hR a hm2.1 (by simpa using hm2.2) (by simpa using hm1.2)
    have h4 : (ns.filter (fun a => !A a)).filter U = ns.filter U := by
      rw [List.filter_filter]
      apply List.filter_congr
      intro a ha
      by_cases hu : U a
      · simp [hu, hUA a ha hu]
      · simp [hu]
    rw [h3, h4]
    omega
  rw [h1, h2]

/-! ### Neighbor-list facts -/

theorem nbrs_inB {rows cols : Nat} {r c : Int} {q : Coord}
    (h : q ∈ nbrs rows cols r c) : inB rows cols q = true := by
  unfold nbrs at h
  obtain ⟨d, _, hd⟩ := List.mem_filterMap.mp h
  by_cases hb : inB rows cols (r + d.1, c + d.2) = true
  · rw [if_pos hb] at hd
    cases hd
    exact hb
  · rw [if_neg hb] at hd
    cases hd

theorem nbrs_nodup (rows cols : Nat) (r c : Int) : (nbrs rows cols r c).Nodup := by
  unfold nbrs
  have hinj : ∀ (d d' : Int × Int) (q : Coord),
      q ∈ (if inB rows cols (r + d.1, c + d.2) then some (r + d.1, c + d.2) else none) →
      q ∈ (if inB rows cols (r + d'.1, c + d'.2) then some (r + d'.1, c + d'.2) else none) →
      d = d' := by
    intro d d' q hd hd'
    have hq : q = (r + d.1, c + d.2) := by
      by_cases hb : inB rows cols (r + d.1, c + d.2) = true
      · rw [if_pos hb] at hd
        simpa [Option.mem_def] using hd.symm
      · rw [if_neg hb] at hd
        simp at hd
    have hq' : q = (r + d'.1, c + d'.2) := by
      by_cases hb : inB rows cols (r + d'.1, c + d'.2) = true
      · rw [if_pos hb] at hd'
        simpa [Option.mem_def] using hd'.symm
      · rw [if_neg hb] at hd'
        simp at hd'
    rw [hq] at hq'
    have h1 : r + d.1 = r + d'.1 := congrArg Prod.fst hq'
    have h2 : c + d.2 = c + d'.2 := congrArg Prod.snd hq'
    have hd1 : d.1 = d'.1 := by omega
    have hd2 : d.2 = d'.2 := by omega
    exact Prod.ext hd1 hd2
  exact List.Nodup.filterMap hinj (by decide)

theorem mem_rowMajor_iff (rows cols : Nat) (p : Coord) :
    p ∈ rowMajor rows cols ↔
      (0 ≤ p.1 ∧ p.1 < (rows : Int) ∧ 0 ≤ p.2 ∧ p.2 < (cols : Int)) := by
  unfold rowMajor
  rw [List.mem_flatMap]
  constructor
  · rintro ⟨r, hr, hp⟩
    rw [List.mem_map] at hp
    obtain ⟨c2, hc2, rfl⟩ := hp
    have h1 : (r : Int) < (rows : Int) := by exact_mod_cast List.mem_range.mp hr
    have h2 : (c2 : Int) < (cols : Int) := by exact_mod_cast List.mem_range.mp hc2
    exact ⟨Int.natCast_nonneg r, h1, Int.natCast_nonneg c2, h2⟩
  · rintro ⟨h1, h2, h3, h4⟩
    refine ⟨p.1.toNat, ?_, ?_⟩
    · rw [List.mem_range]; omega
    · rw [List.mem_map]
      refine ⟨p.2.toNat, ?_, ?_⟩
      · rw [List.mem_range]; omega
      · have e1 : (p.1.toNat : Int) = p.1 := Int.toNat_of_nonneg h1
        have e2 : (p.2.toNat : Int) = p.2 := Int.toNat_of_nonneg h3
        rw [e1, e2]

theorem mem_coordsFin_iff_inB (rows cols : Nat) (p : Coord) :
    p ∈ coordsFin rows cols ↔ inB rows cols p = true := by
  unfold coordsFin inB
  rw [List.mem_toFinset, mem_rowMajor_iff]
  simp

theorem nbrs_mem_coordsFin {rows cols : Nat} {r c : Int} {q : Coord}
    (h : q ∈ nbrs rows cols r c) : q ∈ coordsFin rows cols :=
  (mem_coordsFin_iff_inB rows cols q).mpr (nbrs_inB h)

theorem indSum_toFinset (l : List Coord) (hl : l.Nodup) (M : Coord → Bool) :
    indSum M l.toFinset = ((l.filter M).length : Int) := by
  induction l with
  | nil => simp [indSum]
  | cons x xs ih =>
    have hx : x ∉ xs := (List.nodup_cons.mp hl).1
    have hxs : xs.Nodup := (List.nodup_cons.mp hl).2
    have hxf : x ∉ xs.toFinset := fun hc => hx (List.mem_toFinset.mp hc)
    have hih := ih hxs
    unfold indSum at hih ⊢
    rw [List.toFinset_cons, Finset.sum_insert hxf, hih]
    by_cases hm : M x <;> simp [List.filter_cons, hm] <;> push_cast <;> omega

/-! ### Facts about `_generate_constraints` -/

/-- In-bounds cells that are neither revealed nor flagged. -/
def goodCells (b : Board) (rows cols : Nat) : Finset Coord :=
  (coordsFin rows cols).filter (fun q =>
    (getCell b q.1 q.2).is_revealed = false ∧ (getCell b q.1 q.2).is_flagged = false)

theorem generateConstraints_char (b : Board) (rows cols : Nat) (ks km : Finset Coord) :
    generateConstraints b rows cols ks km =
      ((rowMajor rows cols).filter (fun p =>
        (getCell b p.1 p.2).is_revealed && !(getCell b p.1 p.2).is_mine &&
          decide (0 < (getCell b p.1 p.2).adjacent_mines) &&
          decide (unknownNbrsSpec b rows cols ks km p ≠ ∅))).map
        (fun p => (unknownNbrsSpec b rows cols ks km p,
          ((getCell b p.1 p.2).adjacent_mines : Int) -
            (flaggedOrKnownCnt b rows cols km p : Int))) := by
  rw [generateConstraints_eq_foldl,
    foldl_emits _ _ _ (fun acc x _ => genStep_eq rows cols ks km b acc x),
    flatMap_if_single]
  rfl

theorem mem_unknownNbrsSpec {b : Board} {rows cols : Nat} {ks km : Finset Coord}
    {p q : Coord} :
    q ∈ unknownNbrsSpec b rows cols ks km p ↔
      q ∈ nbrs rows cols p.1 p.2 ∧ (getCell b q.1 q.2).is_revealed = false ∧
        (getCell b q.1 q.2).is_flagged = false ∧ q ∉ ks ∧ q ∉ km := by
  unfold unknownNbrsSpec
  rw [List.mem_toFinset, List.mem_filter]
  simp [Bool.and_eq_true, and_assoc]

theorem generateConstraints_class (b : Board) (rows cols : Nat) (ks km : Finset Coord) :
    ∀ c ∈ generateConstraints b rows cols ks km,
      c.1.Nonempty ∧ c.1 ⊆ goodCells b rows cols ∧ ∀ p ∈ c.1, p ∉ ks ∧ p ∉ km := by
  intro c hc
  rw [generateConstraints_char] at hc
  obtain ⟨p, hp, rfl⟩ := List.mem_map.mp hc
  have hpf := List.of_mem_filter hp
  simp only [Bool.and_eq_true, decide_eq_true_eq] at hpf
  refine ⟨Finset.nonempty_iff_ne_empty.mpr hpf.2, ?_, ?_⟩
  · intro q hq
    obtain ⟨hnb, hrev, hflag, _, _⟩ := mem_unknownNbrsSpec.mp hq
    unfold goodCells
    rw [Finset.mem_filter]
    exact ⟨nbrs_mem_coordsFin hnb, hrev, hflag⟩
  · intro q hq
    obtain ⟨_, _, _, hks, hkm⟩ := mem_unknownNbrsSpec.mp hq
    exact ⟨hks, hkm⟩

theorem generateConstraints_sound (b : Board) (ks km : Finset Coord) (M : Coord → Bool)
    (hcons : Consistent b M) (hsets : SoundSets M ks km) :
    SoundCs M (generateConstraints b (numRows b) (numCols b) ks km) := by
  intro c hc
  rw [generateConstraints_char] at hc
  obtain ⟨p, hp, rfl⟩ := List.mem_map.mp hc
  have hpf := List.of_mem_filter hp
  have hpm : p ∈ rowMajor (numRows b) (numCols b) := List.mem_of_mem_filter hp
  simp only [Bool.and_eq_true, decide_eq_true_eq, Bool.not_eq_true'] at hpf
  have hpc : p ∈ coordsFin (numRows b) (numCols b) := List.mem_toFinset.mpr hpm
  have hadj : adjCnt (numRows b) (numCols b) M p = (getCell b p.1 p.2).adjacent_mines :=
    (hcons p hpc).2.2 ⟨hpf.1.1.1, hpf.1.1.2⟩
  have hpart := count_partition (nbrs (numRows b) (numCols b) p.1 p.2) M
    (fun q => (getCell b q.1 q.2).is_flagged || decide (q ∈ km))
    (fun q => !(getCell b q.1 q.2).is_revealed && !(getCell b q.1 q.2).is_flagged &&
      (decide (q ∉ ks) && decide (q ∉ km)))
    (by
      intro q _ hU
      simp only [Bool.and_eq_true, Bool.not_eq_true', decide_eq_true_eq] at hU
      simp [hU.1.2, hU.2.2])
    (by
      intro q hq hA
      have hqc : q ∈ coordsFin (numRows b) (numCols b) := nbrs_mem_coordsFin hq
      rcases Bool.or_eq_true_iff.mp hA with hf | hk
      · exact (hcons q hqc).2.1 hf
      · exact hsets.2 q (by simpa using hk))
    (by
      intro q hq hA hU
      have hqc : q ∈ coordsFin (numRows b) (numCols b) := nbrs_mem_coordsFin hq
      obtain ⟨hflag, hkm'⟩ := Bool.or_eq_false_iff.mp hA
      have hkm : q ∉ km := by simpa using hkm'
      by_cases hrev : (getCell b q.1 q.2).is_revealed = true
      · exact (hcons q hqc).1 hrev
      · have hrev' : (getCell b q.1 q.2).is_revealed = false := by simpa using hrev
        have hks : q ∈ ks := by
          by_contra hks
          simp [hrev', hflag, hks, hkm] at hU
        exact hsets.1 q hks)
  show indSum M (unknownNbrsSpec b (numRows b) (numCols b) ks km p) = _
  have hset : indSum M (unknownNbrsSpec b (numRows b) (numCols b) ks km p) =
      ((((nbrs (numRows b) (numCols b) p.1 p.2).filter
        (fun q => !(getCell b q.1 q.2).is_revealed && !(getCell b q.1 q.2).is_flagged &&
          (decide (q ∉ ks) && decide (q ∉ km)))).filter M).length : Int) := by
    unfold unknownNbrsSpec
    exact indSum_toFinset _ ((nbrs_nodup (numRows b) (numCols b) p.1 p.2).filter _) M
  rw [hset]
  unfold adjCnt at hadj
  unfold flaggedOrKnownCnt
  omega

/-! ### Facts about `_apply_basic_rules` -/

theorem basicStep_sound (b : Board) (ks km : Finset Coord) (M : Coord → Bool)
    (hcons : Consistent b M) (hsets : SoundSets M ks km)
    (acc : Finset Coord × Finset Coord) (hacc : SoundSets M acc.1 acc.2) (p : Coord)
    (hp : p ∈ rowMajor (numRows b) (numCols b)) :
    SoundSets M (basicStep (numRows b) (numCols b) ks km b acc p).1
      (basicStep (numRows b) (numCols b) ks km b acc p).2 := by
  have hpc : p ∈ coordsFin (numRows b) (numCols b) := List.mem_toFinset.mpr hp
  simp only [basicStep]
  by_cases hskip : ¬(getCell b p.1 p.2).is_revealed = true ∨ (getCell b p.1 p.2).is_mine = true
  · rw [if_pos hskip]; exact hacc
  rw [if_neg hskip]
  push_neg at hskip
  have hrev : (getCell b p.1 p.2).is_revealed = true := hskip.1
  have hmine : (getCell b p.1 p.2).is_mine = false := by
    have := hskip.2; simpa using this
  have hadj : adjCnt (numRows b) (numCols b) M p = (getCell b p.1 p.2).adjacent_mines :=
    (hcons p hpc).2.2 ⟨hrev, hmine⟩
  have hpart := count_partition (nbrs (numRows b) (numCols b) p.1 p.2) M
    (fun q => !(getCell b q.1 q.2).is_revealed &&
      ((getCell b q.1 q.2).is_flagged || decide (q ∈ km)))
    (fun q => !(getCell b q.1 q.2).is_revealed &&
      !((getCell b q.1 q.2).is_flagged || decide (q ∈ km)) &&
      (decide (q ∉ ks) && decide (q ∉ km)))
    (by
      intro q _ hU
      simp only [Bool.and_eq_true, Bool.not_eq_true'] at hU
      simp [hU.1.2])
    (by
      intro q hq hA
      have hqc : q ∈ coordsFin (numRows b) (numCols b) := nbrs_mem_coordsFin hq
      simp only [Bool.and_eq_true] at hA
      rcases Bool.or_eq_true_iff.mp hA.2 with hf | hk
      · exact (hcons q hqc).2.1 hf
      · exact hsets.2 q (by simpa using hk))
    (by
      intro q hq hA hU
      have hqc : q ∈ coordsFin (numRows b) (numCols b) := nbrs_mem_coordsFin hq
      by_cases hrevq : (getCell b q.1 q.2).is_revealed = true
      · exact (hcons q hqc).1 hrevq
      · have hrevq' : (getCell b q.1 q.2).is_revealed = false := by simpa using hrevq
        have hfk : ((getCell b q.1 q.2).is_flagged || decide (q ∈ km)) = false := by
          cases hb : ((getCell b q.1 q.2).is_flagged || decide (q ∈ km))
          · rfl
          · exfalso
            simp [hrevq', hb] at hA
        obtain ⟨hflagq, hkmq'⟩ := Bool.or_eq_false_iff.mp hfk
        have hkmq : q ∉ km := by simpa using hkmq'
        have hksq : q ∈ ks := by
          by_contra hksq
          simp [hrevq', hflagq, hksq, hkmq] at hU
        exact hsets.1 q hksq)
  unfold adjCnt at hadj
  by_cases h1 : ((nbrs (numRows b) (numCols b) p.1 p.2).filter
      (fun q => !(getCell b q.1 q.2).is_revealed &&
        !((getCell b q.1 q.2).is_flagged || decide (q ∈ km)) &&
        (decide (q ∉ ks) && decide (q ∉ km)))) ≠ [] ∧
      (getCell b p.1 p.2).adjacent_mines =
        ((nbrs (numRows b) (numCols b) p.1 p.2).filter
          (fun q => !(getCell b q.1 q.2).is_revealed &&
            ((getCell b q.1 q.2).is_flagged || decide (q ∈ km)))).length +
        ((nbrs (numRows b) (numCols b) p.1 p.2).filter
          (fun q => !(getCell b q.1 q.2).is_revealed &&
            !((getCell b q.1 q.2).is_flagged || decide (q ∈ km)) &&
            (decide (q ∉ ks) && decide (q ∉ km)))).length
  · rw [if_pos h1]
    have hall := all_of_filter_length_eq
      ((nbrs (numRows b) (numCols b) p.1 p.2).filter
        (fun q => !(getCell b q.1 q.2).is_revealed &&
          !((getCell b q.1 q.2).is_flagged || decide (q ∈ km)) &&
          (decide (q ∉ ks) && decide (q ∉ km)))) M (by omega)
    refine ⟨hacc.1, ?_⟩
    intro q hq
    rcases Finset.mem_union.mp hq with hq' | hq'
    · exact hacc.2 q hq'
    · have hq2 := List.mem_toFinset.mp hq'
      exact hall q (List.mem_of_mem_filter hq2)
  rw [if_neg h1]
  by_cases h2 : ((nbrs (numRows b) (numCols b) p.1 p.2).filter
      (fun q => !(getCell b q.1 q.2).is_revealed &&
        !((getCell b q.1 q.2).is_flagged || decide (q ∈ km)) &&
        (decide (q ∉ ks) && decide (q ∉ km)))) ≠ [] ∧
      (getCell b p.1 p.2).adjacent_mines =
        ((nbrs (numRows b) (numCols b) p.1 p.2).filter
          (fun q => !(getCell b q.1 q.2).is_revealed &&
            ((getCell b q.1 q.2).is_flagged || decide (q ∈ km)))).length
  · rw [if_pos h2]
    have hnone := none_of_filter_length_eq_zero
      ((nbrs (numRows b) (numCols b) p.1 p.2).filter
        (fun q => !(getCell b q.1 q.2).is_revealed &&
          !((getCell b q.1 q.2).is_flagged || decide (q ∈ km)) &&
          (decide (q ∉ ks) && decide (q ∉ km)))) M (by omega)
    refine ⟨?_, hacc.2⟩
    intro q hq
    rcases Finset.mem_union.mp hq with hq' | hq'
    · exact hacc.1 q hq'
    · have hq2 := List.mem_toFinset.mp hq'
      exact hnone q (List.mem_of_mem_filter hq2)
  rw [if_neg h2]
  exact hacc

theorem basicStep_class (b : Board) (rows cols : Nat) (ks km : Finset Coord)
    (acc : Finset Coord × Finset Coord) (p : Coord) :
    (basicStep rows cols ks km b acc p).1 ⊆ acc.1 ∪ goodCells b rows cols ∧
    (basicStep rows cols ks km b acc p).2 ⊆ acc.2 ∪ goodCells b rows cols := by
  have hsub : ∀ f : Coord → Bool,
      (((nbrs rows cols p.1 p.2).filter (fun q => !(getCell b q.1 q.2).is_revealed &&
        !((getCell b q.1 q.2).is_flagged || decide (q ∈ km)) &&
        (decide (q ∉ ks) && decide (q ∉ km)))).filter f).toFinset ⊆
      goodCells b rows cols := by
    intro f q hq
    have hq1 := List.mem_of_mem_filter (List.mem_toFinset.mp hq)
    have hq2 := List.of_mem_filter hq1
    have hnb := List.mem_of_mem_filter hq1
    simp only [Bool.and_eq_true, Bool.not_eq_true'] at hq2
    obtain ⟨hfl, _⟩ := Bool.or_eq_false_iff.mp hq2.1.2
    unfold goodCells
    rw [Finset.mem_filter]
    exact ⟨nbrs_mem_coordsFin hnb, hq2.1.1, hfl⟩
  simp only [basicStep]
  split
  · exact ⟨Finset.subset_union_left, Finset.subset_union_left⟩
  split
  · exact ⟨Finset.subset_union_left,
      Finset.union_subset_union (Finset.Subset.refl _) (hsub _)⟩
  split
  · exact ⟨Finset.union_subset_union (Finset.Subset.refl _) (hsub _),
      Finset.subset_union_left⟩
  exact ⟨Finset.subset_union_left, Finset.subset_union_left⟩

theorem applyBasicRules_sound (b : Board) (ks km : Finset Coord) (M : Coord → Bool)
    (hcons : Consistent b M) (hsets : SoundSets M ks km) :
    SoundSets M (applyBasicRules b (numRows b) (numCols b) ks km).1
      (applyBasicRules b (numRows b) (numCols b) ks km).2 := by
  rw [applyBasicRules_eq_foldl]
  apply foldl_inv (P := fun acc : Finset Coord × Finset Coord => SoundSets M acc.1 acc.2)
  · intro acc q hq hacc
    exact basicStep_sound b ks km M hcons hsets acc hacc q hq
  · exact ⟨fun q hq => absurd hq (Finset.not_mem_empty q),
      fun q hq => absurd hq (Finset.not_mem_empty q)⟩

theorem applyBasicRules_class (b : Board) (rows cols : Nat) (ks km : Finset Coord) :
    (applyBasicRules b rows cols ks km).1 ⊆ goodCells b rows cols ∧
    (applyBasicRules b rows cols ks km).2 ⊆ goodCells b rows cols := by
  rw [applyBasicRules_eq_foldl]
  apply foldl_inv (P := fun acc : Finset Coord × Finset Coord =>
    acc.1 ⊆ goodCells b rows cols ∧ acc.2 ⊆ goodCells b rows cols)
  · intro acc q _ hacc
    have h := basicStep_class b rows cols ks km acc q
    exact ⟨h.1.trans (Finset.union_subset hacc.1 (Finset.Subset.refl _)),
      h.2.trans (Finset.union_subset hacc.2 (Finset.Subset.refl _))⟩
  · exact ⟨Finset.empty_subset _, Finset.empty_subset _⟩

/-! ### Loop-level soundness and Claim C1 -/

theorem SoundSets.union {M : Coord → Bool} {s1 m1 s2 m2 : Finset Coord}
    (h1 : SoundSets M s1 m1) (h2 : SoundSets M s2 m2) :
    SoundSets M (s1 ∪ s2) (m1 ∪ m2) := by
  constructor
  · intro p hp
    rcases Finset.mem_union.mp hp with h | h
    · exact h1.1 p h
    · exact h2.1 p h
  · intro p hp
    rcases Finset.mem_union.mp hp with h | h
    · exact h1.2 p h
    · exact h2.2 p h

theorem SoundSets.empty (M : Coord → Bool) : SoundSets M ∅ ∅ :=
  ⟨fun q hq => absurd hq (Finset.not_mem_empty q),
    fun q hq => absurd hq (Finset.not_mem_empty q)⟩

theorem basicLoopS_sound (b : Board) (M : Coord → Bool) (hcons : Consistent b M) :
    ∀ (fuel : Nat) (sm : Finset Coord × Finset Coord), SoundSets M sm.1 sm.2 →
      SoundSets M (basicLoopS (numRows b) (numCols b) fuel sm b).1.1
        (basicLoopS (numRows b) (numCols b) fuel sm b).1.2 := by
  intro fuel
  induction fuel with
  | zero => intro sm h; exact h
  | succ n ih =>
    intro sm h
    show SoundSets M (basicLoopS (numRows b) (numCols b) (n + 1) sm b).1.1 _
    simp only [basicLoopS]
    split
    · rw [applyBasicRulesS_snd]
      exact ih _ (h.union (applyBasicRules_sound b sm.1 sm.2 M hcons h))
    · exact h

theorem cspLoopS_sound (b : Board) (M : Coord → Bool) (hcons : Consistent b M)
    (ks km : Finset Coord) (hks : SoundSets M ks km) :
    ∀ (fuel : Nat) (cs : List Constr) (s m : Finset Coord),
      (∀ d ∈ cs, d.1.Nonempty) → SoundCs M cs → SoundSets M s m →
      SoundSets M (cspLoopS (numRows b) (numCols b) ks km fuel cs s m b).1.1
        (cspLoopS (numRows b) (numCols b) ks km fuel cs s m b).1.2 := by
  intro fuel
  induction fuel with
  | zero => intro cs s m _ _ h; exact h
  | succ n ih =>
    intro cs s m hne hcs h
    show SoundSets M (cspLoopS (numRows b) (numCols b) ks km (n + 1) cs s m b).1.1 _
    simp only [cspLoopS]
    have hpass := stepOK_cspPass cs hne s m
    obtain ⟨_, _, _, _, _, _, hnewcl, hsound⟩ := hpass
    have hps := hsound M hcs ⟨fun c hc => absurd hc (List.not_mem_nil c), h⟩
    split
    · split
      · rw [generateConstraintsS_snd]
        apply ih
        · intro d hd
          exact (generateConstraints_class b (numRows b) (numCols b) _ _ d hd).1
        · exact generateConstraints_sound b _ _ M hcons (hks.union hps.2)
        · exact hps.2
      · apply ih
        · intro d hd
          rcases hnewcl d hd with hd' | hd'
          · exact absurd hd' (List.not_mem_nil d)
          · exact hd'.2
        · exact hps.1
        · exact hps.2
    · exact hps.2

theorem applyCspSolver_sound (b : Board) (ks km : Finset Coord) (M : Coord → Bool)
    (hcons : Consistent b M) (hsets : SoundSets M ks km) :
    SoundSets M (applyCspSolverS b (numRows b) (numCols b) ks km).1.1
      (applyCspSolverS b (numRows b) (numCols b) ks km).1.2 := by
  simp only [applyCspSolverS]
  split
  · exact SoundSets.empty M
  · rw [generateConstraintsS_snd]
    apply cspLoopS_sound b M hcons ks km hsets
    · intro d hd
      exact (generateConstraints_class b (numRows b) (numCols b) ks km d hd).1
    · exact generateConstraints_sound b ks km M hcons hsets
    · exact SoundSets.empty M

/-- Claim C1 (amended): for every board, relative to arrangements that satisfy
    all revealed-cell adjacent counts, place no mine on any revealed cell, and
    place a mine on every flagged cell, every coordinate in the mine set
    returned by `solve_step` carries a mine in every such arrangement and
    every coordinate in the safe set carries a mine in none. -/
theorem c1_solve_step_sound (b : Board) (M : Coord → Bool) (hcons : Consistent b M) :
    (∀ p ∈ (solveStep b).2, M p = true) ∧ (∀ p ∈ (solveStep b).1, M p = false) := by
  have hbasic := basicLoopS_sound b M hcons (numRows b * numCols b + 1) (∅, ∅)
    (SoundSets.empty M)
  have hcsp := applyCspSolver_sound b
    (basicLoopS (numRows b) (numCols b) (numRows b * numCols b + 1) (∅, ∅) b).1.1
    (basicLoopS (numRows b) (numCols b) (numRows b * numCols b + 1) (∅, ∅) b).1.2
    M hcons hbasic
  unfold solveStep solveStepS
  simp only [basicLoopS_snd]
  constructor
  · intro p hp
    rcases Finset.mem_union.mp hp with h | h
    · exact hbasic.2 p h
    · exact hcsp.2 p h
  · intro p hp
    rcases Finset.mem_union.mp hp with h | h
    · exact hbasic.1 p h
    · exact hcsp.1 p h

/-- Counterexample to Claim C1 as stated.  Board (a): a revealed 1 with a
    flagged neighbor; an arrangement satisfying all revealed counts (but
    contradicting the flag) mines a cell the solver declares safe.  Board (b):
    a revealed 2 next to a revealed mine; an arrangement satisfying all
    revealed counts and all flags (but mining a revealed cell) omits a mine
    the solver declares certain.  Together they force the amendment's two
    extra conditions on arrangements. -/
theorem c1_counterexample :
    (ConsistentCounts
        [[⟨false, true, false, 1⟩, ⟨false, false, true, 0⟩],
         [⟨false, false, false, 0⟩, ⟨false, false, false, 0⟩]]
        (fun p => decide (p = ((1 : Int), (0 : Int)))) ∧
      ((1 : Int), (0 : Int)) ∈ (solveStep
        [[⟨false, true, false, 1⟩, ⟨false, false, true, 0⟩],
         [⟨false, false, false, 0⟩, ⟨false, false, false, 0⟩]]).1 ∧
      (decide (((1 : Int), (0 : Int)) = ((1 : Int), (0 : Int)))) = true) ∧
    (ConsistentCounts
        [[⟨false, true, false, 2⟩, ⟨true, true, false, 0⟩],
         [⟨false, false, false, 0⟩, ⟨false, false, false, 0⟩]]
        (fun p => decide (p = ((0 : Int), (1 : Int)) ∨ p = ((1 : Int), (0 : Int)))) ∧
      (∀ p ∈ coordsFin 2 2,
        (getCell [[⟨false, true, false, 2⟩, ⟨true, true, false, 0⟩],
          [⟨false, false, false, 0⟩, ⟨false, false, false, 0⟩]] p.1 p.2).is_flagged = true →
        (decide (p = ((0 : Int), (1 : Int)) ∨ p = ((1 : Int), (0 : Int)))) = true) ∧
      ((1 : Int), (1 : Int)) ∈ (solveStep
        [[⟨false, true, false, 2⟩, ⟨true, true, false, 0⟩],
         [⟨false, false, false, 0⟩, ⟨false, false, false, 0⟩]]).2 ∧
      (decide (((1 : Int), (1 : Int)) = ((0 : Int), (1 : Int)) ∨
        ((1 : Int), (1 : Int)) = ((1 : Int), (0 : Int)))) = false) := by
  decide

/-- Witness for the amended C1 on a concrete board and arrangement. -/
theorem c1_solve_step_sound_witness :
    Consistent [[⟨false, true, false, 1⟩, ⟨false, false, false, 0⟩]]
      (fun p => decide (p = ((0 : Int), (1 : Int)))) ∧
    ((∀ p ∈ (solveStep [[⟨false, true, false, 1⟩, ⟨false, false, false, 0⟩]]).2,
        (decide (p = ((0 : Int), (1 : Int)))) = true) ∧
      (∀ p ∈ (solveStep [[⟨false, true, false, 1⟩, ⟨false, false, false, 0⟩]]).1,
        (decide (p = ((0 : Int), (1 : Int)))) = false)) :=
  ⟨by decide, c1_solve_step_sound _ _ (by decide)⟩

/-! ### Claim C10: returned cells are in-bounds, unrevealed and unflagged -/

theorem basicLoopS_class (b : Board) (rows cols : Nat) :
    ∀ (fuel : Nat) (sm : Finset Coord × Finset Coord),
      sm.1 ⊆ goodCells b rows cols → sm.2 ⊆ goodCells b rows cols →
      (basicLoopS rows cols fuel sm b).1.1 ⊆ goodCells b rows cols ∧
      (basicLoopS rows cols fuel sm b).1.2 ⊆ goodCells b rows cols := by
  intro fuel
  induction fuel with
  | zero => intro sm h1 h2; exact ⟨h1, h2⟩
  | succ n ih =>
    intro sm h1 h2
    show (basicLoopS rows cols (n + 1) sm b).1.1 ⊆ _ ∧ _
    simp only [basicLoopS]
    split
    · rw [applyBasicRulesS_snd]
      have hc := applyBasicRules_class b rows cols sm.1 sm.2
      exact ih _ (Finset.union_subset h1 hc.1) (Finset.union_subset h2 hc.2)
    · exact ⟨h1, h2⟩

theorem cspLoopS_class (b : Board) (rows cols : Nat) (ks km : Finset Coord) :
    ∀ (fuel : Nat) (cs : List Constr) (s m : Finset Coord),
      (∀ d ∈ cs, d.1.Nonempty) →
      (∀ d ∈ cs, d.1 ⊆ goodCells b rows cols) →
      s ⊆ goodCells b rows cols → m ⊆ goodCells b rows cols →
      (cspLoopS rows cols ks km fuel cs s m b).1.1 ⊆ goodCells b rows cols ∧
      (cspLoopS rows cols ks km fuel cs s m b).1.2 ⊆ goodCells b rows cols := by
  intro fuel
  induction fuel with
  | zero => intro cs s m _ _ h1 h2; exact ⟨h1, h2⟩
  | succ n ih =>
    intro cs s m hne hgood h1 h2
    show (cspLoopS rows cols ks km (n + 1) cs s m b).1.1 ⊆ _ ∧ _
    simp only [cspLoopS]
    have hpass := stepOK_cspPass cs hne s m
    obtain ⟨_, _, _, hs4, hs5, _, hnewcl, _⟩ := hpass
    have hcells : cellsOf cs ⊆ goodCells b rows cols := cellsOf_subset hgood
    have hsafe : (cspPass cs s m).safe ⊆ goodCells b rows cols :=
      hs4.trans (Finset.union_subset h1 hcells)
    have hmine : (cspPass cs s m).mine ⊆ goodCells b rows cols :=
      hs5.trans (Finset.union_subset h2 hcells)
    split
    · split
      · rw [generateConstraintsS_snd]
        apply ih
        · intro d hd
          exact (generateConstraints_class b rows cols _ _ d hd).1
        · intro d hd
          exact (generateConstraints_class b rows cols _ _ d hd).2.1
        · exact hsafe
        · exact hmine
      · apply ih
        · intro d hd
          rcases hnewcl d hd with hd' | hd'
          · exact absurd hd' (List.not_mem_nil d)
          · exact hd'.2
        · intro d hd
          rcases hnewcl d hd with hd' | hd'
          · exact absurd hd' (List.not_mem_nil d)
          · exact hd'.1.trans hcells
        · exact hsafe
        · exact hmine
    · exact ⟨hsafe, hmine⟩

theorem applyCspSolver_class (b : Board) (rows cols : Nat) (ks km : Finset Coord) :
    (applyCspSolverS b rows cols ks km).1.1 ⊆ goodCells b rows cols ∧
    (applyCspSolverS b rows cols ks km).1.2 ⊆ goodCells b rows cols := by
  simp only [applyCspSolverS]
  split
  · exact ⟨Finset.empty_subset _, Finset.empty_subset _⟩
  · rw [generateConstraintsS_snd]
    apply cspLoopS_class
    · intro d hd
      exact (generateConstraints_class b rows cols ks km d hd).1
    · intro d hd
      exact (generateConstraints_class b rows cols ks km d hd).2.1
    · exact Finset.empty_subset _
    · exact Finset.empty_subset _

/-- Claim C10: every coordinate in either set returned by `solve_step` is
    in bounds and names a cell that is neither revealed nor flagged in the
    input board. -/
theorem c10_solve_step_cells (b : Board) :
    ∀ p, p ∈ (solveStep b).1 ∪ (solveStep b).2 →
      inB (numRows b) (numCols b) p = true ∧
      (getCell b p.1 p.2).is_revealed = false ∧
      (getCell b p.1 p.2).is_flagged = false := by
  intro p hp
  have h1 := basicLoopS_class b (numRows b) (numCols b) (numRows b * numCols b + 1) (∅, ∅)
    (Finset.empty_subset _) (Finset.empty_subset _)
  have h2 := applyCspSolver_class b (numRows b) (numCols b)
    (basicLoopS (numRows b) (numCols b) (numRows b * numCols b + 1) (∅, ∅) b).1.1
    (basicLoopS (numRows b) (numCols b) (numRows b * numCols b + 1) (∅, ∅) b).1.2
  unfold solveStep solveStepS at hp
  simp only [basicLoopS_snd] at hp
  have hgood : p ∈ goodCells b (numRows b) (numCols b) := by
    rcases Finset.mem_union.mp hp with h | h
    · rcases Finset.mem_union.mp h with h' | h'
      · exact h1.1 h'
      · exact h2.1 h'
    · rcases Finset.mem_union.mp h with h' | h'
      · exact h1.2 h'
      · exact h2.2 h'
  unfold goodCells at hgood
  rw [Finset.mem_filter] at hgood
  exact ⟨(mem_coordsFin_iff_inB _ _ _).mp hgood.1, hgood.2.1, hgood.2.2⟩

/-- Witness for C10 on a concrete board. -/
theorem c10_solve_step_cells_witness :
    ((0 : Int), (1 : Int)) ∈
      (solveStep [[⟨false, true, false, 1⟩, ⟨false, false, false, 0⟩]]).1 ∪
      (solveStep [[⟨false, true, false, 1⟩, ⟨false, false, false, 0⟩]]).2 ∧
    (inB (numRows [[⟨false, true, false, 1⟩, ⟨false, false, false, 0⟩]])
        (numCols [[⟨false, true, false, 1⟩, ⟨false, false, false, 0⟩]])
        ((0 : Int), (1 : Int)) = true ∧
      (getCell [[⟨false, true, false, 1⟩, ⟨false, false, false, 0⟩]]
        (0 : Int) (1 : Int)).is_revealed = false ∧
      (getCell [[⟨false, true, false, 1⟩, ⟨false, false, false, 0⟩]]
        (0 : Int) (1 : Int)).is_flagged = false) :=
  ⟨by decide, c10_solve_step_cells _ _ (by decide)⟩

/-! ### Claim C5: the subset-elimination loop terminates within the grid bound -/

theorem rowMajor_length (rows cols : Nat) : (rowMajor rows cols).length = rows * cols := by
  induction rows with
  | zero => simp [rowMajor]
  | succ n ih =>
    unfold rowMajor at ih ⊢
    rw [List.range_succ, List.flatMap_append, List.length_append, ih]
    simp only [List.flatMap_cons, List.flatMap_nil, List.append_nil, List.length_map,
      List.length_range]
    ring

theorem coordsFin_card_le (rows cols : Nat) : (coordsFin rows cols).card ≤ rows * cols := by
  unfold coordsFin
  calc (rowMajor rows cols).toFinset.card ≤ (rowMajor rows cols).length :=
        List.toFinset_card_le _
    _ = rows * cols := rowMajor_length rows cols

theorem goodCells_subset_coordsFin (b : Board) (rows cols : Nat) :
    goodCells b rows cols ⊆ coordsFin rows cols := Finset.filter_subset _ _

/-- One pass with a raised flag strictly grows the proven set, provided the
    constraints' cells are disjoint from it. -/
theorem cspPass_progress (cs : List Constr) (s m : Finset Coord)
    (hne : ∀ d ∈ cs, d.1.Nonempty)
    (hdisj : ∀ d ∈ cs, ∀ p ∈ d.1, p ∉ s ∧ p ∉ m)
    (hflag : (cspPass cs s m).flag = true) :
    s ∪ m ⊂ (cspPass cs s m).safe ∪ (cspPass cs s m).mine := by
  have hpass := stepOK_cspPass cs hne s m
  obtain ⟨hs1, hs2, _, _, _, hflagcl, _, _⟩ := hpass
  obtain ⟨x, hxcells, hxmem⟩ := (hflagcl hflag).resolve_left (by simp)
  have hxnot : x ∉ s ∪ m := by
    obtain ⟨d, hd, hxd⟩ := (mem_cellsOf cs x).mp hxcells
    have h := hdisj d hd x hxd
    rw [Finset.mem_union]
    tauto
  rw [Finset.ssubset_iff_of_subset (Finset.union_subset_union hs1 hs2)]
  refine ⟨x, ?_, hxnot⟩
  rw [Finset.mem_union]
  exact hxmem

theorem cspLoop_fuel_succ (b : Board) (rows cols : Nat) (ks km : Finset Coord) :
    ∀ (f : Nat) (cs : List Constr) (s m : Finset Coord),
      (∀ d ∈ cs, d.1.Nonempty) →
      (∀ d ∈ cs, d.1 ⊆ coordsFin rows cols) →
      (∀ d ∈ cs, ∀ p ∈ d.1, p ∉ s ∧ p ∉ m) →
      s ∪ m ⊆ coordsFin rows cols →
      (coordsFin rows cols).card + 1 ≤ f + (s ∪ m).card →
      cspLoopS rows cols ks km f cs s m b =
        cspLoopS rows cols ks km (f + 1) cs s m b := by
  intro f
  induction f with
  | zero =>
    intro cs s m _ _ _ hsub hf
    exfalso
    have := Finset.card_le_card hsub
    omega
  | succ n ih =>
    intro cs s m hne hgood hdisj hsub hf
    show cspLoopS rows cols ks km (n + 1) cs s m b =
      cspLoopS rows cols ks km (n + 1 + 1) cs s m b
    simp only [cspLoopS]
    by_cases hflag : (cspPass cs s m).flag = true
    · rw [if_pos hflag, if_pos hflag]
      have hgrow := cspPass_progress cs s m hne hdisj hflag
      have hpass := stepOK_cspPass cs hne s m
      obtain ⟨_, _, _, hs4, hs5, hflagcl, _, _⟩ := hpass
      obtain ⟨x, hxcells, hxmem⟩ := (hflagcl hflag).resolve_left (by simp)
      have hcond : ¬(cspPass cs s m).safe = ∅ ∨ ¬(cspPass cs s m).mine = ∅ := by
        rcases hxmem with hx | hx
        · exact Or.inl (Finset.ne_empty_of_mem hx)
        · exact Or.inr (Finset.ne_empty_of_mem hx)
      rw [if_pos hcond, if_pos hcond, generateConstraintsS_snd]
      have hcells : cellsOf cs ⊆ coordsFin rows cols := cellsOf_subset hgood
      have hsub' : (cspPass cs s m).safe ∪ (cspPass cs s m).mine ⊆ coordsFin rows cols := by
        apply Finset.union_subset
        · exact hs4.trans (Finset.union_subset
            ((Finset.subset_union_left).trans hsub) hcells)
        · exact hs5.trans (Finset.union_subset
            ((Finset.subset_union_right).trans hsub) hcells)
      have hcard : (s ∪ m).card < ((cspPass cs s m).safe ∪ (cspPass cs s m).mine).card :=
        Finset.card_lt_card hgrow
      apply ih
      · intro d hd
        exact (generateConstraints_class b rows cols _ _ d hd).1
      · intro d hd
        exact ((generateConstraints_class b rows cols _ _ d hd).2.1).trans
          (goodCells_subset_coordsFin b rows cols)
      · intro d hd p hp
        have h2 := (generateConstraints_class b rows cols _ _ d hd).2.2 p hp
        constructor
        · intro hps
          exact h2.1 (Finset.mem_union_right _ hps)
        · intro hpm
          exact h2.2 (Finset.mem_union_right _ hpm)
      · exact hsub'
      · omega
    · rw [if_neg hflag, if_neg hflag]

theorem cspLoop_fuel_add (b : Board) (rows cols : Nat) (ks km : Finset Coord)
    (cs : List Constr) (s m : Finset Coord)
    (hne : ∀ d ∈ cs, d.1.Nonempty)
    (hgood : ∀ d ∈ cs, d.1 ⊆ coordsFin rows cols)
    (hdisj : ∀ d ∈ cs, ∀ p ∈ d.1, p ∉ s ∧ p ∉ m)
    (hsub : s ∪ m ⊆ coordsFin rows cols) :
    ∀ (k f : Nat), (coordsFin rows cols).card + 1 ≤ f + (s ∪ m).card →
      cspLoopS rows cols ks km f cs s m b =
        cspLoopS rows cols ks km (f + k) cs s m b := by
  intro k
  induction k with
  | zero => intro f _; rfl
  | succ n ih =>
    intro f hf
    rw [ih f hf, show f + (n + 1) = (f + n) + 1 from by omega]
    exact cspLoop_fuel_succ b rows cols ks km (f + n) cs s m hne hgood hdisj hsub
      (by omega)

/-- Claim C5: the subset-elimination propagation loop of `_apply_csp_solver`
    terminates for every board and every pair of known-safe/known-mine input
    sets: its result is already stable at fuel `rows * cols + 1` (each
    flag-raising pass proves at least one cell not proven before the pass, a
    resource bounded by the grid size), and a flag-raising pass strictly
    enlarges the proven set. -/
theorem c5_subset_elimination_terminates (b : Board) (rows cols : Nat)
    (ks km : Finset Coord) :
    (∀ fuel, rows * cols + 1 ≤ fuel →
      cspLoopS rows cols ks km fuel (generateConstraints b rows cols ks km) ∅ ∅ b =
        cspLoopS rows cols ks km (rows * cols + 1)
          (generateConstraints b rows cols ks km) ∅ ∅ b) ∧
    (∀ (cs : List Constr) (s m : Finset Coord),
      (∀ d ∈ cs, d.1.Nonempty) →
      (∀ d ∈ cs, ∀ p ∈ d.1, p ∉ s ∧ p ∉ m) →
      (cspPass cs s m).flag = true →
      s ∪ m ⊂ (cspPass cs s m).safe ∪ (cspPass cs s m).mine) := by
  constructor
  · intro fuel hfuel
    have hne : ∀ d ∈ generateConstraints b rows cols ks km, d.1.Nonempty :=
      fun d hd => (generateConstraints_class b rows cols ks km d hd).1
    have hgood : ∀ d ∈ generateConstraints b rows cols ks km,
        d.1 ⊆ coordsFin rows cols :=
      fun d hd => ((generateConstraints_class b rows cols ks km d hd).2.1).trans
        (goodCells_subset_coordsFin b rows cols)
    have hdisj : ∀ d ∈ generateConstraints b rows cols ks km,
        ∀ p ∈ d.1, p ∉ (∅ : Finset Coord) ∧ p ∉ (∅ : Finset Coord) :=
      fun d _ p _ => ⟨Finset.not_mem_empty p, Finset.not_mem_empty p⟩
    have hsub : (∅ : Finset Coord) ∪ ∅ ⊆ coordsFin rows cols := by
      simp
    have hbound : (coordsFin rows cols).card + 1 ≤
        (rows * cols + 1) + ((∅ : Finset Coord) ∪ ∅).card := by
      have := coordsFin_card_le rows cols
      simp
      omega
    have h := cspLoop_fuel_add b rows cols ks km
      (generateConstraints b rows cols ks km) ∅ ∅ hne hgood hdisj hsub
      (fuel - (rows * cols + 1)) (rows * cols + 1) hbound
    rw [show (rows * cols + 1) + (fuel - (rows * cols + 1)) = fuel from by omega] at h
    exact h.symm
  · exact fun cs s m hne hdisj hflag => cspPass_progress cs s m hne hdisj hflag

/-- Witness for C5 at a concrete board, fuel, and pass input. -/
theorem c5_subset_elimination_terminates_witness :
    ((2 : Nat) * 2 + 1 ≤ 7) ∧
    (cspLoopS 2 2 ∅ ∅ 7
        (generateConstraints [[⟨false, true, false, 1⟩, ⟨false, false, true, 0⟩],
          [⟨false, false, false, 0⟩, ⟨false, false, false, 0⟩]] 2 2 ∅ ∅) ∅ ∅
        [[⟨false, true, false, 1⟩, ⟨false, false, true, 0⟩],
          [⟨false, false, false, 0⟩, ⟨false, false, false, 0⟩]] =
      cspLoopS 2 2 ∅ ∅ (2 * 2 + 1)
        (generateConstraints [[⟨false, true, false, 1⟩, ⟨false, false, true, 0⟩],
          [⟨false, false, false, 0⟩, ⟨false, false, false, 0⟩]] 2 2 ∅ ∅) ∅ ∅
        [[⟨false, true, false, 1⟩, ⟨false, false, true, 0⟩],
          [⟨false, false, false, 0⟩, ⟨false, false, false, 0⟩]]) ∧
    ((∀ d ∈ ([({((0 : Int), (0 : Int))}, 0)] : List Constr), d.1.Nonempty) ∧
      (∀ d ∈ ([({((0 : Int), (0 : Int))}, 0)] : List Constr), ∀ p ∈ d.1,
        p ∉ (∅ : Finset Coord) ∧ p ∉ (∅ : Finset Coord)) ∧
      (cspPass [({((0 : Int), (0 : Int))}, 0)] ∅ ∅).flag = true ∧
      (∅ : Finset Coord) ∪ ∅ ⊂
        (cspPass [({((0 : Int), (0 : Int))}, 0)] ∅ ∅).safe ∪
          (cspPass [({((0 : Int), (0 : Int))}, 0)] ∅ ∅).mine) := by
  refine ⟨by omega,
    (c5_subset_elimination_terminates
      [[⟨false, true, false, 1⟩, ⟨false, false, true, 0⟩],
        [⟨false, false, false, 0⟩, ⟨false, false, false, 0⟩]] 2 2 ∅ ∅).1 7 (by omega),
    by decide, by decide, by decide,
    (c5_subset_elimination_terminates
      [[⟨false, true, false, 1⟩, ⟨false, false, true, 0⟩],
        [⟨false, false, false, 0⟩, ⟨false, false, false, 0⟩]] 2 2 ∅ ∅).2
      [({((0 : Int), (0 : Int))}, 0)] ∅ ∅ (by decide) (by decide) (by decide)⟩

/-! ### Dictionary-update lemmas for the probability table -/

theorem lookup_map_overwrite (d : List (Coord × ℚ)) (k : Coord) (v : ℚ) (p : Coord)
    (hp : ¬p = k) :
    ((d.map (fun q => if q.1 = k then (k, v) else q)).lookup p) = d.lookup p := by
  induction d with
  | nil => rfl
  | cons a d ih =>
    obtain ⟨a1, a2⟩ := a
    rw [List.map_cons]
    by_cases ha : a1 = k
    · subst ha
      have hhead : ((if ((a1, a2) : Coord × ℚ).1 = a1 then ((a1, v) : Coord × ℚ)
          else (a1, a2))) = (a1, v) := by simp
      rw [hhead]
      have h1 : (p == a1) = false := by simpa using hp
      simp [List.lookup, h1, ih]
    · have hhead : ((if ((a1, a2) : Coord × ℚ).1 = k then ((k, v) : Coord × ℚ)
          else (a1, a2))) = (a1, a2) := by simp [ha]
      rw [hhead]
      cases hpa : (p == a1) <;> simp [List.lookup, hpa, ih]

theorem lookup_map_overwrite_self (d : List (Coord × ℚ)) (k : Coord) (v : ℚ)
    (hany : d.any (fun q => q.1 = k) = true) :
    ((d.map (fun q => if q.1 = k then (k, v) else q)).lookup k) = some v := by
  induction d with
  | nil => simp at hany
  | cons a d ih =>
    obtain ⟨a1, a2⟩ := a
    rw [List.map_cons]
    by_cases ha : a1 = k
    · subst ha
      have hhead : ((if ((a1, a2) : Coord × ℚ).1 = a1 then ((a1, v) : Coord × ℚ)
          else (a1, a2))) = (a1, v) := by simp
      rw [hhead]
      simp [List.lookup]
    · have hany2 : d.any (fun q => q.1 = k) = true := by
        simpa [List.any_cons, ha] using hany
      have h2 : (k == a1) = false := by
        simp only [beq_eq_false_iff_ne, ne_eq]
        exact fun h => ha h.symm
      have hhead : ((if ((a1, a2) : Coord × ℚ).1 = k then ((k, v) : Coord × ℚ)
          else (a1, a2))) = (a1, a2) := by simp [ha]
      rw [hhead]
      simp [List.lookup, h2, ih hany2]

theorem dictUpdate_single_lookup (d : List (Coord × ℚ)) (e : Coord × ℚ) (p : Coord) :
    (dictUpdate d [e]).lookup p = if p = e.1 then some e.2 else d.lookup p := by
  obtain ⟨k, v⟩ := e
  show ((if d.any (fun q => q.1 = k) then
      d.map (fun q => if q.1 = k then (k, v) else q)
    else d ++ [(k, v)]).lookup p) = _
  by_cases hany : d.any (fun q => q.1 = k) = true
  · rw [if_pos hany]
    by_cases hp : p = k
    · subst hp
      rw [if_pos rfl]
      exact lookup_map_overwrite_self d p v hany
    · rw [if_neg hp]
      exact lookup_map_overwrite d k v p hp
  · rw [if_neg hany, lookup_append]
    have hnone : d.lookup k = none := by
      rw [lookup_eq_none_keys]
      intro hmem
      apply hany
      rw [List.any_eq_true]
      obtain ⟨q, hq, hq1⟩ := List.mem_map.mp hmem
      exact ⟨q, hq, by simp [hq1]⟩
    by_cases hp : p = k
    · subst hp
      rw [if_pos rfl, hnone]
      simp [List.lookup]
    · rw [if_neg hp]
      have h1 : (p == k) = false := by simpa using hp
      have h2 : ([((k, v) : Coord × ℚ)].lookup p) = none := by
        simp [List.lookup, h1]
      rw [h2]
      cases d.lookup p <;> rfl

theorem dictUpdate_cons (d : List (Coord × ℚ)) (e : Coord × ℚ)
    (es : List (Coord × ℚ)) :
    dictUpdate d (e :: es) = dictUpdate (dictUpdate d [e]) es := rfl

theorem dictUpdate_lookup (d upd : List (Coord × ℚ)) (p : Coord) :
    (dictUpdate d upd).lookup p = (upd.reverse.lookup p).or (d.lookup p) := by
  induction upd generalizing d with
  | nil => simp [dictUpdate, List.lookup]
  | cons e es ih =>
    rw [dictUpdate_cons, ih, dictUpdate_single_lookup, List.reverse_cons, lookup_append]
    by_cases hp : p = e.1
    · rw [if_pos hp]
      have h1 : ([e].lookup p) = some e.2 := by
        obtain ⟨k, v⟩ := e
        cases hp
        simp [List.lookup]
      rw [h1]
      cases es.reverse.lookup p <;> rfl
    · rw [if_neg hp]
      have h1 : ([e].lookup p) = none := by
        obtain ⟨k, v⟩ := e
        have : (p == k) = false := by simpa using hp
        simp [List.lookup, this]
      rw [h1]
      cases es.reverse.lookup p <;> rfl

theorem lookup_reverse_graph (f : Coord → ℚ) (l : List Coord) (p : Coord) :
    ((l.map (fun c => (c, f c))).reverse).lookup p =
      if p ∈ l then some (f p) else none := by
  rw [← List.map_reverse, lookup_graph]
  by_cases hp : p ∈ l <;> simp [hp]

/-! ### Existence and shape of the probability dictionary -/

theorem listOf_eq_nil (s : Finset Coord) : listOf s = [] ↔ s = ∅ := by
  constructor
  · intro h
    have h2 := listOf_toFinset s
    rw [h] at h2
    simpa using h2.symm
  · intro h
    subst h
    exact List.length_eq_zero.mp (by rw [listOf_length]; simp)

theorem regionStep_fold_some (fuel : Nat) (cs : List Constr)
    (hne : ∀ c ∈ cs, c.1 ≠ ∅) :
    ∀ init : List (Coord × List Constr) × UF,
      ∃ du, cs.foldl (regionStep fuel) (some init) = some du := by
  induction cs with
  | nil => exact fun init => ⟨init, rfl⟩
  | cons c rest ih =>
    intro init
    rw [List.foldl_cons]
    have hc : ¬listOf c.1 = [] := by
      rw [listOf_eq_nil]
      exact hne c (List.mem_cons_self _ _)
    cases hl : listOf c.1 with
    | nil => exact absurd hl hc
    | cons y ys =>
      have hstep : regionStep fuel (some init) c =
          some (dictAddCon init.1 (ufFind fuel init.2 y).1 c,
            (ufFind fuel init.2 y).2) := by
        simp only [regionStep, hl]
      rw [hstep]
      exact ih (fun c2 h => hne c2 (List.mem_cons_of_mem _ h)) _

theorem findIndependentRegions_some (cs : List Constr)
    (hne : ∀ c ∈ cs, c.1 ≠ ∅) :
    ∃ gs, findIndependentRegions cs = some gs := by
  by_cases h0 : cs = []
  · subst h0
    exact ⟨[], rfl⟩
  · obtain ⟨du, hdu⟩ := regionStep_fold_some ((cellsOf cs).card + 2) cs hne
      ([], (ufGroups ((cellsOf cs).card + 2)
        (ufUnionAll ((cellsOf cs).card + 2) cs (ufAddAll cs))).2)
    refine ⟨du.1.map (fun e => e.2), ?_⟩
    simp only [findIndependentRegions, h0, if_false]
    rw [hdu]

theorem regionsOf_some (b : Board) : ∃ rs, regionsOf b = some rs := by
  unfold regionsOf
  apply findIndependentRegions_some
  intro c hc
  exact Finset.nonempty_iff_ne_empty.mp
    (generateConstraints_class b (numRows b) (numCols b) ∅ ∅ c hc).1

theorem calculateProbabilities_shape (cs : List Constr) (cells : Finset Coord) :
    ∃ f : Coord → ℚ,
      calculateProbabilities cs cells = (listOf cells).map (fun c => (c, f c)) := by
  simp only [calculateProbabilities]
  by_cases h0 : (listOf cells).length = 0
  · refine ⟨fun _ => 0, ?_⟩
    rw [if_pos h0, List.length_eq_zero.mp h0]
    rfl
  · rw [if_neg h0]
    by_cases ht : (backtrackSols (listOf cells) cs (listOf cells).length []).length = 0
    · exact ⟨fun _ => (1 : ℚ) / 2, by rw [if_pos ht]⟩
    · refine ⟨fun c => (((backtrackSols (listOf cells) cs (listOf cells).length
        []).filter (fun a => cellToValue (listOf cells) a c = 1)).length : ℚ) /
          (((backtrackSols (listOf cells) cs (listOf cells).length []).length : ℚ)), ?_⟩
      rw [if_neg ht]

theorem unrevealedSet_eq_goodCells (b : Board) :
    unrevealedSet b = goodCells b (numRows b) (numCols b) := by
  unfold unrevealedSet goodCells coordsFin
  ext p
  rw [List.mem_toFinset, List.mem_filter, Finset.mem_filter, List.mem_toFinset]
  simp [Bool.and_eq_true]

theorem borderSet_subset_unrevealed (b : Board) : borderSet b ⊆ unrevealedSet b := by
  rw [unrevealedSet_eq_goodCells]
  unfold borderSet
  exact cellsOf_subset (fun c hc =>
    (generateConstraints_class b (numRows b) (numCols b) ∅ ∅ c hc).2.1)

/-- The border-cell probability mass used by `make_probabilistic_move` when
    distributing the remaining mines over the interior cells. -/
def borderProb (b : Board) (regions : List (List Constr)) : ℚ :=
  (borderSet b).sum (fun p => lookupD (regionProbs regions) p ((1 : ℚ) / 2))

theorem max_zero_div (x c : ℚ) (hc : 0 < c) : max 0 (x / c) = max 0 x / c := by
  rcases le_total x 0 with h | h
  · have h1 : x / c ≤ 0 := div_nonpos_of_nonpos_of_nonneg h hc.le
    rw [max_eq_left h1, max_eq_left h, zero_div]
  · rw [max_eq_right (div_nonneg h hc.le), max_eq_right h]

/-- **C6** (amended): for every board, total-mine count, and interior cell
    (unrevealed, unflagged, covered by no constraint), the probability the move
    selector assigns to that cell equals
    `max 0 (total mines − flagged count − border probability mass)` divided by
    the interior-cell count, and this value is nonnegative.  (The original
    claim's upper bound `≤ 1` is false: the quotient is not clamped above.) -/
theorem c6_interior_probability (b : Board) (tm : Int) (p : Coord)
    (hp : p ∈ interiorSet b) :
    ∃ rs d, regionsOf b = some rs ∧ cellProbsOf tm b = some d ∧
      d.lookup p =
        some (max 0 ((tm : ℚ) - (flaggedCount b : ℚ) - borderProb b rs) /
          ((interiorSet b).card : ℚ)) ∧
      0 ≤ max 0 ((tm : ℚ) - (flaggedCount b : ℚ) - borderProb b rs) /
        ((interiorSet b).card : ℚ) := by
  obtain ⟨rs, hrs⟩ := regionsOf_some b
  have hne : interiorSet b ≠ ∅ := by
    intro h
    rw [h] at hp
    exact absurd hp (Finset.not_mem_empty p)
  have hcard : (0 : ℚ) < ((interiorSet b).card : ℚ) := by
    have := Finset.card_pos.mpr (Finset.nonempty_iff_ne_empty.mpr hne)
    exact_mod_cast this
  have hcp : cellProbsOf tm b =
      some (dictUpdate (regionProbs rs)
        ((listOf (interiorSet b)).map (fun c => (c,
          max 0 (((tm : ℚ) - (flaggedCount b : ℚ) - borderProb b rs) /
            ((interiorSet b).card : ℚ)))))) := by
    simp only [cellProbsOf, hrs, borderProb]
    rw [if_pos hne, if_pos hne]
  refine ⟨rs, _, hrs, hcp, ?_, div_nonneg (le_max_left _ _) hcard.le⟩
  rw [dictUpdate_lookup,
    lookup_reverse_graph (fun _ => max 0 (((tm : ℚ) - (flaggedCount b : ℚ) -
      borderProb b rs) / ((interiorSet b).card : ℚ))) (listOf (interiorSet b)) p,
    if_pos ((mem_listOf _ _).mpr hp), max_zero_div _ _ hcard]
  rfl

theorem regionProbs_single (rc : List Constr) (hne : ¬cellsOf rc = ∅) (p : Coord) :
    (regionProbs [rc]).lookup p = (calculateProbabilities rc (cellsOf rc)).lookup p := by
  simp only [regionProbs, List.foldl_cons, List.foldl_nil]
  rw [if_neg hne]
  obtain ⟨f, hf⟩ := calculateProbabilities_shape rc (cellsOf rc)
  rw [hf, dictUpdate_lookup, lookup_reverse_graph f (listOf (cellsOf rc)) p,
    lookup_graph f (listOf (cellsOf rc)) p]
  by_cases hp : p ∈ listOf (cellsOf rc) <;> simp [hp, List.lookup]

/-- A 1-by-4 board: a revealed `2` whose only hidden neighbor is `(0,1)`;
    `(0,2)` and `(0,3)` are interior cells. -/
def exBoard6 : Board :=
  [[⟨false, true, false, 2⟩, ⟨false, false, false, 0⟩,
    ⟨false, false, false, 0⟩, ⟨false, false, false, 0⟩]]

/-- Counterexample to Claim C6 as stated: with 10 total mines on `exBoard6`,
    the interior cell `(0,2)` is assigned probability `19/4 > 1` — the quotient
    is clamped below at `0` but not above at `1`. -/
theorem c6_counterexample :
    (cellProbsOf 10 exBoard6).map (fun d => d.lookup ((0 : Int), (2 : Int))) =
      some (some ((19 : ℚ) / 4)) ∧ ¬((19 : ℚ) / 4 ≤ 1) := by
  have hrs : regionsOf exBoard6 =
      some [[(({((0 : Int), (1 : Int))} : Finset Coord), (2 : Int))]] := by decide
  have hne : interiorSet exBoard6 ≠ ∅ := by decide
  have hone : (regionProbs [[(({((0 : Int), (1 : Int))} : Finset Coord), (2 : Int))]]).lookup
      ((0 : Int), (1 : Int)) = some ((1 : ℚ) / 2) := by
    rw [regionProbs_single _ (by decide)]
    exact (calculateProbabilities_exact
      [(({((0 : Int), (1 : Int))} : Finset Coord), (2 : Int))]
      (cellsOf [(({((0 : Int), (1 : Int))} : Finset Coord), (2 : Int))])
      (by decide)).2 (by decide) ((0 : Int), (1 : Int)) (by decide)
  have hbp : borderProb exBoard6
      [[(({((0 : Int), (1 : Int))} : Finset Coord), (2 : Int))]] = (1 : ℚ) / 2 := by
    unfold borderProb
    rw [show borderSet exBoard6 = {((0 : Int), (1 : Int))} from by decide,
      Finset.sum_singleton]
    unfold lookupD
    rw [hone]
    rfl
  have hcp : cellProbsOf 10 exBoard6 =
      some (dictUpdate
        (regionProbs [[(({((0 : Int), (1 : Int))} : Finset Coord), (2 : Int))]])
        ((listOf (interiorSet exBoard6)).map (fun c => (c,
          max 0 ((((10 : Int) : ℚ) - (flaggedCount exBoard6 : ℚ) -
            borderProb exBoard6
              [[(({((0 : Int), (1 : Int))} : Finset Coord), (2 : Int))]]) /
            ((interiorSet exBoard6).card : ℚ)))))) := by
    simp only [cellProbsOf, hrs, borderProb]
    rw [if_pos hne, if_pos hne]
  have hv : max 0 ((((10 : Int) : ℚ) - (flaggedCount exBoard6 : ℚ) -
      borderProb exBoard6
        [[(({((0 : Int), (1 : Int))} : Finset Coord), (2 : Int))]]) /
      ((interiorSet exBoard6).card : ℚ)) = (19 : ℚ) / 4 := by
    rw [hbp, show flaggedCount exBoard6 = 0 from by decide,
      show (interiorSet exBoard6).card = 2 from by decide]
    norm_num
  rw [hv] at hcp
  constructor
  · rw [hcp]
    rw [show Option.map (fun d => d.lookup ((0 : Int), (2 : Int)))
        (some (dictUpdate
          (regionProbs [[(({((0 : Int), (1 : Int))} : Finset Coord), (2 : Int))]])
          ((listOf (interiorSet exBoard6)).map (fun c => (c, (19 : ℚ) / 4))))) =
        some ((dictUpdate
          (regionProbs [[(({((0 : Int), (1 : Int))} : Finset Coord), (2 : Int))]])
          ((listOf (interiorSet exBoard6)).map (fun c => (c, (19 : ℚ) / 4)))).lookup
            ((0 : Int), (2 : Int))) from rfl]
    rw [dictUpdate_lookup,
      lookup_reverse_graph (fun _ => (19 : ℚ) / 4) (listOf (interiorSet exBoard6))
        ((0 : Int), (2 : Int)),
      if_pos ((mem_listOf _ _).mpr (by decide))]
    rfl
  · norm_num

/-- Witness for the amended C6 at the interior cell `(0,2)` of `exBoard6`. -/
theorem c6_interior_probability_witness :
    ((0 : Int), (2 : Int)) ∈ interiorSet exBoard6 ∧
    (∃ rs d, regionsOf exBoard6 = some rs ∧ cellProbsOf 10 exBoard6 = some d ∧
      d.lookup ((0 : Int), (2 : Int)) =
        some (max 0 (((10 : Int) : ℚ) - (flaggedCount exBoard6 : ℚ) -
          borderProb exBoard6 rs) / ((interiorSet exBoard6).card : ℚ)) ∧
      0 ≤ max 0 (((10 : Int) : ℚ) - (flaggedCount exBoard6 : ℚ) -
        borderProb exBoard6 rs) / ((interiorSet exBoard6).card : ℚ)) :=
  ⟨by decide, c6_interior_probability exBoard6 10 ((0 : Int), (2 : Int)) (by decide)⟩

/-! ### Keys of the probability dictionary (`make_probabilistic_move` support) -/

theorem regionStep_fold_none (fuel : Nat) (cs : List Constr) :
    cs.foldl (regionStep fuel) none = none := by
  induction cs with
  | nil => rfl
  | cons c rest ih =>
    rw [List.foldl_cons]
    exact ih

theorem mem_dictAddCon (d : List (Coord × List Constr)) (k : Coord) (c : Constr)
    (e : Coord × List Constr) (he : e ∈ dictAddCon d k c) :
    (∃ e0 ∈ d, e.2 = e0.2 ∨ e.2 = e0.2 ++ [c]) ∨ e = (k, [c]) := by
  unfold dictAddCon at he
  by_cases hany : d.any (fun e0 => e0.1 = k) = true
  · rw [if_pos hany] at he
    obtain ⟨e0, he0, heq⟩ := List.mem_map.mp he
    by_cases h0 : e0.1 = k
    · left
      refine ⟨e0, he0, Or.inr ?_⟩
      rw [← heq]
      simp [h0]
    · left
      refine ⟨e0, he0, Or.inl ?_⟩
      rw [← heq]
      simp [h0]
  · rw [if_neg hany] at he
    rcases List.mem_append.mp he with h | h
    · exact Or.inl ⟨e, h, Or.inl rfl⟩
    · right
      simpa using h

theorem regionStep_fold_subset (fuel : Nat) (cs : List Constr) :
    ∀ (init : List (Coord × List Constr) × UF) (du : List (Coord × List Constr) × UF),
      cs.foldl (regionStep fuel) (some init) = some du →
      ∀ e ∈ du.1, ∀ c2 ∈ e.2, (∃ e0 ∈ init.1, c2 ∈ e0.2) ∨ c2 ∈ cs := by
  induction cs with
  | nil =>
    intro init du h e he c2 hc2
    rw [List.foldl_nil] at h
    injection h with h
    subst h
    exact Or.inl ⟨e, he, hc2⟩
  | cons c rest ih =>
    intro init du h e he c2 hc2
    rw [List.foldl_cons] at h
    cases hl : listOf c.1 with
    | nil =>
      rw [show regionStep fuel (some init) c = none by simp [regionStep, hl]] at h
      rw [regionStep_fold_none] at h
      exact absurd h (by simp)
    | cons y ys =>
      rw [show regionStep fuel (some init) c =
          some (dictAddCon init.1 (ufFind fuel init.2 y).1 c,
            (ufFind fuel init.2 y).2) by simp [regionStep, hl]] at h
      rcases ih _ du h e he c2 hc2 with ⟨e0, he0, hc20⟩ | hmem
      · rcases mem_dictAddCon _ _ _ _ he0 with ⟨e1, he1, heq⟩ | heq
        · rcases heq with heq | heq
          · exact Or.inl ⟨e1, he1, heq ▸ hc20⟩
          · rw [heq] at hc20
            rcases List.mem_append.mp hc20 with h1 | h1
            · exact Or.inl ⟨e1, he1, h1⟩
            · simp only [List.mem_singleton] at h1
              subst h1
              exact Or.inr (List.mem_cons_self _ _)
        · rw [heq] at hc20
          simp only [List.mem_singleton] at hc20
          subst hc20
          exact Or.inr (List.mem_cons_self _ _)
      · exact Or.inr (List.mem_cons_of_mem _ hmem)

theorem findIndependentRegions_subset (cs : List Constr) (gs : List (List Constr))
    (h : findIndependentRegions cs = some gs) :
    ∀ g ∈ gs, ∀ c ∈ g, c ∈ cs := by
  by_cases h0 : cs = []
  · subst h0
    rw [show findIndependentRegions [] = some [] from rfl] at h
    injection h with h
    subst h
    intro g hg
    exact absurd hg (List.not_mem_nil g)
  · simp only [findIndependentRegions, h0, if_false] at h
    cases hfold : cs.foldl (regionStep ((cellsOf cs).card + 2))
        (some ([], (ufGroups ((cellsOf cs).card + 2)
          (ufUnionAll ((cellsOf cs).card + 2) cs (ufAddAll cs))).2)) with
    | none =>
      rw [hfold] at h
      exact absurd h (by simp)
    | some du =>
      rw [hfold] at h
      simp only [Option.some.injEq] at h
      subst h
      intro g hg c hc
      obtain ⟨e, he, heq⟩ := List.mem_map.mp hg
      subst heq
      rcases regionStep_fold_subset ((cellsOf cs).card + 2) cs _ du hfold e he c hc with
        ⟨e0, he0, _⟩ | hmem
      · exact absurd he0 (List.not_mem_nil e0)
      · exact hmem

theorem mem_dictUpdate_single_keys (d : List (Coord × ℚ)) (u : Coord × ℚ) (x : Coord)
    (hx : x ∈ (dictUpdate d [u]).map Prod.fst) :
    x ∈ d.map Prod.fst ∨ x = u.1 := by
  obtain ⟨k, v⟩ := u
  have hdef : dictUpdate d [(k, v)] = if d.any (fun q => q.1 = k) then
      d.map (fun q => if q.1 = k then (k, v) else q) else d ++ [(k, v)] := rfl
  rw [hdef] at hx
  by_cases hany : d.any (fun q => q.1 = k) = true
  · rw [if_pos hany] at hx
    rw [List.map_map] at hx
    obtain ⟨e0, he0, heq⟩ := List.mem_map.mp hx
    by_cases h0 : e0.1 = k
    · right
      rw [← heq]
      simp [h0]
    · left
      have : ((fun q => if q.1 = k then ((k, v) : Coord × ℚ) else q) e0).1 = e0.1 := by
        simp [h0]
      rw [Function.comp_apply, this] at heq
      rw [← heq]
      exact List.mem_map_of_mem _ he0
  · rw [if_neg hany] at hx
    rw [List.map_append] at hx
    rcases List.mem_append.mp hx with h | h
    · exact Or.inl h
    · right
      simpa using h

theorem dictUpdate_keys_sub (d upd : List (Coord × ℚ)) (x : Coord)
    (hx : x ∈ (dictUpdate d upd).map Prod.fst) :
    x ∈ d.map Prod.fst ∨ x ∈ upd.map Prod.fst := by
  induction upd generalizing d with
  | nil => exact Or.inl hx
  | cons u us ih =>
    rw [dictUpdate_cons] at hx
    rcases ih _ hx with h | h
    · rcases mem_dictUpdate_single_keys d u x h with h1 | h1
      · exact Or.inl h1
      · right
        simp [h1]
    · right
      rw [List.map_cons]
      exact List.mem_cons_of_mem _ h

theorem calculateProbabilities_keys (cs : List Constr) (cells : Finset Coord) (x : Coord)
    (hx : x ∈ (calculateProbabilities cs cells).map Prod.fst) : x ∈ cells := by
  obtain ⟨f, hf⟩ := calculateProbabilities_shape cs cells
  rw [hf, List.map_map] at hx
  obtain ⟨c, hc, heq⟩ := List.mem_map.mp hx
  have hcx : c = x := by simpa using heq
  subst hcx
  exact (mem_listOf _ _).mp hc

theorem regionProbs_fold_keys (regions : List (List Constr)) (x : Coord) :
    ∀ d0 : List (Coord × ℚ),
      x ∈ (regions.foldl (fun d rc =>
        if cellsOf rc = ∅ then d
        else dictUpdate d (calculateProbabilities rc (cellsOf rc))) d0).map Prod.fst →
      x ∈ d0.map Prod.fst ∨ ∃ rc ∈ regions, x ∈ cellsOf rc := by
  induction regions with
  | nil => exact fun d0 h => Or.inl h
  | cons r rs ih =>
    intro d0 h
    rw [List.foldl_cons] at h
    rcases ih (if cellsOf r = ∅ then d0
        else dictUpdate d0 (calculateProbabilities r (cellsOf r))) h with h1 | h1
    · by_cases hr : cellsOf r = ∅
      · rw [if_pos hr] at h1
        exact Or.inl h1
      · rw [if_neg hr] at h1
        rcases dictUpdate_keys_sub _ _ x h1 with h2 | h2
        · exact Or.inl h2
        · exact Or.inr ⟨r, List.mem_cons_self _ _,
            calculateProbabilities_keys r (cellsOf r) x h2⟩
    · obtain ⟨rc, hrc, hcell⟩ := h1
      exact Or.inr ⟨rc, List.mem_cons_of_mem _ hrc, hcell⟩

theorem regionProbs_keys (regions : List (List Constr)) (x : Coord)
    (hx : x ∈ (regionProbs regions).map Prod.fst) :
    ∃ rc ∈ regions, x ∈ cellsOf rc := by
  rcases regionProbs_fold_keys regions x [] hx with h1 | h1
  · exact absurd h1 (by simp)
  · exact h1

theorem cellProbsOf_keys (tm : Int) (b : Board) (d : List (Coord × ℚ))
    (h : cellProbsOf tm b = some d) (x : Coord) (hx : x ∈ d.map Prod.fst) :
    x ∈ unrevealedSet b := by
  cases hrs : regionsOf b with
  | none =>
    rw [cellProbsOf, hrs] at h
    exact absurd h (by simp)
  | some rs =>
    have hregion : x ∈ (regionProbs rs).map Prod.fst → x ∈ unrevealedSet b := by
      intro h1
      obtain ⟨rc, hrc, hcell⟩ := regionProbs_keys rs x h1
      have hsub : ∀ c ∈ rc, c ∈ generateConstraints b (numRows b) (numCols b) ∅ ∅ :=
        findIndependentRegions_subset _ rs hrs rc hrc
      have hb : x ∈ borderSet b := by
        rw [mem_cellsOf] at hcell
        obtain ⟨c, hc, hxc⟩ := hcell
        unfold borderSet
        rw [mem_cellsOf]
        exact ⟨c, hsub c hc, hxc⟩
      exact borderSet_subset_unrevealed b hb
    simp only [cellProbsOf, hrs] at h
    by_cases hi : interiorSet b ≠ ∅
    · rw [if_pos hi] at h
      injection h with h
      subst h
      rcases dictUpdate_keys_sub _ _ x hx with h1 | h1
      · exact hregion h1
      · rw [List.map_map] at h1
        obtain ⟨c, hc, heq⟩ := List.mem_map.mp h1
        have hcx : c = x := by simpa using heq
        subst hcx
        have : c ∈ interiorSet b := (mem_listOf _ _).mp hc
        exact (Finset.mem_sdiff.mp this).1
    · rw [if_neg hi] at h
      injection h with h
      subst h
      exact hregion hx

theorem selectMin_mem (d : List (Coord × ℚ)) (q : Coord)
    (h : selectMin d = some q) : q ∈ d.map Prod.fst := by
  cases d with
  | nil => exact absurd h (by simp [selectMin])
  | cons e rest =>
    simp only [selectMin, Option.some.injEq] at h
    subst h
    have hmem : (rest.foldl (fun best e2 => if e2.2 < best.2 then e2 else best) e) ∈
        e :: rest := by
      apply foldl_inv (P := fun best => best ∈ e :: rest)
      · intro a x hx ha
        by_cases hlt : x.2 < a.2
        · rw [if_pos hlt]
          exact List.mem_cons_of_mem _ hx
        · rw [if_neg hlt]
          exact ha
      · exact List.mem_cons_self _ _
    exact List.mem_map_of_mem _ hmem

/-- **C7** (amended): with `pick` modelling `random.choice`,
    `make_probabilistic_move` returns `some` cell; when the board has at least
    one unrevealed-unflagged cell the result is such a cell; when no
    unrevealed-unflagged cell remains it returns the fixed coordinate `(0,0)`
    (which need not be unresolved — this corrects the original claim); and with
    no constraints it returns `pick` of the unrevealed-cell list. -/
theorem c7_best_guess (b : Board) (tm : Int) (pick : List Coord → Coord)
    (hpick : ∀ l, l ≠ [] → pick l ∈ l) :
    (unrevealedSet b ≠ ∅ →
      ∃ p, makeProbMove tm b pick = some p ∧ p ∈ unrevealedSet b) ∧
    (unrevealedSet b = ∅ → makeProbMove tm b pick = some ((0 : Int), (0 : Int))) ∧
    (unrevealedSet b ≠ ∅ →
      generateConstraints b (numRows b) (numCols b) ∅ ∅ = [] →
      makeProbMove tm b pick = some (pick (listOf (unrevealedSet b)))) := by
  have hpickU : unrevealedSet b ≠ ∅ → pick (listOf (unrevealedSet b)) ∈ unrevealedSet b := by
    intro hne
    have hl : listOf (unrevealedSet b) ≠ [] := by
      rw [ne_eq, listOf_eq_nil]
      exact hne
    exact (mem_listOf _ _).mp (hpick _ hl)
  refine ⟨?_, ?_, ?_⟩
  · intro hne
    by_cases hcs : generateConstraints b (numRows b) (numCols b) ∅ ∅ = []
    · have hmv : makeProbMove tm b pick = some (pick (listOf (unrevealedSet b))) := by
        simp only [makeProbMove]
        rw [if_neg hne, if_pos hcs]
      exact ⟨_, hmv, hpickU hne⟩
    · obtain ⟨rs, hrs⟩ := regionsOf_some b
      obtain ⟨d, hd⟩ : ∃ d, cellProbsOf tm b = some d := by
        simp only [cellProbsOf, hrs]
        exact ⟨_, rfl⟩
      have hmv : makeProbMove tm b pick =
          (if d ≠ [] then selectMin d else some (pick (listOf (unrevealedSet b)))) := by
        simp only [makeProbMove, hd]
        rw [if_neg hne, if_neg hcs]
      by_cases hdeq : d = []
      · rw [hmv, if_neg (fun hcon => hcon hdeq)]
        exact ⟨_, rfl, hpickU hne⟩
      · rw [hmv, if_pos hdeq]
        cases hsel : selectMin d with
        | none =>
          cases d with
          | nil => exact absurd rfl hdeq
          | cons e rest => exact absurd hsel (by simp [selectMin])
        | some q =>
          exact ⟨q, rfl, cellProbsOf_keys tm b d hd q (selectMin_mem d q hsel)⟩
  · intro hne
    simp only [makeProbMove]
    rw [if_pos hne]
  · intro hne hcs
    simp only [makeProbMove]
    rw [if_neg hne, if_pos hcs]

/-- Counterexample to Claim C7 as stated: on a fully revealed 1-by-1 board the
    fallback returns the fixed coordinate `(0,0)`, which is a revealed cell,
    not an unresolved one. -/
theorem c7_counterexample :
    makeProbMove 0 [[⟨false, true, false, 0⟩]]
        (fun l => l.headD ((0 : Int), (0 : Int))) = some ((0 : Int), (0 : Int)) ∧
    (getCell [[⟨false, true, false, 0⟩]] 0 0).is_revealed = true := by
  constructor
  · have hne : unrevealedSet [[⟨false, true, false, 0⟩]] = ∅ := by decide
    simp only [makeProbMove]
    rw [if_pos hne]
  · decide

/-- Witness for the amended C7 on `exBoard6` with a head-picking selector. -/
theorem c7_best_guess_witness :
    (unrevealedSet exBoard6 ≠ ∅ →
      ∃ p, makeProbMove 0 exBoard6 (fun l => l.headD ((0 : Int), (0 : Int))) = some p ∧
        p ∈ unrevealedSet exBoard6) ∧
    (unrevealedSet exBoard6 = ∅ →
      makeProbMove 0 exBoard6 (fun l => l.headD ((0 : Int), (0 : Int))) =
        some ((0 : Int), (0 : Int))) ∧
    (unrevealedSet exBoard6 ≠ ∅ →
      generateConstraints exBoard6 (numRows exBoard6) (numCols exBoard6) ∅ ∅ = [] →
      makeProbMove 0 exBoard6 (fun l => l.headD ((0 : Int), (0 : Int))) =
        some ((fun l => l.headD ((0 : Int), (0 : Int))) (listOf (unrevealedSet exBoard6)))) :=
  c7_best_guess exBoard6 0 (fun l => l.headD ((0 : Int), (0 : Int)))
    (fun l hl => by
      cases l with
      | nil => exact absurd rfl hl
      | cons a t => exact List.mem_cons_self a t)

/-! ### Union-find verification (`_find_independent_regions` internals) -/

/-- `x` is a union-find root. -/
def ufIsRoot (uf : UF) (x : Coord) : Prop := uf.parent x = x

/-- `r` is the root above `x`: some iterate of `parent` maps `x` to `r`. -/
def ufReaches (uf : UF) (x r : Coord) : Prop :=
  ∃ k, uf.parent^[k] x = r ∧ ufIsRoot uf r

/-- `a` and `b` lie in the same union-find class. -/
def ufER (uf : UF) (a b : Coord) : Prop :=
  ∃ r, ufReaches uf a r ∧ ufReaches uf b r

/-- Structural invariant: a non-root edge stays inside the domain and strictly
    increases the rank, and the rank is `0` off the domain. -/
def ufInv (uf : UF) : Prop :=
  (∀ x, uf.parent x ≠ x → x ∈ uf.domain ∧ uf.parent x ∈ uf.domain ∧
    uf.rank x < uf.rank (uf.parent x)) ∧
  (∀ x, x ∉ uf.domain → uf.rank x = 0)

theorem ufIsRoot_iterate {uf : UF} {r : Coord} (h : ufIsRoot uf r) (n : Nat) :
    uf.parent^[n] r = r := by
  induction n with
  | zero => rfl
  | succ n ih =>
    rw [Function.iterate_succ_apply, show uf.parent r = r from h, ih]

theorem ufReaches_unique {uf : UF} {x r1 r2 : Coord}
    (h1 : ufReaches uf x r1) (h2 : ufReaches uf x r2) : r1 = r2 := by
  obtain ⟨k1, hk1, hr1⟩ := h1
  obtain ⟨k2, hk2, hr2⟩ := h2
  rcases le_total k1 k2 with h | h
  · have heq : uf.parent^[k2] x = uf.parent^[k2 - k1] (uf.parent^[k1] x) := by
      rw [← Function.iterate_add_apply]
      congr 1
      omega
    rw [hk1, ufIsRoot_iterate hr1] at heq
    rw [hk2] at heq
    exact heq.symm
  · have heq : uf.parent^[k1] x = uf.parent^[k1 - k2] (uf.parent^[k2] x) := by
      rw [← Function.iterate_add_apply]
      congr 1
      omega
    rw [hk2, ufIsRoot_iterate hr2] at heq
    rw [hk1] at heq
    exact heq

theorem ufChain_mem {uf : UF} (hInv : ufInv uf) {y : Coord} (hy : y ∈ uf.domain) :
    ∀ n, uf.parent^[n] y ∈ uf.domain := by
  intro n
  induction n with
  | zero => exact hy
  | succ n ih =>
    rw [Function.iterate_succ_apply']
    by_cases h : uf.parent (uf.parent^[n] y) = uf.parent^[n] y
    · rw [h]
      exact ih
    · exact (hInv.1 _ h).2.1

theorem ufRank_le_iterate {uf : UF} (hInv : ufInv uf) (y : Coord) :
    ∀ n, uf.rank y ≤ uf.rank (uf.parent^[n] y) := by
  intro n
  induction n with
  | zero => exact le_refl _
  | succ n ih =>
    rw [Function.iterate_succ_apply']
    by_cases h : uf.parent (uf.parent^[n] y) = uf.parent^[n] y
    · rw [h]
      exact ih
    · exact ih.trans (hInv.1 _ h).2.2.le

theorem ufReach_root {uf : UF} (hInv : ufInv uf) (x : Coord) :
    ∃ k ≤ uf.domain.card, ufIsRoot uf (uf.parent^[k] x) := by
  suffices h : ∀ n, ∀ x : Coord,
      (uf.domain.filter (fun y => uf.rank x < uf.rank y)).card ≤ n →
      ∃ k ≤ n, ufIsRoot uf (uf.parent^[k] x) by
    exact h uf.domain.card x (Finset.card_le_card (Finset.filter_subset _ _))
  intro n
  induction n with
  | zero =>
    intro x hx
    by_cases h : uf.parent x = x
    · exact ⟨0, le_refl 0, h⟩
    · exfalso
      have hmem : uf.parent x ∈ uf.domain.filter (fun y => uf.rank x < uf.rank y) := by
        rw [Finset.mem_filter]
        exact ⟨(hInv.1 x h).2.1, (hInv.1 x h).2.2⟩
      have hpos := Finset.card_pos.mpr ⟨_, hmem⟩
      omega
  | succ n ih =>
    intro x hx
    by_cases h : uf.parent x = x
    · exact ⟨0, Nat.zero_le _, h⟩
    · have hsub : (uf.domain.filter (fun y => uf.rank (uf.parent x) < uf.rank y)) ⊆
          (uf.domain.filter (fun y => uf.rank x < uf.rank y)) := by
        intro z hz
        rw [Finset.mem_filter] at hz ⊢
        exact ⟨hz.1, (hInv.1 x h).2.2.trans hz.2⟩
      have hlt : (uf.domain.filter (fun y => uf.rank (uf.parent x) < uf.rank y)).card <
          (uf.domain.filter (fun y => uf.rank x < uf.rank y)).card := by
        apply Finset.card_lt_card
        rw [Finset.ssubset_iff_of_subset hsub]
        refine ⟨uf.parent x, ?_, ?_⟩
        · rw [Finset.mem_filter]
          exact ⟨(hInv.1 x h).2.1, (hInv.1 x h).2.2⟩
        · rw [Finset.mem_filter]
          push_neg
          intro _
          exact le_refl _
      obtain ⟨k, hk, hr⟩ := ih (uf.parent x) (by omega)
      refine ⟨k + 1, by omega, ?_⟩
      rw [Function.iterate_succ_apply]
      exact hr

theorem ufReaches_total {uf : UF} (hInv : ufInv uf) (x : Coord) :
    ∃ r, ufReaches uf x r := by
  obtain ⟨k, _, hr⟩ := ufReach_root hInv x
  exact ⟨_, k, rfl, hr⟩

theorem ufER_refl {uf : UF} (hInv : ufInv uf) (a : Coord) : ufER uf a a := by
  obtain ⟨r, hr⟩ := ufReaches_total hInv a
  exact ⟨r, hr, hr⟩

theorem ufER_symm {uf : UF} {a b : Coord} (h : ufER uf a b) : ufER uf b a := by
  obtain ⟨r, h1, h2⟩ := h
  exact ⟨r, h2, h1⟩

theorem ufER_trans {uf : UF} {a b c : Coord} (h1 : ufER uf a b) (h2 : ufER uf b c) :
    ufER uf a c := by
  obtain ⟨r1, ha, hb1⟩ := h1
  obtain ⟨r2, hb2, hc⟩ := h2
  rw [ufReaches_unique hb1 hb2] at ha
  exact ⟨r2, ha, hc⟩

theorem ufInv_mono {p : Coord → Coord} {rk : Coord → Nat} {D D' : Finset Coord}
    (hD : D ⊆ D') (h : ufInv ⟨p, rk, D⟩) : ufInv ⟨p, rk, D'⟩ := by
  constructor
  · intro z hz
    obtain ⟨h1, h2, h3⟩ := h.1 z hz
    exact ⟨hD h1, hD h2, h3⟩
  · intro z hz
    exact h.2 z (fun hc => hz (hD hc))

theorem ufAdd_spec (uf : UF) (x : Coord) (hInv : ufInv uf) :
    ufInv (ufAdd uf x) ∧ (ufAdd uf x).parent = uf.parent ∧
      (ufAdd uf x).rank = uf.rank ∧ (ufAdd uf x).domain = insert x uf.domain := by
  unfold ufAdd
  by_cases hx : x ∈ uf.domain
  · rw [if_pos hx]
    exact ⟨hInv, rfl, rfl, (Finset.insert_eq_self.mpr hx).symm⟩
  · rw [if_neg hx]
    have hpx : uf.parent x = x := by
      by_contra h
      exact hx (hInv.1 x h).1
    have hrx : uf.rank x = 0 := hInv.2 x hx
    have hparent : Function.update uf.parent x x = uf.parent := by
      funext z
      by_cases hzx : z = x
      · subst hzx
        rw [Function.update_same, hpx]
      · rw [Function.update_noteq hzx]
    have hrank : Function.update uf.rank x 0 = uf.rank := by
      funext z
      by_cases hzx : z = x
      · subst hzx
        rw [Function.update_same, hrx]
      · rw [Function.update_noteq hzx]
    refine ⟨?_, hparent, hrank, rfl⟩
    rw [hparent, hrank]
    exact ufInv_mono (Finset.subset_insert x _) hInv

theorem ufIsRoot_update {uf : UF} {x r : Coord} (hxne : uf.parent x ≠ x)
    {s : Coord} (hs : ufIsRoot uf s) :
    ufIsRoot { uf with parent := Function.update uf.parent x r } s := by
  have hsx : s ≠ x := by
    intro h
    subst h
    exact hxne hs
  show Function.update uf.parent x r s = s
  rw [Function.update_noteq hsx]
  exact hs

theorem ufReaches_update {uf : UF} {x r : Coord}
    (hxr : ufReaches uf x r) (hxne : uf.parent x ≠ x) :
    ∀ {y s}, ufReaches uf y s →
      ufReaches { uf with parent := Function.update uf.parent x r } y s := by
  obtain ⟨kr, hkr, hrroot⟩ := hxr
  have key : ∀ k y s, uf.parent^[k] y = s → ufIsRoot uf s →
      ufReaches { uf with parent := Function.update uf.parent x r } y s := by
    intro k
    induction k with
    | zero =>
      intro y s hk hs
      rw [show uf.parent^[0] y = y from rfl] at hk
      subst hk
      exact ⟨0, rfl, ufIsRoot_update hxne hs⟩
    | succ k ih =>
      intro y s hk hs
      by_cases hyx : y = x
      · subst hyx
        have hsr : s = r := ufReaches_unique ⟨k + 1, hk, hs⟩ ⟨kr, hkr, hrroot⟩
        subst hsr
        refine ⟨1, ?_, ufIsRoot_update hxne hrroot⟩
        simp [Function.update_same]
      · rw [Function.iterate_succ_apply] at hk
        obtain ⟨k2, hk2, hs2⟩ := ih (uf.parent y) s hk hs
        refine ⟨k2 + 1, ?_, hs2⟩
        rw [Function.iterate_succ_apply]
        rw [show ({ uf with parent := Function.update uf.parent x r } : UF).parent y =
          uf.parent y from Function.update_noteq hyx r uf.parent]
        exact hk2
  intro y s hys
  obtain ⟨k, hk, hs⟩ := hys
  exact key k y s hk hs

theorem ufCompress_inv {uf : UF} {x r : Coord} (hInv : ufInv uf)
    (hxr : ufReaches uf x r) (hxne : uf.parent x ≠ x) :
    ufInv { uf with parent := Function.update uf.parent x r } := by
  obtain ⟨k, hk, hroot⟩ := hxr
  have hxd := (hInv.1 x hxne).1
  have hk0 : k ≠ 0 := by
    intro h
    subst h
    rw [show uf.parent^[0] x = x from rfl] at hk
    subst hk
    exact hxne hroot
  obtain ⟨k0, rfl⟩ := Nat.exists_eq_succ_of_ne_zero hk0
  rw [Function.iterate_succ_apply] at hk
  have hrd : r ∈ uf.domain := by
    rw [← hk]
    exact ufChain_mem hInv (hInv.1 x hxne).2.1 k0
  have hrankr : uf.rank x < uf.rank r := by
    have h1 := (hInv.1 x hxne).2.2
    have h2 := ufRank_le_iterate hInv (uf.parent x) k0
    rw [hk] at h2
    omega
  constructor
  · intro z hz
    by_cases hzx : z = x
    · subst hzx
      show z ∈ uf.domain ∧ Function.update uf.parent z r z ∈ uf.domain ∧
        uf.rank z < uf.rank (Function.update uf.parent z r z)
      rw [Function.update_same]
      exact ⟨hxd, hrd, hrankr⟩
    · have hpz : Function.update uf.parent x r z = uf.parent z :=
        Function.update_noteq hzx r uf.parent
      rw [show ({ uf with parent := Function.update uf.parent x r } : UF).parent z =
        Function.update uf.parent x r z from rfl, hpz] at hz
      obtain ⟨h1, h2, h3⟩ := hInv.1 z hz
      show z ∈ uf.domain ∧ Function.update uf.parent x r z ∈ uf.domain ∧
        uf.rank z < uf.rank (Function.update uf.parent x r z)
      rw [hpz]
      exact ⟨h1, h2, h3⟩
  · exact hInv.2

theorem ufIsRoot_congr {u1 u2 : UF} (h : u1.parent = u2.parent) {s : Coord}
    (hs : ufIsRoot u1 s) : ufIsRoot u2 s := by
  show u2.parent s = s
  rw [← h]
  exact hs

theorem ufReaches_congr {u1 u2 : UF} (h : u1.parent = u2.parent) {y s : Coord}
    (hs : ufReaches u1 y s) : ufReaches u2 y s := by
  obtain ⟨k, hk, hr⟩ := hs
  refine ⟨k, ?_, ufIsRoot_congr h hr⟩
  rw [← h]
  exact hk

theorem ufReaches_step {uf : UF} {y s : Coord} (h : ufReaches uf (uf.parent y) s) :
    ufReaches uf y s := by
  obtain ⟨k, hk, hr⟩ := h
  refine ⟨k + 1, ?_, hr⟩
  rw [Function.iterate_succ_apply]
  exact hk

theorem ufLink_spec (uf : UF) (rA rB : Coord) (rk : Coord → Nat)
    (hA : ufIsRoot uf rA) (hB : ufIsRoot uf rB) (hne : rA ≠ rB)
    (hdomA : rA ∈ uf.domain) (hdomB : rB ∈ uf.domain)
    (hstrict : ∀ z, uf.parent z ≠ z → z ∈ uf.domain ∧ uf.parent z ∈ uf.domain ∧
      rk z < rk (uf.parent z))
    (hedge : rk rA < rk rB)
    (hzero : ∀ z, z ∉ uf.domain → rk z = 0) :
    ufInv ⟨Function.update uf.parent rA rB, rk, uf.domain⟩ ∧
    (∀ y s, ufReaches uf y s →
      ufReaches ⟨Function.update uf.parent rA rB, rk, uf.domain⟩ y
        (if s = rA then rB else s)) := by
  have hrootB : ufIsRoot ⟨Function.update uf.parent rA rB, rk, uf.domain⟩ rB := by
    show Function.update uf.parent rA rB rB = rB
    rw [Function.update_noteq (fun h => hne h.symm)]
    exact hB
  have hrootOther : ∀ s, ufIsRoot uf s → s ≠ rA →
      ufIsRoot ⟨Function.update uf.parent rA rB, rk, uf.domain⟩ s := by
    intro s hs hsA
    show Function.update uf.parent rA rB s = s
    rw [Function.update_noteq hsA]
    exact hs
  constructor
  · constructor
    · intro z hz
      by_cases hzA : z = rA
      · subst hzA
        show z ∈ uf.domain ∧ Function.update uf.parent z rB z ∈ uf.domain ∧
          rk z < rk (Function.update uf.parent z rB z)
        rw [Function.update_same]
        exact ⟨hdomA, hdomB, hedge⟩
      · have hpz : Function.update uf.parent rA rB z = uf.parent z :=
          Function.update_noteq hzA rB uf.parent
        rw [show (⟨Function.update uf.parent rA rB, rk, uf.domain⟩ : UF).parent z =
          Function.update uf.parent rA rB z from rfl, hpz] at hz
        obtain ⟨h1, h2, h3⟩ := hstrict z hz
        show z ∈ uf.domain ∧ Function.update uf.parent rA rB z ∈ uf.domain ∧
          rk z < rk (Function.update uf.parent rA rB z)
        rw [hpz]
        exact ⟨h1, h2, h3⟩
    · exact hzero
  · have key : ∀ k y s, uf.parent^[k] y = s → ufIsRoot uf s →
        ufReaches ⟨Function.update uf.parent rA rB, rk, uf.domain⟩ y
          (if s = rA then rB else s) := by
      intro k
      induction k with
      | zero =>
        intro y s hk hs
        rw [show uf.parent^[0] y = y from rfl] at hk
        subst hk
        by_cases hsA : y = rA
        · rw [if_pos hsA, hsA]
          refine ⟨1, ?_, hrootB⟩
          simp [Function.update_same]
        · rw [if_neg hsA]
          exact ⟨0, rfl, hrootOther y hs hsA⟩
      | succ k ih =>
        intro y s hk hs
        by_cases hyA : y = rA
        · have hsA : s = rA := by
            rw [hyA] at hk
            rw [ufIsRoot_iterate hA (k + 1)] at hk
            exact hk.symm
          rw [if_pos hsA, hyA]
          refine ⟨1, ?_, hrootB⟩
          simp [Function.update_same]
        · rw [Function.iterate_succ_apply] at hk
          obtain ⟨k2, hk2, hs2⟩ := ih (uf.parent y) s hk hs
          refine ⟨k2 + 1, ?_, hs2⟩
          rw [Function.iterate_succ_apply]
          rw [show (⟨Function.update uf.parent rA rB, rk, uf.domain⟩ : UF).parent y =
            uf.parent y from Function.update_noteq hyA rB uf.parent]
          exact hk2
    intro y s hys
    obtain ⟨k, hk, hs⟩ := hys
    exact key k y s hk hs

theorem ufFind_spec (fuel : Nat) : ∀ (uf : UF) (x : Coord), ufInv uf →
    (∃ k, k < fuel ∧ ufIsRoot uf (uf.parent^[k] x)) →
    ufInv (ufFind fuel uf x).2 ∧
    (ufFind fuel uf x).2.domain = insert x uf.domain ∧
    (ufFind fuel uf x).2.rank = uf.rank ∧
    ufReaches uf x (ufFind fuel uf x).1 ∧
    (∀ y s, ufReaches uf y s → ufReaches (ufFind fuel uf x).2 y s) := by
  induction fuel with
  | zero =>
    intro uf x hInv hk
    obtain ⟨k, hk1, _⟩ := hk
    omega
  | succ fuel ih =>
    intro uf x hInv hk
    obtain ⟨haddInv, haddP, haddR, haddD⟩ := ufAdd_spec uf x hInv
    simp only [ufFind]
    by_cases hroot : (ufAdd uf x).parent x = x
    · rw [if_pos hroot]
      have hrootUf : uf.parent x = x := by
        rw [← haddP]
        exact hroot
      refine ⟨haddInv, haddD, haddR, ⟨0, rfl, hrootUf⟩, ?_⟩
      intro y s hys
      exact ufReaches_congr haddP.symm hys
    · rw [if_neg hroot]
      have hroot2 : uf.parent x ≠ x := by
        rw [← haddP]
        exact hroot
      obtain ⟨k, hkf, hkroot⟩ := hk
      have hk0 : k ≠ 0 := by
        intro h
        subst h
        exact hroot2 hkroot
      obtain ⟨k0, rfl⟩ := Nat.exists_eq_succ_of_ne_zero hk0
      rw [Function.iterate_succ_apply] at hkroot
      have hkroot2 : ufIsRoot (ufAdd uf x)
          ((ufAdd uf x).parent^[k0] ((ufAdd uf x).parent x)) := by
        rw [haddP]
        exact ufIsRoot_congr haddP.symm hkroot
      obtain ⟨hrInv, hrD, hrR, hrReach, hrPres⟩ :=
        ih (ufAdd uf x) ((ufAdd uf x).parent x) haddInv ⟨k0, by omega, hkroot2⟩
      have hreachA : ufReaches (ufAdd uf x) x
          (ufFind fuel (ufAdd uf x) ((ufAdd uf x).parent x)).1 :=
        ufReaches_step hrReach
      have hreachUf : ufReaches uf x
          (ufFind fuel (ufAdd uf x) ((ufAdd uf x).parent x)).1 :=
        ufReaches_congr haddP hreachA
      have hreachRes : ufReaches (ufFind fuel (ufAdd uf x) ((ufAdd uf x).parent x)).2 x
          (ufFind fuel (ufAdd uf x) ((ufAdd uf x).parent x)).1 :=
        hrPres x _ hreachA
      have hpresUf : ∀ y s, ufReaches uf y s →
          ufReaches (ufFind fuel (ufAdd uf x) ((ufAdd uf x).parent x)).2 y s := by
        intro y s hys
        exact hrPres y s (ufReaches_congr haddP.symm hys)
      have hDomRes : (ufFind fuel (ufAdd uf x) ((ufAdd uf x).parent x)).2.domain =
          insert x uf.domain := by
        rw [hrD, haddD, haddP]
        exact Finset.insert_eq_self.mpr
          (Finset.mem_insert_of_mem (hInv.1 x hroot2).2.1)
      have hRankRes : (ufFind fuel (ufAdd uf x) ((ufAdd uf x).parent x)).2.rank =
          uf.rank := hrR.trans haddR
      by_cases hfx : (ufFind fuel (ufAdd uf x) ((ufAdd uf x).parent x)).2.parent x = x
      · have hres1 : (ufFind fuel (ufAdd uf x) ((ufAdd uf x).parent x)).1 = x :=
          ufReaches_unique hreachRes ⟨0, rfl, hfx⟩
        have hupd : Function.update
            (ufFind fuel (ufAdd uf x) ((ufAdd uf x).parent x)).2.parent x
            (ufFind fuel (ufAdd uf x) ((ufAdd uf x).parent x)).1 =
            (ufFind fuel (ufAdd uf x) ((ufAdd uf x).parent x)).2.parent := by
          funext z
          by_cases hz : z = x
          · subst hz
            rw [Function.update_same, hres1, hfx]
          · rw [Function.update_noteq hz]
        refine ⟨?_, hDomRes, hRankRes, hreachUf, ?_⟩
        · show ufInv { (ufFind fuel (ufAdd uf x) ((ufAdd uf x).parent x)).2 with
            parent := Function.update
              (ufFind fuel (ufAdd uf x) ((ufAdd uf x).parent x)).2.parent x
              (ufFind fuel (ufAdd uf x) ((ufAdd uf x).parent x)).1 }
          rw [hupd]
          exact hrInv
        · intro y s hys
          refine ufReaches_congr ?_ (hpresUf y s hys)
          show (ufFind fuel (ufAdd uf x) ((ufAdd uf x).parent x)).2.parent = _
          rw [hupd]
      · refine ⟨ufCompress_inv hrInv hreachRes hfx, hDomRes, hRankRes, hreachUf, ?_⟩
        intro y s hys
        exact ufReaches_update hreachRes hfx (hpresUf y s hys)

theorem ufUnion_spec (fuel : Nat) (uf : UF) (x y : Coord) (hInv : ufInv uf)
    (hx : x ∈ uf.domain) (hy : y ∈ uf.domain) (hfuel : uf.domain.card < fuel) :
    ufInv (ufUnion fuel uf x y) ∧ (ufUnion fuel uf x y).domain = uf.domain ∧
    (∀ a b, ufER uf a b → ufER (ufUnion fuel uf x y) a b) ∧
    ufER (ufUnion fuel uf x y) x y := by
  have hhyp1 : ∃ k, k < fuel ∧ ufIsRoot uf (uf.parent^[k] x) := by
    obtain ⟨k, hk, hr⟩ := ufReach_root hInv x
    exact ⟨k, by omega, hr⟩
  obtain ⟨h1Inv, h1D, h1R, h1Reach, h1Pres⟩ := ufFind_spec fuel uf x hInv hhyp1
  have h1D2 : (ufFind fuel uf x).2.domain = uf.domain := by
    rw [h1D]
    exact Finset.insert_eq_self.mpr hx
  have hhyp2 : ∃ k, k < fuel ∧
      ufIsRoot (ufFind fuel uf x).2 ((ufFind fuel uf x).2.parent^[k] y) := by
    obtain ⟨k, hk, hr⟩ := ufReach_root h1Inv y
    refine ⟨k, ?_, hr⟩
    rw [h1D2] at hk
    omega
  obtain ⟨h2Inv, h2D, h2R, h2Reach, h2Pres⟩ :=
    ufFind_spec fuel (ufFind fuel uf x).2 y h1Inv hhyp2
  have h2D2 : (ufFind fuel (ufFind fuel uf x).2 y).2.domain = uf.domain := by
    rw [h2D, h1D2]
    exact Finset.insert_eq_self.mpr hy
  simp only [ufUnion]
  set u1 := (ufFind fuel uf x).2 with hu1def
  set r1 := (ufFind fuel uf x).1 with hr1def
  set u2 := (ufFind fuel u1 y).2 with hu2def
  set r2 := (ufFind fuel u1 y).1 with hr2def
  have hxu2 : ufReaches u2 x r1 := h2Pres x r1 (h1Pres x r1 h1Reach)
  have hyu2 : ufReaches u2 y r2 := h2Pres y r2 h2Reach
  have hPresU2 : ∀ a s, ufReaches uf a s → ufReaches u2 a s := by
    intro a s hs
    exact h2Pres a s (h1Pres a s hs)
  have hRoot1 : ufIsRoot u2 r1 := by
    obtain ⟨k, _, hr⟩ := hxu2
    exact hr
  have hRoot2 : ufIsRoot u2 r2 := by
    obtain ⟨k, _, hr⟩ := hyu2
    exact hr
  have hDom1 : r1 ∈ u2.domain := by
    obtain ⟨k, hk, _⟩ := h1Reach
    rw [h2D2, ← hk]
    exact ufChain_mem hInv hx k
  have hDom2 : r2 ∈ u2.domain := by
    obtain ⟨k, hk, _⟩ := h2Reach
    rw [h2D2, ← h1D2, ← hk]
    refine ufChain_mem h1Inv ?_ k
    rw [h1D2]
    exact hy
  by_cases hrr : r1 = r2
  · rw [if_pos hrr]
    refine ⟨h2Inv, h2D2, ?_, ?_⟩
    · intro a b hab
      obtain ⟨r, ha, hb⟩ := hab
      exact ⟨r, hPresU2 a r ha, hPresU2 b r hb⟩
    · refine ⟨r2, ?_, hyu2⟩
      rw [← hrr]
      exact hxu2
  · rw [if_neg hrr]
    by_cases hlt : u2.rank r1 < u2.rank r2
    · rw [if_pos hlt]
      obtain ⟨hLInv, hLmap⟩ := ufLink_spec u2 r1 r2 u2.rank hRoot1 hRoot2 hrr
        hDom1 hDom2 h2Inv.1 hlt h2Inv.2
      refine ⟨hLInv, h2D2, ?_, ?_⟩
      · intro a b hab
        obtain ⟨r, ha, hb⟩ := hab
        exact ⟨_, hLmap a r (hPresU2 a r ha), hLmap b r (hPresU2 b r hb)⟩
      · refine ⟨r2, ?_, ?_⟩
        · have hmx := hLmap x r1 hxu2
          rw [if_pos rfl] at hmx
          exact hmx
        · have hmy := hLmap y r2 hyu2
          rw [if_neg (fun h => hrr h.symm)] at hmy
          exact hmy
    · rw [if_neg hlt]
      by_cases hlt2 : u2.rank r2 < u2.rank r1
      · rw [if_pos hlt2]
        obtain ⟨hLInv, hLmap⟩ := ufLink_spec u2 r2 r1 u2.rank hRoot2 hRoot1
          (fun h => hrr h.symm) hDom2 hDom1 h2Inv.1 hlt2 h2Inv.2
        refine ⟨hLInv, h2D2, ?_, ?_⟩
        · intro a b hab
          obtain ⟨r, ha, hb⟩ := hab
          exact ⟨_, hLmap a r (hPresU2 a r ha), hLmap b r (hPresU2 b r hb)⟩
        · refine ⟨r1, ?_, ?_⟩
          · have hmx := hLmap x r1 hxu2
            rw [if_neg hrr] at hmx
            exact hmx
          · have hmy := hLmap y r2 hyu2
            rw [if_pos rfl] at hmy
            exact hmy
      · rw [if_neg hlt2]
        have hstrict3 : ∀ z, u2.parent z ≠ z → z ∈ u2.domain ∧
            u2.parent z ∈ u2.domain ∧
            Function.update u2.rank r1 (u2.rank r1 + 1) z <
              Function.update u2.rank r1 (u2.rank r1 + 1) (u2.parent z) := by
          intro z hz
          obtain ⟨hz1, hz2, hz3⟩ := h2Inv.1 z hz
          refine ⟨hz1, hz2, ?_⟩
          have hzr1 : z ≠ r1 := by
            intro h
            rw [h] at hz
            exact hz hRoot1
          rw [Function.update_noteq hzr1]
          by_cases hpz : u2.parent z = r1
          · rw [hpz, Function.update_same]
            rw [hpz] at hz3
            omega
          · rw [Function.update_noteq hpz]
            exact hz3
        have hedge3 : Function.update u2.rank r1 (u2.rank r1 + 1) r2 <
            Function.update u2.rank r1 (u2.rank r1 + 1) r1 := by
          rw [Function.update_noteq (fun h => hrr h.symm), Function.update_same]
          omega
        have hzero3 : ∀ z, z ∉ u2.domain →
            Function.update u2.rank r1 (u2.rank r1 + 1) z = 0 := by
          intro z hz
          have hzr1 : z ≠ r1 := by
            intro h
            rw [h] at hz
            exact hz hDom1
          rw [Function.update_noteq hzr1]
          exact h2Inv.2 z hz
        obtain ⟨hLInv, hLmap⟩ := ufLink_spec u2 r2 r1
          (Function.update u2.rank r1 (u2.rank r1 + 1)) hRoot2 hRoot1
          (fun h => hrr h.symm) hDom2 hDom1 hstrict3 hedge3 hzero3
        refine ⟨hLInv, h2D2, ?_, ?_⟩
        · intro a b hab
          obtain ⟨r, ha, hb⟩ := hab
          exact ⟨_, hLmap a r (hPresU2 a r ha), hLmap b r (hPresU2 b r hb)⟩
        · refine ⟨r1, ?_, ?_⟩
          · have hmx := hLmap x r1 hxu2
            rw [if_neg hrr] at hmx
            exact hmx
          · have hmy := hLmap y r2 hyu2
            rw [if_pos rfl] at hmy
            exact hmy

theorem ufAddList_spec (l : List Coord) : ∀ uf : UF, ufInv uf →
    ufInv (l.foldl ufAdd uf) ∧ (l.foldl ufAdd uf).domain = uf.domain ∪ l.toFinset := by
  induction l with
  | nil =>
    intro uf h
    exact ⟨h, by simp⟩
  | cons a l ih =>
    intro uf h
    rw [List.foldl_cons]
    obtain ⟨hInv2, _, _, hD⟩ := ufAdd_spec uf a h
    obtain ⟨hI, hDD⟩ := ih (ufAdd uf a) hInv2
    refine ⟨hI, ?_⟩
    rw [hDD, hD]
    ext z
    simp only [Finset.mem_union, Finset.mem_insert, List.toFinset_cons, List.mem_toFinset]
    tauto

theorem ufAddAll_fold (cs : List Constr) : ∀ uf : UF, ufInv uf →
    ufInv (cs.foldl (fun uf c => (listOf c.1).foldl ufAdd uf) uf) ∧
    (cs.foldl (fun uf c => (listOf c.1).foldl ufAdd uf) uf).domain =
      uf.domain ∪ cellsOf cs := by
  induction cs with
  | nil =>
    intro uf h
    exact ⟨h, by simp [cellsOf]⟩
  | cons c cs ih =>
    intro uf h
    rw [List.foldl_cons]
    obtain ⟨hI1, hD1⟩ := ufAddList_spec (listOf c.1) uf h
    obtain ⟨hI2, hD2⟩ := ih _ hI1
    refine ⟨hI2, ?_⟩
    rw [hD2, hD1, listOf_toFinset]
    ext z
    simp only [Finset.mem_union, mem_cellsOf, List.mem_cons]
    constructor
    · intro hz
      rcases hz with (hz | hz) | ⟨d, hd, hzd⟩
      · exact Or.inl hz
      · exact Or.inr ⟨c, Or.inl rfl, hz⟩
      · exact Or.inr ⟨d, Or.inr hd, hzd⟩
    · intro hz
      rcases hz with hz | ⟨d, hd | hd, hzd⟩
      · exact Or.inl (Or.inl hz)
      · subst hd
        exact Or.inl (Or.inr hzd)
      · exact Or.inr ⟨d, hd, hzd⟩

theorem ufAddAll_spec (cs : List Constr) :
    ufInv (ufAddAll cs) ∧ (ufAddAll cs).domain = cellsOf cs := by
  have hempty : ufInv UF.empty := by
    constructor
    · intro x hx
      exact absurd rfl hx
    · intro x hx
      rfl
  obtain ⟨hI, hD⟩ := ufAddAll_fold cs UF.empty hempty
  refine ⟨hI, ?_⟩
  rw [show (ufAddAll cs).domain =
    (cs.foldl (fun uf c => (listOf c.1).foldl ufAdd uf) UF.empty).domain from rfl, hD]
  show (∅ : Finset Coord) ∪ cellsOf cs = cellsOf cs
  simp

theorem ufUnionFold_spec (fuel : Nat) (cl : List Coord) (l : List Nat) :
    ∀ u : UF, (∀ j ∈ l, j + 1 < cl.length) → (∀ a ∈ cl, a ∈ u.domain) →
    ufInv u → u.domain.card < fuel →
    ufInv (l.foldl (fun u j => ufUnion fuel u (cl.getD j (0, 0))
      (cl.getD (j + 1) (0, 0))) u) ∧
    (l.foldl (fun u j => ufUnion fuel u (cl.getD j (0, 0))
      (cl.getD (j + 1) (0, 0))) u).domain = u.domain ∧
    (∀ a b, ufER u a b → ufER (l.foldl (fun u j => ufUnion fuel u (cl.getD j (0, 0))
      (cl.getD (j + 1) (0, 0))) u) a b) ∧
    (∀ j ∈ l, ufER (l.foldl (fun u j => ufUnion fuel u (cl.getD j (0, 0))
      (cl.getD (j + 1) (0, 0))) u) (cl.getD j (0, 0)) (cl.getD (j + 1) (0, 0))) := by
  induction l with
  | nil =>
    intro u hj hcl hI hf
    exact ⟨hI, rfl, fun a b h => h, by simp⟩
  | cons j js ih =>
    intro u hj hcl hI hf
    rw [List.foldl_cons]
    have hjlen := hj j (List.mem_cons_self _ _)
    have hmem1 : cl.getD j (0, 0) ∈ u.domain := by
      apply hcl
      rw [List.getD_eq_getElem cl (0, 0) (by omega)]
      exact List.getElem_mem _
    have hmem2 : cl.getD (j + 1) (0, 0) ∈ u.domain := by
      apply hcl
      rw [List.getD_eq_getElem cl (0, 0) hjlen]
      exact List.getElem_mem _
    obtain ⟨hUI, hUD, hUP, hUER⟩ := ufUnion_spec fuel u (cl.getD j (0, 0))
      (cl.getD (j + 1) (0, 0)) hI hmem1 hmem2 hf
    obtain ⟨hI2, hD2, hP2, hER2⟩ := ih
      (ufUnion fuel u (cl.getD j (0, 0)) (cl.getD (j + 1) (0, 0)))
      (fun j2 hj2 => hj j2 (List.mem_cons_of_mem _ hj2))
      (fun a ha => by rw [hUD]; exact hcl a ha) hUI (by rw [hUD]; exact hf)
    refine ⟨hI2, hD2.trans hUD, ?_, ?_⟩
    · intro a b hab
      exact hP2 a b (hUP a b hab)
    · intro j2 hj2
      rcases List.mem_cons.mp hj2 with heq | hmem
      · subst heq
        exact hP2 _ _ hUER
      · exact hER2 j2 hmem

theorem ufUnionCon_spec (fuel : Nat) (u : UF) (c : Constr) (hI : ufInv u)
    (hsub : ∀ a ∈ c.1, a ∈ u.domain) (hf : u.domain.card < fuel) :
    ufInv (ufUnionCon fuel u c) ∧ (ufUnionCon fuel u c).domain = u.domain ∧
    (∀ a b, ufER u a b → ufER (ufUnionCon fuel u c) a b) ∧
    (∀ a ∈ c.1, ∀ b ∈ c.1, ufER (ufUnionCon fuel u c) a b) := by
  have hcl : ∀ a ∈ listOf c.1, a ∈ u.domain := by
    intro a ha
    exact hsub a ((mem_listOf _ _).mp ha)
  have hjs : ∀ j ∈ List.range ((listOf c.1).length - 1), j + 1 < (listOf c.1).length := by
    intro j hj
    rw [List.mem_range] at hj
    omega
  obtain ⟨hI2, hD2, hP2, hER2⟩ := ufUnionFold_spec fuel (listOf c.1)
    (List.range ((listOf c.1).length - 1)) u hjs hcl hI hf
  refine ⟨hI2, hD2, hP2, ?_⟩
  have hchain : ∀ i j, i ≤ j → j < (listOf c.1).length →
      ufER (ufUnionCon fuel u c) ((listOf c.1).getD i (0, 0))
        ((listOf c.1).getD j (0, 0)) := by
    intro i j hij hj
    obtain ⟨d, rfl⟩ := Nat.exists_eq_add_of_le hij
    clear hij
    induction d with
    | zero => exact ufER_refl hI2 _
    | succ d ihd =>
      have hstep : ufER (ufUnionCon fuel u c) ((listOf c.1).getD (i + d) (0, 0))
          ((listOf c.1).getD (i + d + 1) (0, 0)) := by
        apply hER2
        rw [List.mem_range]
        omega
      have hfirst : ufER (ufUnionCon fuel u c) ((listOf c.1).getD i (0, 0))
          ((listOf c.1).getD (i + d) (0, 0)) := ihd (by omega)
      have hcomb := ufER_trans hfirst hstep
      rw [show i + (d + 1) = i + d + 1 by omega]
      exact hcomb
  intro a ha b hb
  obtain ⟨i, hi, hai⟩ := List.mem_iff_getElem.mp ((mem_listOf _ _).mpr ha)
  obtain ⟨j, hjl, hbj⟩ := List.mem_iff_getElem.mp ((mem_listOf _ _).mpr hb)
  have hga : (listOf c.1).getD i (0, 0) = a := by
    rw [List.getD_eq_getElem _ _ hi]
    exact hai
  have hgb : (listOf c.1).getD j (0, 0) = b := by
    rw [List.getD_eq_getElem _ _ hjl]
    exact hbj
  rcases le_total i j with hij | hij
  · have hc := hchain i j hij hjl
    rw [hga, hgb] at hc
    exact hc
  · have hc := hchain j i hij hi
    rw [hga, hgb] at hc
    exact ufER_symm hc

theorem ufUnionAll_spec (fuel : Nat) (cs2 : List Constr) : ∀ u : UF,
    (∀ c ∈ cs2, ∀ a ∈ c.1, a ∈ u.domain) → ufInv u → u.domain.card < fuel →
    ufInv (ufUnionAll fuel cs2 u) ∧ (ufUnionAll fuel cs2 u).domain = u.domain ∧
    (∀ a b, ufER u a b → ufER (ufUnionAll fuel cs2 u) a b) ∧
    (∀ c ∈ cs2, ∀ a ∈ c.1, ∀ b ∈ c.1, ufER (ufUnionAll fuel cs2 u) a b) := by
  induction cs2 with
  | nil =>
    intro u h hI hf
    exact ⟨hI, rfl, fun a b hab => hab, by simp⟩
  | cons c cs2 ih =>
    intro u h hI hf
    rw [show ufUnionAll fuel (c :: cs2) u = ufUnionAll fuel cs2 (ufUnionCon fuel u c)
      from rfl]
    obtain ⟨hI1, hD1, hP1, hER1⟩ := ufUnionCon_spec fuel u c hI
      (h c (List.mem_cons_self _ _)) hf
    obtain ⟨hI2, hD2, hP2, hER2⟩ := ih (ufUnionCon fuel u c)
      (fun c2 hc2 a ha => by rw [hD1]; exact h c2 (List.mem_cons_of_mem _ hc2) a ha)
      hI1 (by rw [hD1]; exact hf)
    refine ⟨hI2, hD2.trans hD1, fun a b hab => hP2 a b (hP1 a b hab), ?_⟩
    intro c2 hc2 a ha b hb
    rcases List.mem_cons.mp hc2 with heq | hmem
    · subst heq
      exact hP2 a b (hER1 a ha b hb)
    · exact hER2 c2 hmem a ha b hb

theorem ufGroupsFold_spec (fuel : Nat) (l : List Coord) :
    ∀ acc : List (Coord × Finset Coord) × UF, ufInv acc.2 →
    (∀ a ∈ l, a ∈ acc.2.domain) → acc.2.domain.card < fuel →
    ufInv (l.foldl (fun acc x =>
      let r := ufFind fuel acc.2 x
      (dictAddSet acc.1 r.1 x, r.2)) acc).2 ∧
    (l.foldl (fun acc x =>
      let r := ufFind fuel acc.2 x
      (dictAddSet acc.1 r.1 x, r.2)) acc).2.domain = acc.2.domain ∧
    (∀ y s, ufReaches acc.2 y s → ufReaches (l.foldl (fun acc x =>
      let r := ufFind fuel acc.2 x
      (dictAddSet acc.1 r.1 x, r.2)) acc).2 y s) := by
  induction l with
  | nil =>
    intro acc hI hmem hf
    exact ⟨hI, rfl, fun y s h => h⟩
  | cons a l ih =>
    intro acc hI hmem hf
    rw [List.foldl_cons]
    have hhyp : ∃ k, k < fuel ∧ ufIsRoot acc.2 (acc.2.parent^[k] a) := by
      obtain ⟨k, hk, hr⟩ := ufReach_root hI a
      exact ⟨k, by omega, hr⟩
    obtain ⟨hFI, hFD, hFR, hFReach, hFP⟩ := ufFind_spec fuel acc.2 a hI hhyp
    have hFD2 : (ufFind fuel acc.2 a).2.domain = acc.2.domain := by
      rw [hFD]
      exact Finset.insert_eq_self.mpr (hmem a (List.mem_cons_self _ _))
    obtain ⟨hI2, hD2, hP2⟩ := ih
      (dictAddSet acc.1 (ufFind fuel acc.2 a).1 a, (ufFind fuel acc.2 a).2) hFI
      (fun z hz => by
        show z ∈ (ufFind fuel acc.2 a).2.domain
        rw [hFD2]
        exact hmem z (List.mem_cons_of_mem _ hz))
      (by
        show (ufFind fuel acc.2 a).2.domain.card < fuel
        rw [hFD2]
        exact hf)
    refine ⟨hI2, hD2.trans hFD2, ?_⟩
    intro y s hys
    exact hP2 y s (hFP y s hys)

theorem ufGroups_spec (fuel : Nat) (uf : UF) (hI : ufInv uf)
    (hf : uf.domain.card < fuel) :
    ufInv (ufGroups fuel uf).2 ∧ (ufGroups fuel uf).2.domain = uf.domain ∧
    (∀ y s, ufReaches uf y s → ufReaches (ufGroups fuel uf).2 y s) := by
  obtain ⟨h1, h2, h3⟩ := ufGroupsFold_spec fuel (listOf uf.domain) ([], uf) hI
    (fun a ha => (mem_listOf _ _).mp ha) hf
  exact ⟨h1, h2, h3⟩

theorem mem_dictAddCon_strong (d : List (Coord × List Constr)) (k : Coord) (c : Constr)
    (e : Coord × List Constr) (he : e ∈ dictAddCon d k c) :
    e ∈ d ∨ (∃ e0 ∈ d, e0.1 = k ∧ e = (k, e0.2 ++ [c])) ∨ e = (k, [c]) := by
  unfold dictAddCon at he
  by_cases hany : d.any (fun e0 => e0.1 = k) = true
  · rw [if_pos hany] at he
    obtain ⟨e0, he0, heq⟩ := List.mem_map.mp he
    by_cases h0 : e0.1 = k
    · right
      left
      refine ⟨e0, he0, h0, ?_⟩
      rw [← heq]
      simp [h0]
    · left
      rw [← heq]
      simpa [h0] using he0
  · rw [if_neg hany] at he
    rcases List.mem_append.mp he with h | h
    · exact Or.inl h
    · right
      right
      simpa using h

theorem dictAddCon_keys_nodup (d : List (Coord × List Constr)) (k : Coord) (c : Constr)
    (hnd : (d.map Prod.fst).Nodup) :
    ((dictAddCon d k c).map Prod.fst).Nodup := by
  unfold dictAddCon
  by_cases hany : d.any (fun e => e.1 = k) = true
  · rw [if_pos hany]
    have hkeys : (d.map (fun e => if e.1 = k then (e.1, e.2 ++ [c]) else e)).map
        Prod.fst = d.map Prod.fst := by
      rw [List.map_map]
      apply List.map_congr_left
      intro e he
      by_cases h : e.1 = k <;> simp [h]
    rw [hkeys]
    exact hnd
  · rw [if_neg hany]
    rw [List.map_append]
    have hk : k ∉ d.map Prod.fst := by
      intro hmem
      apply hany
      rw [List.any_eq_true]
      obtain ⟨e, he, he1⟩ := List.mem_map.mp hmem
      exact ⟨e, he, by simp [he1]⟩
    rw [List.nodup_append]
    refine ⟨hnd, by simp, ?_⟩
    intro a ha hb
    simp only [List.map_cons, List.map_nil, List.mem_singleton] at hb
    rw [hb] at ha
    exact hk ha

theorem nodup_keys_eq {α β : Type} {d : List (α × β)} (hnd : (d.map Prod.fst).Nodup)
    {k : α} {g1 g2 : β} (h1 : (k, g1) ∈ d) (h2 : (k, g2) ∈ d) : g1 = g2 := by
  induction d with
  | nil => exact absurd h1 (List.not_mem_nil _)
  | cons e d ih =>
    rw [List.map_cons, List.nodup_cons] at hnd
    rcases List.mem_cons.mp h1 with he1 | he1
    · rcases List.mem_cons.mp h2 with he2 | he2
      · have heq := he1.trans he2.symm
        simpa using heq
      · exfalso
        apply hnd.1
        rw [← he1]
        exact List.mem_map.mpr ⟨(k, g2), he2, rfl⟩
    · rcases List.mem_cons.mp h2 with he2 | he2
      · exfalso
        apply hnd.1
        rw [← he2]
        exact List.mem_map.mpr ⟨(k, g1), he1, rfl⟩
      · exact ih hnd.2 he1 he2

theorem join_map_extend (k : Coord) (c : Constr) :
    ∀ d : List (Coord × List Constr), (d.map Prod.fst).Nodup →
    k ∈ d.map Prod.fst →
    ((d.map (fun e0 => if e0.1 = k then (e0.1, e0.2 ++ [c]) else e0)).map
      (fun e => e.2)).flatten.Perm (((d.map (fun e => e.2)).flatten) ++ [c]) := by
  intro d
  induction d with
  | nil =>
    intro _ hk
    simp at hk
  | cons e d ih =>
    intro hnd hk
    rw [List.map_cons, List.nodup_cons] at hnd
    obtain ⟨hnd1, hnd2⟩ := hnd
    by_cases h0 : e.1 = k
    · have hrest : d.map (fun e0 => if e0.1 = k then (e0.1, e0.2 ++ [c]) else e0) = d := by
        have hid : ∀ e0 ∈ d, (if e0.1 = k then (e0.1, e0.2 ++ [c]) else e0) = e0 := by
          intro e0 he0
          rw [if_neg]
          intro hc
          exact hnd1 (List.mem_map.mpr ⟨e0, he0, hc.trans h0.symm⟩)
        exact (List.map_congr_left hid).trans (List.map_id d)
      rw [List.map_cons, hrest]
      rw [show (if e.1 = k then (e.1, e.2 ++ [c]) else e) = (e.1, e.2 ++ [c])
        from if_pos h0]
      rw [List.map_cons, List.map_cons, List.flatten_cons, List.flatten_cons]
      show List.Perm ((e.2 ++ [c]) ++ (d.map (fun e => e.2)).flatten)
        ((e.2 ++ (d.map (fun e => e.2)).flatten) ++ [c])
      rw [List.append_assoc, List.append_assoc]
      exact List.Perm.append_left e.2 List.perm_append_comm
    · have hk2 : k ∈ d.map Prod.fst := by
        rcases List.mem_cons.mp hk with h | h
        · exact absurd h.symm h0
        · exact h
      rw [List.map_cons,
        show (if e.1 = k then (e.1, e.2 ++ [c]) else e) = e from if_neg h0]
      rw [List.map_cons, List.map_cons, List.flatten_cons, List.flatten_cons]
      have hihp := ih hnd2 hk2
      have h1 := List.Perm.append_left e.2 hihp
      have h2 : e.2 ++ (((d.map (fun e => e.2)).flatten) ++ [c]) =
          (e.2 ++ (d.map (fun e => e.2)).flatten) ++ [c] :=
        (List.append_assoc _ _ _).symm
      rw [h2] at h1
      exact h1

theorem dictAddCon_join (d : List (Coord × List Constr)) (k : Coord) (c : Constr)
    (hnd : (d.map Prod.fst).Nodup) :
    ((dictAddCon d k c).map (fun e => e.2)).flatten.Perm
      ((d.map (fun e => e.2)).flatten ++ [c]) := by
  unfold dictAddCon
  by_cases hany : d.any (fun e0 => e0.1 = k) = true
  · rw [if_pos hany]
    apply join_map_extend k c d hnd
    rw [List.any_eq_true] at hany
    obtain ⟨e, he, he1⟩ := hany
    rw [decide_eq_true_eq] at he1
    exact List.mem_map.mpr ⟨e, he, he1⟩
  · rw [if_neg hany]
    rw [List.map_append, List.flatten_append]
    simp

theorem regionStep_fold_spec (fuel : Nat) :
    ∀ (cs2 : List Constr) (d : List (Coord × List Constr)) (u : UF),
    (∀ c ∈ cs2, c.1 ≠ ∅) →
    (∀ c ∈ cs2, ∀ a ∈ c.1, a ∈ u.domain) →
    ufInv u → u.domain.card < fuel →
    ((d.map Prod.fst).Nodup) →
    (∀ e ∈ d, ∀ c2 ∈ e.2, ∃ x0 ∈ c2.1, ufReaches u x0 e.1) →
    ∃ d2 u2, cs2.foldl (regionStep fuel) (some (d, u)) = some (d2, u2) ∧
      ufInv u2 ∧ u2.domain = u.domain ∧
      (∀ y s, ufReaches u y s → ufReaches u2 y s) ∧
      ((d2.map Prod.fst).Nodup) ∧
      (∀ e ∈ d2, ∀ c2 ∈ e.2, ∃ x0 ∈ c2.1, ufReaches u2 x0 e.1) ∧
      ((d2.map (fun e => e.2)).flatten.Perm
        ((d.map (fun e => e.2)).flatten ++ cs2)) := by
  intro cs2
  induction cs2 with
  | nil =>
    intro d u hne hsub hI hf hnd hreach
    exact ⟨d, u, rfl, hI, rfl, fun y s h => h, hnd, hreach, by simp⟩
  | cons c cs2 ih =>
    intro d u hne hsub hI hf hnd hreach
    rw [List.foldl_cons]
    have hc1 : ¬listOf c.1 = [] := by
      rw [listOf_eq_nil]
      exact hne c (List.mem_cons_self _ _)
    cases hl : listOf c.1 with
    | nil => exact absurd hl hc1
    | cons y ys =>
      have hy : y ∈ c.1 := (mem_listOf _ _).mp (by rw [hl]; exact List.mem_cons_self _ _)
      have hyd : y ∈ u.domain := hsub c (List.mem_cons_self _ _) y hy
      have hhyp : ∃ k, k < fuel ∧ ufIsRoot u (u.parent^[k] y) := by
        obtain ⟨k, hk, hr⟩ := ufReach_root hI y
        exact ⟨k, by omega, hr⟩
      obtain ⟨hFI, hFD, hFR, hFReach, hFP⟩ := ufFind_spec fuel u y hI hhyp
      have hFD2 : (ufFind fuel u y).2.domain = u.domain := by
        rw [hFD]
        exact Finset.insert_eq_self.mpr hyd
      have hstep : regionStep fuel (some (d, u)) c =
          some (dictAddCon d (ufFind fuel u y).1 c, (ufFind fuel u y).2) := by
        simp only [regionStep, hl]
      rw [hstep]
      have hnd2 := dictAddCon_keys_nodup d (ufFind fuel u y).1 c hnd
      have hreach2 : ∀ e ∈ dictAddCon d (ufFind fuel u y).1 c, ∀ c2 ∈ e.2,
          ∃ x0 ∈ c2.1, ufReaches (ufFind fuel u y).2 x0 e.1 := by
        intro e he c2 hc2
        rcases mem_dictAddCon_strong d _ c e he with hmem | ⟨e0, he0, hk0, heq⟩ | heq
        · obtain ⟨x0, hx0, hrx⟩ := hreach e hmem c2 hc2
          exact ⟨x0, hx0, hFP x0 e.1 hrx⟩
        · subst heq
          rcases List.mem_append.mp hc2 with hmem2 | hmem2
          · obtain ⟨x0, hx0, hrx⟩ := hreach e0 he0 c2 hmem2
            refine ⟨x0, hx0, ?_⟩
            show ufReaches (ufFind fuel u y).2 x0 (ufFind fuel u y).1
            rw [← hk0]
            exact hFP x0 e0.1 hrx
          · rw [List.mem_singleton] at hmem2
            subst hmem2
            exact ⟨y, hy, hFP y _ hFReach⟩
        · subst heq
          rw [List.mem_singleton] at hc2
          subst hc2
          exact ⟨y, hy, hFP y _ hFReach⟩
      obtain ⟨d2, u2, hfold, hI2, hD2, hP2, hnd3, hreach3, hperm⟩ := ih
        (dictAddCon d (ufFind fuel u y).1 c) (ufFind fuel u y).2
        (fun c2 hc2 => hne c2 (List.mem_cons_of_mem _ hc2))
        (fun c2 hc2 a ha => by
          rw [hFD2]
          exact hsub c2 (List.mem_cons_of_mem _ hc2) a ha)
        hFI (by rw [hFD2]; exact hf) hnd2 hreach2
      refine ⟨d2, u2, hfold, hI2, hD2.trans hFD2, ?_, hnd3, hreach3, ?_⟩
      · intro z s hz
        exact hP2 z s (hFP z s hz)
      · have h1 := dictAddCon_join d (ufFind fuel u y).1 c hnd
        have hB := List.Perm.append_right cs2 h1
        have hC := hperm.trans hB
        rw [List.append_assoc] at hC
        exact hC

/-- **C9** (amended): for every constraint list in which every constraint's
    cell set is non-empty, `_find_independent_regions` returns a partition of
    the input constraints — the groups' concatenation is a permutation of the
    input, so each constraint lands in exactly one group — and any two
    constraints whose cell sets share a cell are placed in the same group
    (equivalently, constraints in different groups share no unknown cell).
    (On a constraint with an empty cell set the source raises `StopIteration`;
    this corrects the original claim, which promised a result for every
    non-empty constraint list.) -/
theorem c9_find_independent_regions (cs : List Constr)
    (hne : ∀ c ∈ cs, c.1 ≠ ∅) :
    ∃ gs, findIndependentRegions cs = some gs ∧
      gs.flatten.Perm cs ∧
      (∀ g1 ∈ gs, ∀ g2 ∈ gs, ∀ c1 ∈ g1, ∀ c2 ∈ g2,
        (c1.1 ∩ c2.1).Nonempty → g1 = g2) := by
  by_cases h0 : cs = []
  · subst h0
    refine ⟨[], rfl, by simp, ?_⟩
    intro g1 hg1
    exact absurd hg1 (List.not_mem_nil _)
  · obtain ⟨hAI, hAD⟩ := ufAddAll_spec cs
    have hsub1 : ∀ c ∈ cs, ∀ a ∈ c.1, a ∈ (ufAddAll cs).domain := by
      intro c hc a ha
      rw [hAD]
      exact subset_cellsOf hc ha
    have hfuel1 : (ufAddAll cs).domain.card < (cellsOf cs).card + 2 := by
      rw [hAD]
      omega
    obtain ⟨hUI, hUD, hUP, hUER⟩ := ufUnionAll_spec ((cellsOf cs).card + 2) cs
      (ufAddAll cs) hsub1 hAI hfuel1
    have hfuel2 : (ufUnionAll ((cellsOf cs).card + 2) cs (ufAddAll cs)).domain.card <
        (cellsOf cs).card + 2 := by
      rw [hUD, hAD]
      omega
    obtain ⟨hGI, hGD, hGP⟩ := ufGroups_spec ((cellsOf cs).card + 2)
      (ufUnionAll ((cellsOf cs).card + 2) cs (ufAddAll cs)) hUI hfuel2
    have hconB : ∀ c ∈ cs, ∀ a ∈ c.1, ∀ b ∈ c.1,
        ufER (ufGroups ((cellsOf cs).card + 2)
          (ufUnionAll ((cellsOf cs).card + 2) cs (ufAddAll cs))).2 a b := by
      intro c hc a ha b hb
      obtain ⟨r, hra, hrb⟩ := hUER c hc a ha b hb
      exact ⟨r, hGP a r hra, hGP b r hrb⟩
    have hsub2 : ∀ c ∈ cs, ∀ a ∈ c.1, a ∈ (ufGroups ((cellsOf cs).card + 2)
        (ufUnionAll ((cellsOf cs).card + 2) cs (ufAddAll cs))).2.domain := by
      intro c hc a ha
      rw [hGD, hUD, hAD]
      exact subset_cellsOf hc ha
    have hfuel3 : (ufGroups ((cellsOf cs).card + 2)
        (ufUnionAll ((cellsOf cs).card + 2) cs (ufAddAll cs))).2.domain.card <
        (cellsOf cs).card + 2 := by
      rw [hGD, hUD, hAD]
      omega
    obtain ⟨d2, u2, hfold, hI2, hD2, hP2, hnd2, hreach2, hperm2⟩ :=
      regionStep_fold_spec ((cellsOf cs).card + 2) cs []
        (ufGroups ((cellsOf cs).card + 2)
          (ufUnionAll ((cellsOf cs).card + 2) cs (ufAddAll cs))).2
        hne hsub2 hGI hfuel3 (by simp) (by simp)
    refine ⟨d2.map (fun e => e.2), ?_, ?_, ?_⟩
    · simp only [findIndependentRegions, h0, if_false]
      rw [hfold]
    · simpa using hperm2
    · intro g1 hg1 g2 hg2 c1 hc1 c2 hc2 hshare
      obtain ⟨e1, he1, heq1⟩ := List.mem_map.mp hg1
      obtain ⟨e2, he2, heq2⟩ := List.mem_map.mp hg2
      subst heq1
      subst heq2
      obtain ⟨z, hz⟩ := hshare
      rw [Finset.mem_inter] at hz
      have hcs1 : c1 ∈ cs := by
        rcases regionStep_fold_subset ((cellsOf cs).card + 2) cs _ (d2, u2) hfold
          e1 he1 c1 hc1 with ⟨e0, he0, _⟩ | hmem
        · exact absurd he0 (List.not_mem_nil _)
        · exact hmem
      have hcs2 : c2 ∈ cs := by
        rcases regionStep_fold_subset ((cellsOf cs).card + 2) cs _ (d2, u2) hfold
          e2 he2 c2 hc2 with ⟨e0, he0, _⟩ | hmem
        · exact absurd he0 (List.not_mem_nil _)
        · exact hmem
      obtain ⟨x1, hx1, hr1⟩ := hreach2 e1 he1 c1 hc1
      obtain ⟨x2, hx2, hr2⟩ := hreach2 e2 he2 c2 hc2
      have hER1 : ufER u2 x1 z := by
        obtain ⟨r, hra, hrb⟩ := hconB c1 hcs1 x1 hx1 z hz.1
        exact ⟨r, hP2 x1 r hra, hP2 z r hrb⟩
      have hER2 : ufER u2 x2 z := by
        obtain ⟨r, hra, hrb⟩ := hconB c2 hcs2 x2 hx2 z hz.2
        exact ⟨r, hP2 x2 r hra, hP2 z r hrb⟩
      obtain ⟨r1, hr1a, hr1b⟩ := hER1
      obtain ⟨r2, hr2a, hr2b⟩ := hER2
      have hk1 : e1.1 = r1 := ufReaches_unique hr1 hr1a
      have hkz : r1 = r2 := ufReaches_unique hr1b hr2b
      have hk2 : r2 = e2.1 := ufReaches_unique hr2a hr2
      have hkey : e1.1 = e2.1 := by rw [hk1, hkz, hk2]
      have he2b : (e1.1, e2.2) ∈ d2 := by
        rw [hkey]
        exact he2
      have he1b : (e1.1, e1.2) ∈ d2 := he1
      exact nodup_keys_eq hnd2 he1b he2b

/-- Counterexample to Claim C9 as stated: on the non-empty constraint list
    whose single constraint has an empty cell set, `_find_independent_regions`
    hits `next(iter(set()))` and raises `StopIteration` instead of returning a
    partition. -/
theorem c9_counterexample :
    findIndependentRegions [((∅ : Finset Coord), (0 : Int))] = none := by decide

/-- Witness for the amended C9 on a three-constraint list: two overlapping
    constraints and one disjoint constraint. -/
theorem c9_find_independent_regions_witness :
    (∀ c ∈ [((({((0 : Int), (0 : Int)), ((0 : Int), (1 : Int))} : Finset Coord)),
          (1 : Int)),
        ((({((0 : Int), (1 : Int))} : Finset Coord)), (1 : Int)),
        ((({((5 : Int), (5 : Int))} : Finset Coord)), (0 : Int))], c.1 ≠ ∅) ∧
    ∃ gs, findIndependentRegions
        [((({((0 : Int), (0 : Int)), ((0 : Int), (1 : Int))} : Finset Coord)),
          (1 : Int)),
        ((({((0 : Int), (1 : Int))} : Finset Coord)), (1 : Int)),
        ((({((5 : Int), (5 : Int))} : Finset Coord)), (0 : Int))] = some gs ∧
      gs.flatten.Perm
        [((({((0 : Int), (0 : Int)), ((0 : Int), (1 : Int))} : Finset Coord)),
          (1 : Int)),
        ((({((0 : Int), (1 : Int))} : Finset Coord)), (1 : Int)),
        ((({((5 : Int), (5 : Int))} : Finset Coord)), (0 : Int))] ∧
      (∀ g1 ∈ gs, ∀ g2 ∈ gs, ∀ c1 ∈ g1, ∀ c2 ∈ g2,
        (c1.1 ∩ c2.1).Nonempty → g1 = g2) :=
  ⟨by decide, c9_find_independent_regions _ (by decide)⟩
